import Mathlib

/-!
# ncurses-tetris: a shallow embedding of `main.c` and its verified properties

The C globals (`board`, `cur`, `game_over`, `paused`, `score`, `lines_cleared`,
`level`, `tick_ms`) become the fields of `State`; every C function becomes a
function on that state.  A C `int` is a Lean `Int`.  The arithmetic on the counters
(`score`, `lines_cleared`, `level`, `tick_ms`) wraps around at 32 bits (`wrap32`), as
the compiled program does; piece coordinates stay far from the limits of `int` at
every call site and are computed in `Int`.  A result `none` stands for a read
outside `TETRO` or for a loop that was not given enough iterations (`fuel`).  A
read outside the reward table yields a value the program does not control: it
is the parameter `junk` of the model, and the code carries on with it.
-/

namespace Tetris

/-! ## Constants -/

/-- Board width, `#define BOARD_W 10`. -/
def BOARD_W : Int := 10

/-- Board height, `#define BOARD_H 20`. -/
def BOARD_H : Int := 20

/-- Initial fall interval, `#define TICK_MS_INITIAL 550`. -/
def TICK_MS_INITIAL : Int := 550

/-- Smallest fall interval, `#define TICK_MS_MIN 80`. -/
def TICK_MS_MIN : Int := 80

/-- Lines per level, `#define LEVEL_UP_LINES 10`. -/
def LEVEL_UP_LINES : Int := 10

/-! ## Data model -/

/-- The array `int board[BOARD_H][BOARD_W]` as the list of its rows, top row first. -/
abbrev Board := List (List Int)

/-- The shape of the C array: `BOARD_H` rows of `BOARD_W` cells each. -/
def Board.WF (b : Board) : Prop :=
  b.length = BOARD_H.toNat ∧ ∀ row ∈ b, row.length = BOARD_W.toNat

instance (b : Board) : Decidable (Board.WF b) := by
  unfold Board.WF; exact inferInstance

/-- The struct `typedef struct { int x, y; int type; int rot; } Piece;`. -/
structure Piece where
  x : Int
  y : Int
  type : Int
  rot : Int
  deriving DecidableEq, Repr

/-- The shape ids and rotation indices of the data model: `type` in `0..6`, `rot` in `0..3`. -/
def Piece.valid (p : Piece) : Prop :=
  0 ≤ p.type ∧ p.type < 7 ∧ 0 ≤ p.rot ∧ p.rot < 4

instance (p : Piece) : Decidable (Piece.valid p) := by
  unfold Piece.valid; exact inferInstance

/-- The table `const unsigned short TETRO[7][4]`. -/
def TETRO : List (List Nat) :=
  [ [0x0F00, 0x2222, 0x00F0, 0x4444],
    [0x0660, 0x0660, 0x0660, 0x0660],
    [0x0E40, 0x4C40, 0x4E00, 0x4640],
    [0x06C0, 0x4620, 0x06C0, 0x4620],
    [0x0C60, 0x2640, 0x0C60, 0x2640],
    [0x08E0, 0x6440, 0x0E20, 0x44C0],
    [0x02E0, 0x4460, 0x0E80, 0xC440] ]

/-- The read `TETRO[type][idx]`; `none` when an index is outside the array. -/
def TETRO_at (type idx : Int) : Option Nat :=
  if 0 ≤ type ∧ type < 7 ∧ 0 ≤ idx ∧ idx < 4 then
    (TETRO.getD type.toNat []).get? idx.toNat
  else none

/-- The globals of `main.c` that the game logic reads and writes. -/
structure State where
  board : Board
  cur : Piece
  game_over : Bool
  paused : Bool
  score : Int
  lines_cleared : Int
  level : Int
  tick_ms : Int
  deriving DecidableEq, Repr

/-! ## Pure helpers -/

/-- The helper `int max(int a, int b)`. -/
def max (a b : Int) : Int := if a > b then a else b

/-- The value of a 32-bit `int` after an arithmetic result `n`: two's-complement
wrap-around into `[-2^31, 2^31)`. -/
def wrap32 (n : Int) : Int := (n + 2147483648) % 4294967296 - 2147483648

/-- The function `bool cell(int type, int rot, int r, int c)`: `rot%4` is C's truncating
remainder, the shift amount is `15 - (r*4 + c)`. -/
def cell (type rot r c : Int) : Option Bool :=
  match TETRO_at type (Int.tmod rot 4) with
  | none => none
  | some m => some ((m >>> (15 - (r * 4 + c)).toNat) &&& 1 != 0)

/-- The read `board[y][x]` (callers guard it with the bounds checks). -/
def board_at (b : Board) (y x : Int) : Int :=
  (b.getD y.toNat []).getD x.toNat 0

/-- The write `board[y][x] = v`. -/
def board_set (b : Board) (y x : Int) (v : Int) : Board :=
  b.set y.toNat ((b.getD y.toNat []).set x.toNat v)

/-- The iteration space of `for r in 0..3, for c in 0..3`, in execution order. -/
def cell_positions : List (Int × Int) :=
  [ (0, 0), (0, 1), (0, 2), (0, 3),
    (1, 0), (1, 1), (1, 2), (1, 3),
    (2, 0), (2, 1), (2, 2), (2, 3),
    (3, 0), (3, 1), (3, 2), (3, 3) ]

/-- The loop of `can_place` over the remaining mask cells. -/
def can_place_from (b : Board) (p : Piece) : List (Int × Int) → Option Bool
  | [] => some true
  | (r, c) :: rest =>
    match cell p.type p.rot r c with
    | none => none
    | some false => can_place_from b p rest
    | some true =>
      let x := p.x + c
      let y := p.y + r
      if x < 0 ∨ x ≥ BOARD_W ∨ y ≥ BOARD_H then some false
      else if y ≥ 0 ∧ board_at b y x ≠ 0 then some false
      else can_place_from b p rest

/-- The function `bool can_place(Piece p)`. -/
def can_place (b : Board) (p : Piece) : Option Bool :=
  can_place_from b p cell_positions

/-- The loop of `lock_piece` over the remaining mask cells. -/
def lock_piece_from (p : Piece) : List (Int × Int) → Board → Option Board
  | [], b => some b
  | (r, c) :: rest, b =>
    match cell p.type p.rot r c with
    | none => none
    | some false => lock_piece_from p rest b
    | some true =>
      let x := p.x + c
      let y := p.y + r
      if y ≥ 0 ∧ y < BOARD_H ∧ x ≥ 0 ∧ x < BOARD_W then
        lock_piece_from p rest (board_set b y x (p.type + 1))
      else lock_piece_from p rest b

/-- The function `void lock_piece(Piece p)`. -/
def lock_piece (b : Board) (p : Piece) : Option Board :=
  lock_piece_from p cell_positions b

/-! ## Line clearing -/

/-- The inner scan of `clear_lines`: row `y` is full when none of its `BOARD_W`
cells is zero. -/
def row_full (b : Board) (y : Int) : Bool :=
  (List.range BOARD_W.toNat).all (fun x => board_at b y (x : Int) != 0)

/-- The copy loop `for(int yy = y; yy > 0; yy--) memcpy(board[yy], board[yy-1], ...)`,
started at `yy`. -/
def shift_rows : Nat → Board → Board
  | 0, b => b
  | yy + 1, b => shift_rows yy (b.set (yy + 1) (b.getD yy []))

/-- The body of `if(full)` without the counters: shift the rows above `y` down by
one, then `memset(board[0], 0, ...)`. -/
def clear_row (b : Board) (y : Int) : Board :=
  (shift_rows y.toNat b).set 0 (List.replicate BOARD_W.toNat 0)

/-- The loop `for(int y = ...; y >= 0; y--)` of `clear_lines`, entered with loop
variable `y` and counter `cleared`; one unit of `fuel` per executed body.  A
cleared row does `y++` before the loop's own `y--`. -/
def clear_loop : Nat → Board → Int → Int → Option (Board × Int)
  | 0, b, y, cleared => if y ≥ 0 then none else some (b, cleared)
  | fuel + 1, b, y, cleared =>
    if y ≥ 0 then
      if row_full b y then clear_loop fuel (clear_row b y) (y + 1 - 1) (cleared + 1)
      else clear_loop fuel b (y - 1) cleared
    else some (b, cleared)

/-- The function `int clear_lines(void)`: the new board and the returned count. -/
def clear_lines (fuel : Nat) (b : Board) : Option (Board × Int) :=
  clear_loop fuel b (BOARD_H - 1) 0

/-! ## Spawning, dropping, scoring -/

/-- The function `void new_piece(void)`; `t` is the value that `rnd(7)` returns. -/
def new_piece (t : Int) (s : State) : Option State :=
  let cur : Piece := { x := Int.tdiv BOARD_W 2 - 2, y := -2, type := t, rot := 0 }
  match can_place s.board cur with
  | none => none
  | some false => some { s with cur := cur, game_over := true }
  | some true => some { s with cur := cur }

/-- The array `const int table[5] = {0, 100, 300, 500, 800}` of `soft_drop`. -/
def table : List Int := [0, 100, 300, 500, 800]

/-- The read `table[c]`; `none` when `c` is outside the array. -/
def table_at (c : Int) : Option Int :=
  if 0 ≤ c ∧ c < 5 then table.get? c.toNat else none

/-- The block `if(c){ ... }` of `soft_drop`, run with the count `c` returned by
`clear_lines`; `junk` is the value that the read `table[c]` yields when `c` is outside
the array.  The sums and products are 32-bit; `lines_cleared / LEVEL_UP_LINES + 1` and
`level - 1` cannot leave the range of `int` there. -/
def soft_drop_score (junk c : Int) (s : State) : State :=
  if c ≠ 0 then
    let lines := wrap32 (s.lines_cleared + c)
    let pts := match table_at c with
      | some v => v
      | none => junk
    let score := wrap32 (s.score + wrap32 (pts * s.level))
    if Int.tdiv lines LEVEL_UP_LINES + 1 > s.level then
      let level := Int.tdiv lines LEVEL_UP_LINES + 1
      { s with lines_cleared := lines, score := score, level := level,
               tick_ms := max TICK_MS_MIN
                 (wrap32 (TICK_MS_INITIAL - wrap32 ((level - 1) * 45))) }
    else { s with lines_cleared := lines, score := score }
  else s

/-- The `else` branch of `soft_drop`: lock, clear, score, spawn. -/
def soft_drop_land (fuel : Nat) (t junk : Int) (s : State) : Option State :=
  match lock_piece s.board s.cur with
  | none => none
  | some b1 =>
    match clear_lines fuel b1 with
    | none => none
    | some (b2, c) => new_piece t (soft_drop_score junk c { s with board := b2 })

/-- The function `void soft_drop(void)`; `t` is the value `rnd(7)` returns if a piece is
spawned, `junk` the value of an out-of-bounds read of the reward table. -/
def soft_drop (fuel : Nat) (t junk : Int) (s : State) : Option State :=
  let nxt : Piece := { s.cur with y := s.cur.y + 1 }
  match can_place s.board nxt with
  | none => none
  | some true => some { s with cur := nxt }
  | some false => soft_drop_land fuel t junk s

/-- The loop `while(can_place((Piece){cur.x, cur.y + 1, cur.type, cur.rot})) cur.y++;`
of `hard_drop` (the ghost loop of `draw_board` is the same loop on a copy); one
unit of `fuel` per executed body. -/
def descend : Nat → Board → Piece → Option Piece
  | 0, b, cur =>
    match can_place b { x := cur.x, y := cur.y + 1, type := cur.type, rot := cur.rot } with
    | none => none
    | some true => none
    | some false => some cur
  | fuel + 1, b, cur =>
    match can_place b { x := cur.x, y := cur.y + 1, type := cur.type, rot := cur.rot } with
    | none => none
    | some true => descend fuel b { cur with y := cur.y + 1 }
    | some false => some cur

/-- The function `void hard_drop(void)`. -/
def hard_drop (fuel : Nat) (t junk : Int) (s : State) : Option State :=
  match descend fuel s.board s.cur with
  | none => none
  | some cur => soft_drop fuel t junk { s with cur := cur }

/-! ## Main loop -/

/-- The keys that the dispatch of `main` tells apart (`q`/`Q`, `p`/`P`, the four
arrow keys, the space bar, anything else). -/
inductive Key where
  | quit
  | pause
  | left
  | right
  | down
  | up
  | space
  | other
  deriving DecidableEq, Repr

/-- The commit-if-legal step shared by the left, right and rotate keys:
`if(can_place(n)) cur = n;`. -/
def try_move (n : Piece) (s : State) : Option State :=
  match can_place s.board n with
  | none => none
  | some true => some { s with cur := n }
  | some false => some s

/-- The key dispatch of `main` for a key `ch != ERR`.  The quit key leaves the
loop without touching the state. -/
def key_dispatch (fuel : Nat) (t junk : Int) (k : Key) (s : State) : Option State :=
  if k = Key.quit then some s
  else if !s.game_over then
    let s1 : State := if k = Key.pause then { s with paused := !s.paused } else s
    if !s1.paused then
      match k with
      | Key.left => try_move { s1.cur with x := s1.cur.x - 1 } s1
      | Key.right => try_move { s1.cur with x := s1.cur.x + 1 } s1
      | Key.down => soft_drop fuel t junk s1
      | Key.up => try_move { s1.cur with rot := Int.tmod (s1.cur.rot + 1) 4 } s1
      | Key.space => hard_drop fuel t junk s1
      | _ => some s1
    else some s1
  else some s

/-- The globals as initialised, after `memset(board, 0, sizeof(board))`. -/
def initial : State :=
  { board := List.replicate BOARD_H.toNat (List.replicate BOARD_W.toNat 0),
    cur := { x := 0, y := 0, type := 0, rot := 0 },
    game_over := false, paused := false,
    score := 0, lines_cleared := 0, level := 1, tick_ms := TICK_MS_INITIAL }

/-- The states the game can be in: the initial state after the first `new_piece`,
then gravity ticks (a `soft_drop` while neither paused nor over), key events, and
the pause that `draw_board` forces on a terminal that is too small.  Every spawn
draws its shape id `t` from `rnd(7)`, that is from `0..6`. -/
inductive Reachable : State → Prop where
  | init (t : Int) (s : State) :
      0 ≤ t → t < 7 → new_piece t initial = some s → Reachable s
  | tick (fuel : Nat) (t junk : Int) (s s' : State) :
      Reachable s → 0 ≤ t → t < 7 → s.paused = false → s.game_over = false →
      soft_drop fuel t junk s = some s' → Reachable s'
  | key (fuel : Nat) (t junk : Int) (k : Key) (s s' : State) :
      Reachable s → 0 ≤ t → t < 7 → key_dispatch fuel t junk k s = some s' → Reachable s'
  | too_small (s : State) :
      Reachable s → Reachable { s with paused := true }

/-! ## Gravity phase, ghost projection, instrumented scan -/

/-- The loop `while(fall_accum >= tick_ms){ fall_accum -= tick_ms; soft_drop(); if(game_over) break; }`
of the gravity phase of `main`, entered at iteration `i` with the accumulator `fall_accum`;
`ts i` is the value `rnd(7)` returns if iteration `i` spawns a piece and `js i` the value
of an out-of-bounds table read in iteration `i`, `cfuel` is the fuel given to each
`soft_drop`, and the first argument counts the executed bodies. -/
def gravity_loop (cfuel : Nat) (ts js : Nat → Int) :
    Nat → Nat → Int → State → Option (State × Int)
  | 0, _, fall_accum, s => if fall_accum ≥ s.tick_ms then none else some (s, fall_accum)
  | fuel + 1, i, fall_accum, s =>
    if fall_accum ≥ s.tick_ms then
      match soft_drop cfuel (ts i) (js i) s with
      | none => none
      | some s' =>
        if s'.game_over then some (s', fall_accum - s.tick_ms)
        else gravity_loop cfuel ts js fuel (i + 1) (fall_accum - s.tick_ms) s'
    else some (s, fall_accum)

/-- The gravity phase of one iteration of `main`:
`if(!paused && !game_over){ fall_accum += dt; while(...) ... }`; it returns the new
globals and the new `fall_accum`. -/
def gravity_phase (cfuel fuel : Nat) (ts js : Nat → Int) (dt fall_accum : Int) (s : State) :
    Option (State × Int) :=
  if !s.paused && !s.game_over then gravity_loop cfuel ts js fuel 0 (fall_accum + dt) s
  else some (s, fall_accum)

/-- The ghost loop of `draw_board`,
`while(can_place((Piece){g.x, g.y + 1, g.type, g.rot})) g.y++;`; one unit of `fuel` per
executed body. -/
def ghost_loop : Nat → Board → Piece → Option Piece
  | 0, b, g =>
    match can_place b { x := g.x, y := g.y + 1, type := g.type, rot := g.rot } with
    | none => none
    | some true => none
    | some false => some g
  | fuel + 1, b, g =>
    match can_place b { x := g.x, y := g.y + 1, type := g.type, rot := g.rot } with
    | none => none
    | some true => ghost_loop fuel b { g with y := g.y + 1 }
    | some false => some g

/-- The ghost projection of `draw_board`: `Piece g = cur;` followed by the ghost loop.  It
returns the globals as `draw_board` leaves them at that point, and the piece `g`. -/
def ghost (fuel : Nat) (s : State) : Option (State × Piece) :=
  match ghost_loop fuel s.board s.cur with
  | none => none
  | some g => some (s, g)

/-- The loop of `clear_lines` as in `clear_loop`, recording in addition every value of
`y` with which a row `board[y]` is read, in the order of the reads. -/
def clear_loop_reads : Nat → Board → Int → Int → List Int → Option (Board × Int × List Int)
  | 0, b, y, cleared, reads => if y ≥ 0 then none else some (b, cleared, reads)
  | fuel + 1, b, y, cleared, reads =>
    if y ≥ 0 then
      if row_full b y then
        clear_loop_reads fuel (clear_row b y) (y + 1 - 1) (cleared + 1) (reads ++ [y])
      else clear_loop_reads fuel b (y - 1) cleared (reads ++ [y])
    else some (b, cleared, reads)

/-! ## Row-level views used in the proofs -/

/-- The row that `memset(board[0], 0, sizeof(board[0]))` writes. -/
def zero_row : List Int := List.replicate BOARD_W.toNat 0

/-- The scan of `row_full` on a row taken by itself. -/
def full_row (row : List Int) : Bool := row_full [row] 0

/-- The board invariant carried through the reachable states in the proofs: the board has
the shape of the array and no full row, and the active piece has a shape id in `0..6` and
a rotation in `0..3`. -/
def Inv (s : State) : Prop :=
  s.board.WF ∧ (∀ y : Int, 0 ≤ y → y < BOARD_H → row_full s.board y = false) ∧
  s.cur.valid

/-- The range of a 32-bit `int`. -/
def fits_int (n : Int) : Prop := -2147483648 ≤ n ∧ n ≤ 2147483647

instance (n : Int) : Decidable (fits_int n) := by
  unfold fits_int; exact inferInstance

/-- What holds of the counters in every reachable state: `lines_cleared` is a 32-bit
value, `level` is at least 1 and at least `lines_cleared / LEVEL_UP_LINES + 1`, and
`tick_ms` is at least `TICK_MS_MIN`. -/
def CountersFit (s : State) : Prop :=
  fits_int s.lines_cleared ∧ Int.tdiv s.lines_cleared LEVEL_UP_LINES + 1 ≤ s.level ∧
  1 ≤ s.level ∧ TICK_MS_MIN ≤ s.tick_ms

/-- The level invariant: `lines_cleared` is not negative and `level` is the value that
`soft_drop` computes from it. -/
def LevelOk (s : State) : Prop :=
  0 ≤ s.lines_cleared ∧ s.level = Int.tdiv s.lines_cleared LEVEL_UP_LINES + 1

/-- The fall-interval invariant: `tick_ms` is the value of the formula of `soft_drop`,
computed without overflow. -/
def TickOk (s : State) : Prop :=
  s.tick_ms = max TICK_MS_MIN (TICK_MS_INITIAL - (s.level - 1) * 45)

/-- The relation between the counters before a step of the game (`lines`, `level`,
`tick`) and after it (primed), for a 32-bit `lines`, in three parts.  Whenever `level` is at least 1 and at least
`lines / 10 + 1` and `tick` at least 80: the same holds after the step, `level` has not
decreased and has grown by at most 1, and it is unchanged together with `tick` when
`lines / 10` is.  Whenever `lines` is not negative and `level` is `lines / 10 + 1`: a step
that increases `lines / 10` adds 1 to `level`, and if `lines` is still not negative it has
grown by at most 4 and `level` is `lines / 10 + 1` again.  Whenever moreover `tick` is
`max(80, 550 - 45 * (level - 1))` and `lines` still lies in `[0, 477218719]`: `tick` is
again that value, and it is `max(80, tick - 45)` when `lines / 10` has increased. -/
def CounterStep (lines level tick lines' level' tick' : Int) : Prop :=
  fits_int lines →
    (Int.tdiv lines LEVEL_UP_LINES + 1 ≤ level → 1 ≤ level → TICK_MS_MIN ≤ tick →
      fits_int lines' ∧ Int.tdiv lines' LEVEL_UP_LINES + 1 ≤ level' ∧ 1 ≤ level' ∧
      TICK_MS_MIN ≤ tick' ∧ level ≤ level' ∧ level' ≤ level + 1 ∧
      (Int.tdiv lines' LEVEL_UP_LINES = Int.tdiv lines LEVEL_UP_LINES →
        level' = level ∧ tick' = tick)) ∧
    (0 ≤ lines → level = Int.tdiv lines LEVEL_UP_LINES + 1 →
      (Int.tdiv lines LEVEL_UP_LINES < Int.tdiv lines' LEVEL_UP_LINES → level' = level + 1) ∧
      (0 ≤ lines' → lines ≤ lines' ∧ lines' ≤ lines + 4 ∧
        level' = Int.tdiv lines' LEVEL_UP_LINES + 1)) ∧
    (0 ≤ lines → level = Int.tdiv lines LEVEL_UP_LINES + 1 →
      tick = max TICK_MS_MIN (TICK_MS_INITIAL - (level - 1) * 45) →
      0 ≤ lines' → lines' ≤ 477218719 →
      tick' = max TICK_MS_MIN (TICK_MS_INITIAL - (level' - 1) * 45) ∧
      (Int.tdiv lines LEVEL_UP_LINES < Int.tdiv lines' LEVEL_UP_LINES →
        tick' = max TICK_MS_MIN (tick - 45)))


/-- The reachable states on whose whole history, themselves included, `lines_cleared`
has satisfied `Q`: the constructors are those of `Reachable`, each with `Q` for the state
it yields. -/
inductive ReachableWhile (Q : Int → Prop) : State → Prop where
  | init (t : Int) (s : State) :
      0 ≤ t → t < 7 → new_piece t initial = some s → Q s.lines_cleared →
      ReachableWhile Q s
  | tick (fuel : Nat) (t junk : Int) (s s' : State) :
      ReachableWhile Q s → 0 ≤ t → t < 7 → s.paused = false → s.game_over = false →
      soft_drop fuel t junk s = some s' → Q s'.lines_cleared → ReachableWhile Q s'
  | key (fuel : Nat) (t junk : Int) (k : Key) (s s' : State) :
      ReachableWhile Q s → 0 ≤ t → t < 7 → key_dispatch fuel t junk k s = some s' →
      Q s'.lines_cleared → ReachableWhile Q s'
  | too_small (s : State) :
      ReachableWhile Q s → ReachableWhile Q { s with paused := true }

/-- The reachable states on whose whole history, themselves included, `lines_cleared`
has stayed within `[0, B]`.  With `B = 2147483647` these are the states reached before
`lines_cleared += c` first overflows, which leaves a negative value. -/
def ReachableBelow (B : Int) (s : State) : Prop :=
  ReachableWhile (fun n => 0 ≤ n ∧ n ≤ B) s

/-- The state `s` with another board and another active piece. -/
def stage (s : State) (b : Board) (p : Piece) : State := { s with board := b, cur := p }

/-- The grid with `n` O pieces side by side on the floor, from the left wall: value 2 in
the first `2 * n` columns of rows 18 and 19. -/
def o_fill (n : Nat) : Board :=
  List.replicate 18 (List.replicate 10 0) ++
    List.replicate 2 (List.replicate (2 * n) 2 ++ List.replicate (10 - 2 * n) 0)

/-- The state after `k` rounds of play, each of which lays five O pieces side by side on
the floor of the empty grid and so clears two rows at once: the empty grid, an O piece at
the spawn position, and the counters after `k` runs of the scoring block with count 2. -/
def o_round : Nat → State
  | 0 => { initial with cur := { x := 3, y := -2, type := 1, rot := 0 } }
  | k + 1 => soft_drop_score 0 2 (o_round k)

/-- The state of round `k` right before its fifth O piece lands: four O pieces on the
floor and the fifth at `(7, 17)`, above columns 8 and 9. -/
def o_last (k : Nat) : State :=
  stage (o_round k) (o_fill 4) { x := 7, y := 17, type := 1, rot := 0 }

/-- A landing with one row to clear and a score close to `INT_MAX`: row 19 is full but
for columns 4 and 5, the O piece rests above them at `(3, 17)`, and `score` is
`2147483600`. -/
def near_int_max : State :=
  { initial with
    board := List.replicate 19 (List.replicate 10 0) ++ [[1, 1, 1, 1, 0, 0, 1, 1, 1, 1]],
    cur := { x := 3, y := 17, type := 1, rot := 0 },
    score := 2147483600 }

/-- A landing that completes nothing but finds five full rows: the five bottom rows are
full and the O piece rests on them at `(3, 12)`. -/
def five_full_rows : State :=
  { initial with
    board := List.replicate 15 (List.replicate 10 0) ++ List.replicate 5 (List.replicate 10 1),
    cur := { x := 3, y := 12, type := 1, rot := 0 } }

/-- The cell invariant of the data model: every cell of the grid holds a value in `[0, 7]`. -/
def cells_in_range (b : Board) : Prop :=
  ∀ y x : Int, 0 ≤ y → y < BOARD_H → 0 ≤ x → x < BOARD_W →
    0 ≤ board_at b y x ∧ board_at b y x ≤ 7

/-- The states of the stacking scenario: the grid holding `k` O pieces stacked in columns
4 and 5 on the floor (value 2 in the bottom `2 * k` rows), an O piece at the spawn
position as active piece, and every counter as at the start of the game. -/
def o_stack (k : Nat) : State :=
  { initial with
    board := List.replicate (20 - 2 * k) (List.replicate 10 0) ++
      List.replicate (2 * k) [0, 0, 0, 0, 2, 2, 0, 0, 0, 0],
    cur := { x := 3, y := -2, type := 1, rot := 0 } }


/-! ## Theorems -/


/-! ### Placement test -/

/-- The iteration space is exactly the pairs `(r, c)` with `r` and `c` in `0..3`. -/
theorem mem_cell_positions (r c : Int) :
    (r, c) ∈ cell_positions ↔ 0 ≤ r ∧ r < 4 ∧ 0 ≤ c ∧ c < 4 := by
  constructor
  · intro h
    simp [cell_positions] at h
    omega
  · rintro ⟨h1, h2, h3, h4⟩
    interval_cases r <;> interval_cases c <;> simp [cell_positions]

/-- For a shape id in `0..6` and a rotation in `0..3` the table read of `cell` is in bounds. -/
theorem cell_defined (type rot : Int) (h : 0 ≤ type ∧ type < 7 ∧ 0 ≤ rot ∧ rot < 4) (r c : Int) :
    ∃ v, cell type rot r c = some v := by
  obtain ⟨h1, h2, h3, h4⟩ := h
  interval_cases type <;> interval_cases rot <;> exact ⟨_, rfl⟩

/-- Loop invariant of `can_place`: the scan of the remaining cells returns a value, and
it is `true` exactly when each remaining occupied cell passes the bounds and occupancy tests. -/
theorem can_place_from_spec (b : Board) (p : Piece) (hv : p.valid) (l : List (Int × Int)) :
    ∃ v, can_place_from b p l = some v ∧ (v = true ↔
      ∀ r c, (r, c) ∈ l → cell p.type p.rot r c = some true →
      0 ≤ p.x + c ∧ p.x + c < BOARD_W ∧ p.y + r < BOARD_H ∧
        (p.y + r < 0 ∨ board_at b (p.y + r) (p.x + c) = 0)) := by
  induction l with
  | nil => exact ⟨true, rfl, by simp⟩
  | cons rc rest ih =>
    obtain ⟨r, c⟩ := rc
    obtain ⟨v, hv1, hv2⟩ := ih
    obtain ⟨o, hc⟩ := cell_defined p.type p.rot hv r c
    cases o with
    | false =>
      refine ⟨v, by simp [can_place_from, hc, hv1], ?_⟩
      rw [hv2]
      constructor
      · intro h r' c' hm hc'
        rcases List.mem_cons.1 hm with he | hm
        · cases he; rw [hc] at hc'; cases hc'
        · exact h r' c' hm hc'
      · intro h r' c' hm hc'
        exact h r' c' (List.mem_cons_of_mem _ hm) hc'
    | true =>
      by_cases hb : p.x + c < 0 ∨ p.x + c ≥ BOARD_W ∨ p.y + r ≥ BOARD_H
      · refine ⟨false, by simp only [can_place_from, hc, if_pos hb], ?_⟩
        constructor
        · intro h; cases h
        · intro h
          have := h r c (List.mem_cons_self _ _) hc
          rcases hb with hb | hb | hb <;> omega
      · by_cases hb2 : p.y + r ≥ 0 ∧ board_at b (p.y + r) (p.x + c) ≠ 0
        · refine ⟨false, by simp only [can_place_from, hc, if_neg hb, if_pos hb2], ?_⟩
          constructor
          · intro h; cases h
          · intro h
            have := h r c (List.mem_cons_self _ _) hc
            rcases this.2.2.2 with h4 | h4
            · omega
            · exact absurd h4 hb2.2
        · refine ⟨v, by simp only [can_place_from, hc, if_neg hb, if_neg hb2, hv1], ?_⟩
          rw [hv2]
          constructor
          · intro h r' c' hm hc'
            rcases List.mem_cons.1 hm with he | hm
            · cases he
              refine ⟨by omega, by omega, by omega, ?_⟩
              by_cases h5 : p.y + r < 0
              · exact Or.inl h5
              · right
                by_contra h6
                exact hb2 ⟨by omega, h6⟩
            · exact h r' c' hm hc'
          · intro h r' c' hm hc'
            exact h r' c' (List.mem_cons_of_mem _ hm) hc'

/-- Characterisation of `can_place` for a piece with type in `0..6` and rot in `0..3`. -/
theorem can_place_char (b : Board) (p : Piece) (hv : p.valid) :
    (∃ v, can_place b p = some v) ∧
    (can_place b p = some true ↔
      ∀ r c : Int, 0 ≤ r → r < 4 → 0 ≤ c → c < 4 → cell p.type p.rot r c = some true →
        0 ≤ p.x + c ∧ p.x + c < BOARD_W ∧ p.y + r < BOARD_H ∧
          (p.y + r < 0 ∨ board_at b (p.y + r) (p.x + c) = 0)) ∧
    ((∃ r c : Int, 0 ≤ r ∧ r < 4 ∧ 0 ≤ c ∧ c < 4 ∧ cell p.type p.rot r c = some true ∧
        (p.x + c < 0 ∨ BOARD_W ≤ p.x + c ∨ BOARD_H ≤ p.y + r)) → can_place b p = some false) ∧
    ((∀ r c : Int, 0 ≤ r → r < 4 → 0 ≤ c → c < 4 → cell p.type p.rot r c = some true →
        p.y + r < 0 ∧ 0 ≤ p.x + c ∧ p.x + c < BOARD_W) → can_place b p = some true) := by
  obtain ⟨v, hv1, hv2⟩ := can_place_from_spec b p hv cell_positions
  have key : can_place b p = some true ↔
      ∀ r c : Int, 0 ≤ r → r < 4 → 0 ≤ c → c < 4 → cell p.type p.rot r c = some true →
        0 ≤ p.x + c ∧ p.x + c < BOARD_W ∧ p.y + r < BOARD_H ∧
          (p.y + r < 0 ∨ board_at b (p.y + r) (p.x + c) = 0) := by
    unfold can_place
    rw [hv1, Option.some.injEq, hv2]
    constructor
    · intro h r c h1 h2 h3 h4
      exact h r c ((mem_cell_positions r c).2 ⟨h1, h2, h3, h4⟩)
    · intro h r c hm
      obtain ⟨h1, h2, h3, h4⟩ := (mem_cell_positions r c).1 hm
      exact h r c h1 h2 h3 h4
  refine ⟨⟨v, hv1⟩, key, ?_, ?_⟩
  · rintro ⟨r, c, h1, h2, h3, h4, hc, hbad⟩
    have hne : can_place b p ≠ some true := by
      intro h
      have := (key.1 h) r c h1 h2 h3 h4 hc
      rcases hbad with hb | hb | hb <;> omega
    unfold can_place at *
    rw [hv1] at hne ⊢
    cases v
    · rfl
    · exact absurd rfl hne
  · intro h
    apply key.2
    intro r c h1 h2 h3 h4 hc
    obtain ⟨a1, a2, a3⟩ := h r c h1 h2 h3 h4 hc
    refine ⟨a2, a3, ?_, Or.inl a1⟩
    have : BOARD_H = 20 := rfl
    omega

/-- C1: for every board and every piece with type in 0..6 and rot in 0..3 at any integer
position, `can_place` returns a value, and it returns true exactly when every occupied
mask cell `(r, c)` has `0 ≤ x+c < BOARD_W`, `y+r < BOARD_H` and (`y+r < 0` or
`board[y+r][x+c] == 0`); it rejects as soon as one occupied cell has its x outside
`[0, BOARD_W)` or its y at or below `BOARD_H`, and accepts a piece whose occupied cells
all lie above the grid with x in range, whatever the board holds. -/
theorem C1_can_place_characterisation (b : Board) (p : Piece) (hv : p.valid) :
    (∃ v, can_place b p = some v) ∧
    (can_place b p = some true ↔
      ∀ r c : Int, 0 ≤ r → r < 4 → 0 ≤ c → c < 4 → cell p.type p.rot r c = some true →
        0 ≤ p.x + c ∧ p.x + c < BOARD_W ∧ p.y + r < BOARD_H ∧
          (p.y + r < 0 ∨ board_at b (p.y + r) (p.x + c) = 0)) ∧
    ((∃ r c : Int, 0 ≤ r ∧ r < 4 ∧ 0 ≤ c ∧ c < 4 ∧ cell p.type p.rot r c = some true ∧
        (p.x + c < 0 ∨ BOARD_W ≤ p.x + c ∨ BOARD_H ≤ p.y + r)) → can_place b p = some false) ∧
    ((∀ r c : Int, 0 ≤ r → r < 4 → 0 ≤ c → c < 4 → cell p.type p.rot r c = some true →
        p.y + r < 0 ∧ 0 ≤ p.x + c ∧ p.x + c < BOARD_W) → can_place b p = some true) :=
  can_place_char b p hv

theorem C1_witness :
    Piece.valid ⟨3, -2, 1, 0⟩ ∧
      (can_place initial.board ⟨3, -2, 1, 0⟩ = some true ↔
        ∀ r c : Int, 0 ≤ r → r < 4 → 0 ≤ c → c < 4 → cell 1 0 r c = some true →
          0 ≤ 3 + c ∧ 3 + c < BOARD_W ∧ -2 + r < BOARD_H ∧
            (-2 + r < 0 ∨ board_at initial.board (-2 + r) (3 + c) = 0)) :=
  ⟨by decide, (C1_can_place_characterisation initial.board ⟨3, -2, 1, 0⟩ (by decide)).2.1⟩


/-! ### Line clearing -/

theorem row_full_eq (b : Board) (y : Int) : row_full b y = full_row (b.getD y.toNat []) := by
  simp [row_full, full_row, board_at]

theorem full_row_zero : full_row zero_row = false := by decide

/-- Closed form of the copy loop: rows `0..m-1` move down by one, row 0 stays in place. -/
theorem shift_rows_eq (m : Nat) (b : Board) (h : m < b.length) :
    shift_rows m b = b.take 1 ++ (b.take m ++ b.drop (m + 1)) := by
  induction m generalizing b with
  | zero =>
    cases b with
    | nil => simp at h
    | cons a t => simp [shift_rows]
  | succ m ih =>
    have hm : m < b.length := by omega
    have ht : ∀ x, List.take 1 (b.set (m + 1) x) = List.take 1 b := by
      intro x; cases b <;> simp
    rw [shift_rows, ih _ (by simpa using hm), ht]
    rw [List.take_set_of_lt _ _ (by omega)]
    rw [List.drop_set, if_neg (by omega), Nat.sub_self]
    have h1 : List.drop (m + 1) b = b[m+1] :: List.drop (m + 2) b := by
      rw [List.drop_eq_getElem_cons h]
    have h2 : List.take (m + 1) b = List.take m b ++ [b[m]] := by
      rw [List.take_succ, List.getElem?_eq_getElem hm]; rfl
    rw [h1, List.set_cons_zero, h2, List.getD_eq_getElem _ _ hm]
    simp only [List.append_assoc, List.singleton_append]

/-- Clearing row `m` removes it and puts a zero row on top. -/
theorem clear_row_eq (m : Nat) (b : Board) (h : m < b.length) :
    clear_row b (m : Int) = zero_row :: (b.take m ++ b.drop (m + 1)) := by
  unfold clear_row
  rw [Int.toNat_ofNat, shift_rows_eq m b h]
  cases b with
  | nil => simp at h
  | cons a t => simp [zero_row]

/-- Loop invariant of `clear_lines`: with `n` rows still to scan and fuel for `n` plus the
number of full rows among them, the loop returns the compacted board and adds that number
to the counter. -/
theorem clear_loop_spec (fuel : Nat) : ∀ (b : Board) (n : Nat) (cleared : Int),
    n ≤ b.length → n + (b.take n).countP full_row ≤ fuel →
    clear_loop fuel b ((n : Int) - 1) cleared =
      some (List.replicate ((b.take n).countP full_row) zero_row ++
              ((b.take n).filter (fun row => !full_row row) ++ b.drop n),
            cleared + ((b.take n).countP full_row : Nat)) := by
  induction fuel with
  | zero =>
    intro b n cleared hn hf
    have : n = 0 := by omega
    subst this
    simp [clear_loop]
  | succ fuel ih =>
    intro b n cleared hn hf
    cases n with
    | zero => simp [clear_loop]
    | succ m =>
      have hm : m < b.length := by omega
      have hy : ((m + 1 : Nat) : Int) - 1 = (m : Int) := by push_cast; ring
      rw [hy, clear_loop, if_pos (by omega), row_full_eq, Int.toNat_ofNat,
        List.getD_eq_getElem _ _ hm]
      have htake : b.take (m + 1) = b.take m ++ [b[m]] := by
        rw [List.take_succ, List.getElem?_eq_getElem hm]; rfl
      by_cases hfull : full_row b[m] = true
      · rw [if_pos hfull, clear_row_eq m b hm]
        have hy2 : (m : Int) + 1 - 1 = ((m + 1 : Nat) : Int) - 1 := by push_cast; ring
        rw [hy2]
        have hcount : (b.take (m + 1)).countP full_row = (b.take m).countP full_row + 1 := by
          rw [htake, List.countP_append]; simp [hfull]
        have htk : (zero_row :: (b.take m ++ b.drop (m + 1))).take (m + 1) = zero_row :: b.take m := by
          rw [List.take_succ_cons, List.take_left']
          simp; omega
        have hdr : (zero_row :: (b.take m ++ b.drop (m + 1))).drop (m + 1) = b.drop (m + 1) := by
          rw [List.drop_succ_cons, List.drop_left']
          simp; omega
        rw [ih _ (m + 1) _ (by simp; omega) (by rw [htk]; simp [full_row_zero]; omega)]
        rw [htk, hdr, hcount]
        rw [List.countP_cons_of_neg _ _ (by simp [full_row_zero]), List.filter_cons_of_pos (by simp [full_row_zero])]
        rw [htake, List.filter_append, List.filter_cons_of_neg (by simp [hfull]), List.filter_nil,
          List.append_nil, List.replicate_succ', List.append_assoc, List.singleton_append]
        congr 2
        push_cast; ring
      · rw [if_neg hfull]
        have hcount : (b.take (m + 1)).countP full_row = (b.take m).countP full_row := by
          rw [htake, List.countP_append]; simp [hfull]
        rw [ih b m cleared (by omega) (by omega)]
        rw [hcount, htake, List.filter_append]
        have hd : List.drop m b = b[m] :: List.drop (m + 1) b := List.drop_eq_getElem_cons hm
        rw [hd, List.filter_cons_of_pos (by simp [hfull]), List.filter_nil, List.append_assoc,
          List.singleton_append]

theorem map_getD_range (b : Board) :
    (List.range b.length).map (fun y => b.getD y []) = b := by
  apply List.ext_getElem
  · simp
  · intro n h1 h2
    simp [List.getElem?_eq_getElem h2]

theorem rows_filter_eq (b : Board) (q : List Int → Bool) :
    ((List.range b.length).filter (fun y => q (b.getD y []))).map (fun y => b.getD y []) =
      b.filter q := by
  have h := List.filter_map (fun y => b.getD y []) (List.range b.length) (p := q)
  rw [map_getD_range] at h
  rw [h]; rfl

theorem rows_count_eq (b : Board) (q : List Int → Bool) :
    ((List.range b.length).filter (fun y => q (b.getD y []))).length = b.countP q := by
  rw [List.countP_eq_length_filter, ← rows_filter_eq b q, List.length_map]

theorem clear_lines_eq (b : Board) (hlen : b.length = BOARD_H.toNat) (fuel : Nat)
    (hfuel : 2 * BOARD_H.toNat ≤ fuel) :
    clear_lines fuel b =
      some (List.replicate (b.countP full_row) zero_row ++ b.filter (fun row => !full_row row),
            ((b.countP full_row : Nat) : Int)) := by
  have h := clear_loop_spec fuel b b.length 0 (le_refl _) (by
    have := List.countP_le_length full_row (l := b.take b.length)
    simp only [List.take_length] at this ⊢
    omega)
  simp only [List.take_length, List.drop_length, List.append_nil, zero_add] at h
  unfold clear_lines
  have hy : BOARD_H - 1 = ((b.length : Nat) : Int) - 1 := by rw [hlen]; rfl
  rw [hy, h]

theorem row_full_nat (b : Board) (y : Nat) : row_full b (y : Int) = full_row (b.getD y []) := by
  rw [row_full_eq, Int.toNat_ofNat]

theorem countP_add_countP_not (l : List (List Int)) (q : List Int → Bool) :
    l.countP q + l.countP (fun a => !q a) = l.length := by
  induction l with
  | nil => rfl
  | cons a t ih =>
    cases h : q a <;> simp [List.countP_cons, h] <;> omega

theorem cleared_wf (b : Board) (hwf : b.WF) :
    Board.WF (List.replicate (b.countP full_row) zero_row ++ b.filter (fun row => !full_row row)) := by
  obtain ⟨h1, h2⟩ := hwf
  constructor
  · rw [List.length_append, List.length_replicate, ← List.countP_eq_length_filter, ← h1]
    exact countP_add_countP_not b full_row
  · intro row hrow
    rcases List.mem_append.1 hrow with h | h
    · rw [List.eq_of_mem_replicate h]; rfl
    · exact h2 row (List.mem_of_mem_filter h)

theorem cleared_not_full (b : Board) (hwf : b.WF) (y : Int) (h1 : y < BOARD_H) :
    row_full (List.replicate (b.countP full_row) zero_row ++ b.filter (fun row => !full_row row)) y
      = false := by
  have hw := cleared_wf b hwf
  rw [row_full_eq]
  have hlt : y.toNat < (List.replicate (b.countP full_row) zero_row ++
      b.filter (fun row => !full_row row)).length := by
    rw [hw.1]
    have hH : BOARD_H = 20 := rfl
    rw [hH] at h1 ⊢
    clear hw
    omega
  rw [List.getD_eq_getElem _ _ hlt]
  have hmem := List.getElem_mem hlt
  rcases List.mem_append.1 hmem with h | h
  · rw [List.eq_of_mem_replicate h]; exact full_row_zero
  · have := (List.mem_filter.1 h).2
    simpa using this

theorem all_zero_row (row : List Int) (hl : row.length = BOARD_W.toNat)
    (h : ∀ x : Int, 0 ≤ x → x < BOARD_W → row.getD x.toNat 0 = 0) : row = zero_row := by
  unfold zero_row
  rw [List.eq_replicate_iff]
  refine ⟨hl, ?_⟩
  intro v hv
  obtain ⟨i, hi, rfl⟩ := List.getElem_of_mem hv
  have := h (i : Int) (by omega) (by rw [hl] at hi; have : BOARD_W = 10 := rfl; rw [this]; have : BOARD_W.toNat = 10 := rfl; omega)
  rw [Int.toNat_ofNat, List.getD_eq_getElem _ _ hi] at this
  exact this

/-- C2: given enough loop iterations, `clear_lines` returns the number of rows of the input
board that are full, and leaves the board made of that many all-zero rows on top followed
by the non-full rows of the input in their original order; the result has the shape of the
array and no full row.  In particular a board whose rows 0..18 are empty and whose row 19
is full yields the return value 1 and the all-empty board. -/
theorem C2_clear_lines_compacts (b : Board) (hwf : b.WF) (fuel : Nat)
    (hfuel : 2 * BOARD_H.toNat ≤ fuel) :
    ∃ b' : Board,
      clear_lines fuel b = some (b',
        (((List.range BOARD_H.toNat).filter (fun y : Nat => row_full b (y : Int))).length : Int)) ∧
      b' = List.replicate ((List.range BOARD_H.toNat).filter (fun y : Nat => row_full b (y : Int))).length
              (List.replicate BOARD_W.toNat 0) ++
            ((List.range BOARD_H.toNat).filter (fun y : Nat => !row_full b (y : Int))).map
              (fun y => b.getD y []) ∧
      b'.WF ∧
      (∀ y : Int, 0 ≤ y → y < BOARD_H → row_full b' y = false) ∧
      ((∀ y x : Int, 0 ≤ y → y < BOARD_H - 1 → 0 ≤ x → x < BOARD_W → board_at b y x = 0) →
        row_full b (BOARD_H - 1) = true →
        clear_lines fuel b =
          some (List.replicate BOARD_H.toNat (List.replicate BOARD_W.toNat 0), 1)) := by
  have hlen := hwf.1
  have e1 : (fun y : Nat => row_full b (y : Int)) = fun y => full_row (b.getD y []) := by
    funext y; exact row_full_nat b y
  have e2 : (fun y : Nat => !row_full b (y : Int)) = fun y => !full_row (b.getD y []) := by
    funext y; rw [row_full_nat b y]
  have hk : ((List.range BOARD_H.toNat).filter (fun y : Nat => row_full b (y : Int))).length
      = b.countP full_row := by
    rw [e1, ← hlen]; exact rows_count_eq b full_row
  have hkeep : ((List.range BOARD_H.toNat).filter (fun y : Nat => !row_full b (y : Int))).map
      (fun y => b.getD y []) = b.filter (fun row => !full_row row) := by
    rw [e2, ← hlen]; exact rows_filter_eq b (fun row => !full_row row)
  have heq := clear_lines_eq b hlen fuel hfuel
  refine ⟨_, ?_, rfl, ?_, ?_, ?_⟩
  · rw [heq, hk, hkeep]; rfl
  · rw [hk, hkeep]; exact cleared_wf b hwf
  · intro y _ hy
    rw [hk, hkeep]; exact cleared_not_full b hwf y hy
  · intro hz hf
    rw [heq]
    have hb : b = List.replicate 19 zero_row ++ [b.getD 19 []] := by
      apply List.ext_getElem
      · simp [hlen]; rfl
      · intro n h1 h2
        have hn : n < 20 := by rw [hlen] at h1; exact h1
        by_cases h19 : n = 19
        · subst h19
          simp [List.getD_eq_getElem _ _ h1, List.getElem?_eq_getElem h1]
        · have hn' : n < 19 := by omega
          rw [List.getElem_append_left (by simpa using hn')]
          rw [List.getElem_replicate]
          apply all_zero_row
          · exact hwf.2 _ (List.getElem_mem _)
          · intro x hx0 hx1
            have := hz (n : Int) x (by omega) (by have : BOARD_H = 20 := rfl; omega) hx0 hx1
            simpa [board_at, List.getD_eq_getElem _ _ h1, List.getElem?_eq_getElem h1] using this
    have hf19 : full_row (b.getD 19 []) = true := by
      have := row_full_eq b (BOARD_H - 1)
      rw [hf] at this
      exact this.symm
    obtain ⟨r, hr⟩ : ∃ r, r = b.getD 19 [] := ⟨_, rfl⟩
    rw [← hr] at hb hf19
    have c1 : List.countP full_row (List.replicate 19 zero_row ++ [r]) = 1 := by
      rw [List.countP_append, List.countP_replicate]; simp [full_row_zero, hf19]
    have c2 : List.filter (fun row => !full_row row) (List.replicate 19 zero_row ++ [r])
        = List.replicate 19 zero_row := by
      rw [List.filter_append, List.filter_replicate]; simp [full_row_zero, hf19]
    rw [hb, c1, c2]
    rfl

theorem C2_witness :
    Board.WF (List.replicate 19 (List.replicate 10 0) ++ [List.replicate 10 1]) ∧
    2 * BOARD_H.toNat ≤ 40 ∧
    clear_lines 40 (List.replicate 19 (List.replicate 10 0) ++ [List.replicate 10 1]) =
      some (List.replicate BOARD_H.toNat (List.replicate BOARD_W.toNat 0), 1) := by
  obtain ⟨b', _, _, _, _, h5⟩ := C2_clear_lines_compacts
    (List.replicate 19 (List.replicate 10 0) ++ [List.replicate 10 1]) (by decide) 40 (by decide)
  refine ⟨by decide, by decide, h5 ?_ (by decide)⟩
  intro y x hy0 hy1 hx0 hx1
  have hH : BOARD_H = 20 := rfl
  have hW : BOARD_W = 10 := rfl
  rw [hH] at hy1
  rw [hW] at hx1
  interval_cases y <;> interval_cases x <;> rfl

theorem row_full_false_of_zero (b : Board) (y x : Int) (hx0 : 0 ≤ x) (hx1 : x < BOARD_W)
    (h : board_at b y x = 0) : row_full b y = false := by
  unfold row_full
  rw [List.all_eq_false]
  refine ⟨x.toNat, ?_, ?_⟩
  · have hW : BOARD_W = 10 := rfl
    rw [hW] at hx1 ⊢
    simp only [List.mem_range]
    omega
  · rw [Int.toNat_of_nonneg hx0, h]; simp

theorem clear_lines_unchanged (b : Board) (hwf : b.WF)
    (hnf : ∀ y : Int, 0 ≤ y → y < BOARD_H → row_full b y = false)
    (fuel : Nat) (hfuel : BOARD_H.toNat ≤ fuel) : clear_lines fuel b = some (b, 0) := by
  have hall : ∀ row ∈ b, full_row row = false := by
    intro row hrow
    obtain ⟨i, hi, rfl⟩ := List.getElem_of_mem hrow
    have := hnf (i : Int) (by omega) (by
      rw [hwf.1] at hi
      have hH : BOARD_H = 20 := rfl
      rw [hH] at hi ⊢
      have : (20 : Int).toNat = 20 := rfl
      omega)
    rw [row_full_nat, List.getD_eq_getElem _ _ hi] at this
    exact this
  have hc : b.countP full_row = 0 := by
    rw [List.countP_eq_zero]
    intro row hrow; simp [hall row hrow]
  have hf : b.filter (fun row => !full_row row) = b := by
    rw [List.filter_eq_self]
    intro row hrow; simp [hall row hrow]
  have h := clear_loop_spec fuel b b.length 0 (le_refl _) (by
    rw [List.take_length, hc, hwf.1]; exact hfuel)
  simp only [List.take_length, List.drop_length, List.append_nil, zero_add, hc, hf] at h
  unfold clear_lines
  have hy : BOARD_H - 1 = ((b.length : Nat) : Int) - 1 := by rw [hwf.1]; rfl
  rw [hy, h]
  rfl

/-- C3: on a board in which every row has at least one zero cell, `clear_lines` returns 0
and the board it leaves is the board it was given, cell for cell. -/
theorem C3_clear_lines_without_full_row (b : Board) (hwf : b.WF)
    (hnf : ∀ y : Int, 0 ≤ y → y < BOARD_H →
      ∃ x : Int, 0 ≤ x ∧ x < BOARD_W ∧ board_at b y x = 0)
    (fuel : Nat) (hfuel : BOARD_H.toNat ≤ fuel) : clear_lines fuel b = some (b, 0) := by
  apply clear_lines_unchanged b hwf _ fuel hfuel
  intro y hy0 hy1
  obtain ⟨x, hx0, hx1, hx⟩ := hnf y hy0 hy1
  exact row_full_false_of_zero b y x hx0 hx1 hx

theorem C3_witness :
    Board.WF initial.board ∧ BOARD_H.toNat ≤ 20 ∧
      clear_lines 20 initial.board = some (initial.board, 0) := by
  refine ⟨by decide, by decide, C3_clear_lines_without_full_row initial.board (by decide) ?_ 20
    (by decide)⟩
  intro y hy0 hy1
  refine ⟨0, by decide, by decide, ?_⟩
  have hH : BOARD_H = 20 := rfl
  rw [hH] at hy1
  interval_cases y <;> rfl


/-! ### Locking -/

theorem getD_set_of_lt {α : Type} (l : List α) (i j : Nat) (a d : α) (hi : i < l.length) :
    (l.set i a).getD j d = if j = i then a else l.getD j d := by
  simp only [List.getD_eq_getElem?_getD, List.getElem?_set]
  by_cases h : i = j
  · subst h; simp [hi]
  · rw [if_neg h, if_neg (Ne.symm h)]

theorem board_set_wf (b : Board) (hwf : b.WF) (y x v : Int) : (board_set b y x v).WF := by
  obtain ⟨h1, h2⟩ := hwf
  constructor
  · simp [board_set, h1]
  · intro row hrow
    unfold board_set at hrow
    rcases List.mem_or_eq_of_mem_set hrow with h | h
    · exact h2 row h
    · rw [h, List.length_set]
      by_cases hy : y.toNat < b.length
      · rw [List.getD_eq_getElem _ _ hy]; exact h2 _ (List.getElem_mem _)
      · rw [List.set_eq_of_length_le (by omega)] at hrow
        exact absurd (h2 row hrow) (by
          rw [h, List.length_set, List.getD_eq_default _ _ (by omega)]; decide)

theorem board_at_set (b : Board) (hwf : b.WF) (y x v gy gx : Int)
    (hy0 : 0 ≤ y) (hy1 : y < BOARD_H) (hx0 : 0 ≤ x) (hx1 : x < BOARD_W)
    (hgy : 0 ≤ gy) (hgx : 0 ≤ gx) :
    board_at (board_set b y x v) gy gx = if gy = y ∧ gx = x then v else board_at b gy gx := by
  obtain ⟨h1, h2⟩ := hwf
  have hH : BOARD_H = 20 := rfl
  have hW : BOARD_W = 10 := rfl
  have hH' : BOARD_H.toNat = 20 := rfl
  have hW' : BOARD_W.toNat = 10 := rfl
  rw [hH] at hy1; rw [hH'] at h1; rw [hW] at hx1; rw [hW'] at h2
  have hyl : y.toNat < b.length := by omega
  have hrl : (b.getD y.toNat []).length = 10 := by
    rw [List.getD_eq_getElem _ _ hyl]; exact h2 _ (List.getElem_mem _)
  unfold board_at board_set
  rw [getD_set_of_lt _ _ _ _ _ hyl]
  by_cases hyy : gy = y
  · subst hyy
    rw [if_pos rfl, getD_set_of_lt _ _ _ _ _ (by omega)]
    by_cases hxx : gx = x
    · subst hxx; simp
    · rw [if_neg (by omega), if_neg (by tauto)]
  · rw [if_neg (by omega), if_neg (by tauto)]

/-- Loop invariant of `lock_piece`: the remaining cells are written where they fall inside
the grid, and nothing else changes. -/
theorem lock_piece_from_spec (p : Piece) (hv : p.valid) (l : List (Int × Int)) :
    ∀ b : Board, b.WF → ∃ b' : Board, lock_piece_from p l b = some b' ∧ b'.WF ∧
      ∀ gy gx : Int, 0 ≤ gy → gy < BOARD_H → 0 ≤ gx → gx < BOARD_W →
        ((∃ r c, (r, c) ∈ l ∧ cell p.type p.rot r c = some true ∧
            gy = p.y + r ∧ gx = p.x + c) → board_at b' gy gx = p.type + 1) ∧
        ((¬ ∃ r c, (r, c) ∈ l ∧ cell p.type p.rot r c = some true ∧
            gy = p.y + r ∧ gx = p.x + c) → board_at b' gy gx = board_at b gy gx) := by
  induction l with
  | nil =>
    intro b hwf
    exact ⟨b, rfl, hwf, fun gy gx _ _ _ _ => ⟨fun ⟨r, c, h, _⟩ => absurd h (List.not_mem_nil _), fun _ => rfl⟩⟩
  | cons rc rest ih =>
    intro b hwf
    obtain ⟨r, c⟩ := rc
    obtain ⟨o, hc⟩ := cell_defined p.type p.rot hv r c
    cases o with
    | false =>
      obtain ⟨b', e, hwf', hb'⟩ := ih b hwf
      refine ⟨b', by simp only [lock_piece_from, hc, e], hwf', ?_⟩
      intro gy gx h1 h2 h3 h4
      have hiff : (∃ r' c', (r', c') ∈ (r, c) :: rest ∧ cell p.type p.rot r' c' = some true ∧
            gy = p.y + r' ∧ gx = p.x + c') ↔ (∃ r' c', (r', c') ∈ rest ∧
            cell p.type p.rot r' c' = some true ∧ gy = p.y + r' ∧ gx = p.x + c') := by
        constructor
        · rintro ⟨r', c', hm, hc', e1, e2⟩
          rcases List.mem_cons.1 hm with he | hm
          · cases he; rw [hc] at hc'; cases hc'
          · exact ⟨r', c', hm, hc', e1, e2⟩
        · rintro ⟨r', c', hm, hc', e1, e2⟩
          exact ⟨r', c', List.mem_cons_of_mem _ hm, hc', e1, e2⟩
      rw [hiff]
      exact hb' gy gx h1 h2 h3 h4
    | true =>
      by_cases hin : p.y + r ≥ 0 ∧ p.y + r < BOARD_H ∧ p.x + c ≥ 0 ∧ p.x + c < BOARD_W
      · obtain ⟨b', e, hwf', hb'⟩ := ih (board_set b (p.y + r) (p.x + c) (p.type + 1))
          (board_set_wf b hwf _ _ _)
        refine ⟨b', by simp only [lock_piece_from, hc, if_pos hin, e], hwf', ?_⟩
        intro gy gx h1 h2 h3 h4
        obtain ⟨hb1, hb2⟩ := hb' gy gx h1 h2 h3 h4
        have hset := board_at_set b hwf (p.y + r) (p.x + c) (p.type + 1) gy gx
          hin.1 hin.2.1 hin.2.2.1 hin.2.2.2 h1 h3
        constructor
        · rintro ⟨r', c', hm, hc', e1, e2⟩
          by_cases hrest : ∃ r c, (r, c) ∈ rest ∧ cell p.type p.rot r c = some true ∧
              gy = p.y + r ∧ gx = p.x + c
          · exact hb1 hrest
          · rw [hb2 hrest, hset]
            rcases List.mem_cons.1 hm with he | hm
            · cases he; rw [if_pos ⟨e1, e2⟩]
            · exact absurd ⟨r', c', hm, hc', e1, e2⟩ hrest
        · intro hno
          have hrest : ¬ ∃ r c, (r, c) ∈ rest ∧ cell p.type p.rot r c = some true ∧
              gy = p.y + r ∧ gx = p.x + c := by
            rintro ⟨r', c', hm, hc', e1, e2⟩
            exact hno ⟨r', c', List.mem_cons_of_mem _ hm, hc', e1, e2⟩
          rw [hb2 hrest, hset, if_neg]
          rintro ⟨e1, e2⟩
          exact hno ⟨r, c, List.mem_cons_self _ _, hc, e1, e2⟩
      · obtain ⟨b', e, hwf', hb'⟩ := ih b hwf
        refine ⟨b', by simp only [lock_piece_from, hc, if_neg hin, e], hwf', ?_⟩
        intro gy gx h1 h2 h3 h4
        have hiff : (∃ r' c', (r', c') ∈ (r, c) :: rest ∧ cell p.type p.rot r' c' = some true ∧
              gy = p.y + r' ∧ gx = p.x + c') ↔ (∃ r' c', (r', c') ∈ rest ∧
              cell p.type p.rot r' c' = some true ∧ gy = p.y + r' ∧ gx = p.x + c') := by
          constructor
          · rintro ⟨r', c', hm, hc', e1, e2⟩
            rcases List.mem_cons.1 hm with he | hm
            · cases he
              exact absurd ⟨by omega, by omega, by omega, by omega⟩ hin
            · exact ⟨r', c', hm, hc', e1, e2⟩
          · rintro ⟨r', c', hm, hc', e1, e2⟩
            exact ⟨r', c', List.mem_cons_of_mem _ hm, hc', e1, e2⟩
        rw [hiff]
        exact hb' gy gx h1 h2 h3 h4

/-- Effect of `lock_piece` on every grid cell, for a piece with type in `0..6` and rot in `0..3`. -/
theorem lock_piece_spec (b : Board) (p : Piece) (hwf : b.WF) (hv : p.valid) :
    ∃ b' : Board, lock_piece b p = some b' ∧ b'.WF ∧
      ∀ gy gx : Int, 0 ≤ gy → gy < BOARD_H → 0 ≤ gx → gx < BOARD_W →
        ((∃ r c : Int, 0 ≤ r ∧ r < 4 ∧ 0 ≤ c ∧ c < 4 ∧ cell p.type p.rot r c = some true ∧
            gy = p.y + r ∧ gx = p.x + c) → board_at b' gy gx = p.type + 1) ∧
        ((¬ ∃ r c : Int, 0 ≤ r ∧ r < 4 ∧ 0 ≤ c ∧ c < 4 ∧ cell p.type p.rot r c = some true ∧
            gy = p.y + r ∧ gx = p.x + c) → board_at b' gy gx = board_at b gy gx) := by
  obtain ⟨b', e, hwf', hb'⟩ := lock_piece_from_spec p hv cell_positions b hwf
  refine ⟨b', e, hwf', ?_⟩
  intro gy gx h1 h2 h3 h4
  have hiff : (∃ r c : Int, 0 ≤ r ∧ r < 4 ∧ 0 ≤ c ∧ c < 4 ∧ cell p.type p.rot r c = some true ∧
      gy = p.y + r ∧ gx = p.x + c) ↔ (∃ r c, (r, c) ∈ cell_positions ∧
      cell p.type p.rot r c = some true ∧ gy = p.y + r ∧ gx = p.x + c) := by
    constructor
    · rintro ⟨r, c, a1, a2, a3, a4, rest⟩
      exact ⟨r, c, (mem_cell_positions r c).2 ⟨a1, a2, a3, a4⟩, rest⟩
    · rintro ⟨r, c, hm, rest⟩
      obtain ⟨a1, a2, a3, a4⟩ := (mem_cell_positions r c).1 hm
      exact ⟨r, c, a1, a2, a3, a4, rest⟩
  rw [hiff]
  exact hb' gy gx h1 h2 h3 h4

/-- C5 (as stated, refuted): on the board whose only non-zero cell is `board[0][0] = 2`,
locking the O piece (type 1) at `(3, 17)` leaves the value `2 = type + 1` in the cell
`(0, 0)`, which is the target of no mask cell of the piece: a cell holding `type + 1`
after the lock need not be a target. -/
theorem C5_counterexample :
    Board.WF (board_set initial.board 0 0 2) ∧ Piece.valid ⟨3, 17, 1, 0⟩ ∧
    (∃ b' : Board, lock_piece (board_set initial.board 0 0 2) ⟨3, 17, 1, 0⟩ = some b' ∧
      board_at b' 0 0 = 1 + 1) ∧
    ¬ ∃ r c : Int, 0 ≤ r ∧ r < 4 ∧ 0 ≤ c ∧ c < 4 ∧ cell 1 0 r c = some true ∧
      (0 : Int) = 17 + r ∧ (0 : Int) = 3 + c := by
  refine ⟨by decide, by decide, ⟨_, rfl, by decide⟩, ?_⟩
  rintro ⟨r, c, h1, _, _, _, _, h6, _⟩
  omega

/-- C5 (amended): for every board and every piece with type in 0..6 and rot in 0..3 at any
position, `lock_piece` returns a board of the same shape in which each grid cell
`(gy, gx)` that is the target `(y+r, x+c)` of an occupied mask cell holds `type+1`, and
every other grid cell keeps the value it had; so a grid cell holds `type+1` after the lock
exactly when it is such a target or held `type+1` before.  Occupied mask cells whose target
lies outside the grid cause no write. -/
theorem C5_lock_piece_writes (b : Board) (p : Piece) (hwf : b.WF) (hv : p.valid) :
    ∃ b' : Board, lock_piece b p = some b' ∧ b'.WF ∧
      ∀ gy gx : Int, 0 ≤ gy → gy < BOARD_H → 0 ≤ gx → gx < BOARD_W →
        ((∃ r c : Int, 0 ≤ r ∧ r < 4 ∧ 0 ≤ c ∧ c < 4 ∧ cell p.type p.rot r c = some true ∧
            gy = p.y + r ∧ gx = p.x + c) → board_at b' gy gx = p.type + 1) ∧
        ((¬ ∃ r c : Int, 0 ≤ r ∧ r < 4 ∧ 0 ≤ c ∧ c < 4 ∧ cell p.type p.rot r c = some true ∧
            gy = p.y + r ∧ gx = p.x + c) → board_at b' gy gx = board_at b gy gx) ∧
        (board_at b' gy gx = p.type + 1 ↔
          ((∃ r c : Int, 0 ≤ r ∧ r < 4 ∧ 0 ≤ c ∧ c < 4 ∧ cell p.type p.rot r c = some true ∧
            gy = p.y + r ∧ gx = p.x + c) ∨ board_at b gy gx = p.type + 1)) := by
  obtain ⟨b', e, hwf', hb'⟩ := lock_piece_spec b p hwf hv
  refine ⟨b', e, hwf', ?_⟩
  intro gy gx h1 h2 h3 h4
  obtain ⟨ht, hn⟩ := hb' gy gx h1 h2 h3 h4
  refine ⟨ht, hn, ?_⟩
  by_cases htar : ∃ r c : Int, 0 ≤ r ∧ r < 4 ∧ 0 ≤ c ∧ c < 4 ∧
      cell p.type p.rot r c = some true ∧ gy = p.y + r ∧ gx = p.x + c
  · exact ⟨fun _ => Or.inl htar, fun _ => ht htar⟩
  · rw [hn htar]
    exact ⟨fun h => Or.inr h, fun h => h.resolve_left htar⟩

theorem C5_witness :
    Board.WF (board_set initial.board 0 0 2) ∧ Piece.valid ⟨3, 17, 1, 0⟩ ∧
      ∃ b' : Board, lock_piece (board_set initial.board 0 0 2) ⟨3, 17, 1, 0⟩ = some b' ∧
        board_at b' 18 4 = 1 + 1 ∧ board_at b' 0 0 = 1 + 1 ∧ board_at b' 16 4 = 0 := by
  obtain ⟨b', e, _, h⟩ :=
    C5_lock_piece_writes (board_set initial.board 0 0 2) ⟨3, 17, 1, 0⟩ (by decide) (by decide)
  refine ⟨by decide, by decide, b', e, ?_, ?_, ?_⟩
  · exact (h 18 4 (by decide) (by decide) (by decide) (by decide)).1
      ⟨1, 1, by decide, by decide, by decide, by decide, by decide, by decide, by decide⟩
  · exact (h 0 0 (by decide) (by decide) (by decide) (by decide)).2.2.2 (Or.inr (by decide))
  · have hnot : ¬ ∃ r c : Int, 0 ≤ r ∧ r < 4 ∧ 0 ≤ c ∧ c < 4 ∧
        cell 1 0 r c = some true ∧ (16 : Int) = 17 + r ∧ (4 : Int) = 3 + c := by
      rintro ⟨r, c, a1, _, _, _, _, a6, _⟩
      omega
    rw [(h 16 4 (by decide) (by decide) (by decide) (by decide)).2.1 hnot]
    decide

/-- C4 (as stated, refuted): on the empty board the I piece at the spawn position
`(3, -2)` has all its occupied cells in row `-1`, so `lock_piece` writes nothing and
`can_place` still accepts the piece afterwards. -/
theorem C4_counterexample :
    Board.WF initial.board ∧ Piece.valid ⟨3, -2, 0, 0⟩ ∧
    lock_piece initial.board ⟨3, -2, 0, 0⟩ = some initial.board ∧
    can_place initial.board ⟨3, -2, 0, 0⟩ = some true := by
  decide

/-- C4 (amended): for every board and every piece with type in 0..6 and rot in 0..3,
`lock_piece` followed by `can_place` of the same piece at the same position returns false
whenever at least one occupied cell of the piece lies at a row `y+r ≥ 0`; more exactly it
returns false if and only if some occupied cell has `y+r ≥ 0` or its x outside
`[0, BOARD_W)`. -/
theorem C4_lock_then_can_place (b : Board) (p : Piece) (hwf : b.WF) (hv : p.valid) :
    ∃ b' : Board, lock_piece b p = some b' ∧
      ((∃ r c : Int, 0 ≤ r ∧ r < 4 ∧ 0 ≤ c ∧ c < 4 ∧ cell p.type p.rot r c = some true ∧
          0 ≤ p.y + r) → can_place b' p = some false) ∧
      (can_place b' p = some false ↔
        ∃ r c : Int, 0 ≤ r ∧ r < 4 ∧ 0 ≤ c ∧ c < 4 ∧ cell p.type p.rot r c = some true ∧
          (0 ≤ p.y + r ∨ p.x + c < 0 ∨ BOARD_W ≤ p.x + c)) := by
  obtain ⟨b', e, hwf', hb'⟩ := lock_piece_spec b p hwf hv
  obtain ⟨⟨v, hsome⟩, hiff, hrej, hacc⟩ := can_place_char b' p hv
  have hH : BOARD_H = 20 := rfl
  have key : (∃ r c : Int, 0 ≤ r ∧ r < 4 ∧ 0 ≤ c ∧ c < 4 ∧ cell p.type p.rot r c = some true ∧
          (0 ≤ p.y + r ∨ p.x + c < 0 ∨ BOARD_W ≤ p.x + c)) → can_place b' p = some false := by
    rintro ⟨r, c, a1, a2, a3, a4, hc, hpos⟩
    have hne : can_place b' p ≠ some true := by
      intro ht
      obtain ⟨c1, c2, c3, c4⟩ := (hiff.1 ht) r c a1 a2 a3 a4 hc
      rcases hpos with h0 | h0 | h0
      · rcases c4 with c4 | c4
        · omega
        · have := (hb' (p.y + r) (p.x + c) h0 c3 c1 c2).1 ⟨r, c, a1, a2, a3, a4, hc, rfl, rfl⟩
          rw [this] at c4
          have := hv.1
          omega
      · omega
      · omega
    rw [hsome] at hne ⊢
    cases v
    · rfl
    · exact absurd rfl hne
  refine ⟨b', e, ?_, ?_, key⟩
  · rintro ⟨r, c, a1, a2, a3, a4, hc, h0⟩
    exact key ⟨r, c, a1, a2, a3, a4, hc, Or.inl h0⟩
  · intro hf
    by_contra hno
    have : can_place b' p = some true := by
      apply hacc
      intro r c a1 a2 a3 a4 hc
      refine ⟨?_, ?_, ?_⟩
      · by_contra h; exact hno ⟨r, c, a1, a2, a3, a4, hc, Or.inl (by omega)⟩
      · by_contra h; exact hno ⟨r, c, a1, a2, a3, a4, hc, Or.inr (Or.inl (by omega))⟩
      · by_contra h; exact hno ⟨r, c, a1, a2, a3, a4, hc, Or.inr (Or.inr (by omega))⟩
    rw [this] at hf
    cases hf

theorem C4_witness :
    Board.WF initial.board ∧ Piece.valid ⟨3, 18, 1, 0⟩ ∧
      ∃ b' : Board, lock_piece initial.board ⟨3, 18, 1, 0⟩ = some b' ∧
        can_place b' ⟨3, 18, 1, 0⟩ = some false := by
  obtain ⟨b', e, h, _⟩ := C4_lock_then_can_place initial.board ⟨3, 18, 1, 0⟩ (by decide) (by decide)
  exact ⟨by decide, by decide, b', e, h ⟨1, 1, by decide⟩⟩


/-! ### Spawning and key moves -/

theorem new_piece_spec (t : Int) (s : State) (ht0 : 0 ≤ t) (ht1 : t < 7) :
    ∃ s' : State, new_piece t s = some s' ∧
      s'.cur = { x := 3, y := -2, type := t, rot := 0 } ∧
      s'.board = s.board ∧ s'.score = s.score ∧ s'.lines_cleared = s.lines_cleared ∧
      s'.level = s.level ∧ s'.tick_ms = s.tick_ms ∧ s'.paused = s.paused ∧
      (can_place s.board { x := 3, y := -2, type := t, rot := 0 } = some false →
        s'.game_over = true) ∧
      (can_place s.board { x := 3, y := -2, type := t, rot := 0 } = some true →
        s'.game_over = s.game_over) ∧
      (s.game_over = true → s'.game_over = true) := by
  have hx : Int.tdiv BOARD_W 2 - 2 = 3 := by decide
  obtain ⟨v, hv⟩ := (can_place_char s.board { x := 3, y := -2, type := t, rot := 0 }
    ⟨ht0, ht1, le_refl _, by show (0 : Int) < 4; decide⟩).1
  unfold new_piece
  simp only [hx, hv]
  cases v with
  | false => exact ⟨_, rfl, rfl, rfl, rfl, rfl, rfl, rfl, rfl, fun _ => rfl, fun h => Bool.noConfusion (Option.some.inj h), fun _ => rfl⟩
  | true => exact ⟨_, rfl, rfl, rfl, rfl, rfl, rfl, rfl, rfl, fun h => Bool.noConfusion (Option.some.inj h), fun _ => rfl, fun h => h⟩

/-- C8: for every state and every shape id `t` in 0..6 drawn by the randomizer, `new_piece`
makes the active piece `(type t, rot 0, x = BOARD_W/2 - 2 = 3, y = -2)`, leaves the board,
score, lines_cleared, level and tick_ms as they were, sets game_over to true when
`can_place` rejects the spawned piece, and leaves game_over as it was when `can_place`
accepts it. -/
theorem C8_new_piece_spawns (t : Int) (s : State) (ht0 : 0 ≤ t) (ht1 : t < 7) :
    ∃ s' : State, new_piece t s = some s' ∧
      s'.cur = { x := 3, y := -2, type := t, rot := 0 } ∧
      s'.board = s.board ∧ s'.score = s.score ∧ s'.lines_cleared = s.lines_cleared ∧
      s'.level = s.level ∧ s'.tick_ms = s.tick_ms ∧
      (can_place s.board { x := 3, y := -2, type := t, rot := 0 } = some false →
        s'.game_over = true) ∧
      (can_place s.board { x := 3, y := -2, type := t, rot := 0 } = some true →
        s'.game_over = s.game_over) := by
  obtain ⟨s', h1, h2, h3, h4, h5, h6, h7, _, h9, h10, _⟩ := new_piece_spec t s ht0 ht1
  exact ⟨s', h1, h2, h3, h4, h5, h6, h7, h9, h10⟩

theorem C8_witness :
    (0 : Int) ≤ 1 ∧ (1 : Int) < 7 ∧ ∃ s' : State, new_piece 1 initial = some s' ∧
      s'.cur = { x := 3, y := -2, type := 1, rot := 0 } ∧ s'.board = initial.board := by
  obtain ⟨s', h1, h2, h3, _⟩ := C8_new_piece_spawns 1 initial (by decide) (by decide)
  exact ⟨by decide, by decide, s', h1, h2, h3⟩

/-- C9: in a state that is neither over nor paused, the left, right and rotate keys build
the candidate piece (`x-1`, `x+1`, or `rot` replaced by `(rot+1) % 4` with x and y kept);
when `can_place` accepts the candidate the new state is the old one with the candidate as
active piece, and when `can_place` rejects it the state is unchanged: nothing else is
tried and no other global changes.  For a piece with type in 0..6 and rot in 0..3 the test
always yields one of the two answers. -/
theorem C9_move_or_rotate_commits_iff_legal (fuel : Nat) (t junk : Int) (s : State)
    (hgo : s.game_over = false) (hp : s.paused = false) :
    (∀ (k : Key) (n : Piece),
        (k = Key.left ∧ n = { s.cur with x := s.cur.x - 1 }) ∨
        (k = Key.right ∧ n = { s.cur with x := s.cur.x + 1 }) ∨
        (k = Key.up ∧ n = { s.cur with rot := Int.tmod (s.cur.rot + 1) 4 }) →
      (can_place s.board n = some true → key_dispatch fuel t junk k s = some { s with cur := n }) ∧
      (can_place s.board n = some false → key_dispatch fuel t junk k s = some s) ∧
      (s.cur.valid → ∃ v, can_place s.board n = some v)) := by
  intro k n hk
  have hd : key_dispatch fuel t junk k s = try_move n s := by
    rcases hk with ⟨rfl, rfl⟩ | ⟨rfl, rfl⟩ | ⟨rfl, rfl⟩ <;>
      simp [key_dispatch, hgo, hp]
  refine ⟨?_, ?_, ?_⟩
  · intro h; rw [hd]; simp only [try_move, h]
  · intro h; rw [hd]; simp only [try_move, h]
  · intro hv
    apply (can_place_char s.board n _).1
    obtain ⟨h1, h2, h3, h4⟩ := hv
    rcases hk with ⟨_, rfl⟩ | ⟨_, rfl⟩ | ⟨_, rfl⟩
    · exact ⟨h1, h2, h3, h4⟩
    · exact ⟨h1, h2, h3, h4⟩
    · refine ⟨h1, h2, ?_, ?_⟩
      · show 0 ≤ Int.tmod (s.cur.rot + 1) 4
        generalize s.cur.rot = r at h3 h4
        interval_cases r <;> decide
      · show Int.tmod (s.cur.rot + 1) 4 < 4
        generalize s.cur.rot = r at h3 h4
        interval_cases r <;> decide

theorem C9_witness :
    key_dispatch 0 0 0 Key.left { initial with cur := ⟨3, -2, 1, 0⟩ } =
      some { initial with cur := ⟨2, -2, 1, 0⟩ } :=
  (C9_move_or_rotate_commits_iff_legal 0 0 0 { initial with cur := ⟨3, -2, 1, 0⟩ } rfl rfl
    Key.left ⟨2, -2, 1, 0⟩ (Or.inl ⟨rfl, rfl⟩)).1 (by decide)


/-! ### Scoring -/

theorem table_at_spec (c : Int) (h1 : 1 ≤ c) (h4 : c ≤ 4) :
    ∃ pts, table_at c = some pts ∧ (c = 1 → pts = 100) ∧ (c = 2 → pts = 300) ∧
      (c = 3 → pts = 500) ∧ (c = 4 → pts = 800) := by
  interval_cases c
  · exact ⟨100, rfl, by decide⟩
  · exact ⟨300, rfl, by decide⟩
  · exact ⟨500, rfl, by decide⟩
  · exact ⟨800, rfl, by decide⟩

theorem wrap32_of_fits (n : Int) (h : fits_int n) : wrap32 n = n := by
  unfold fits_int at h
  unfold wrap32
  omega

theorem wrap32_fits (n : Int) : fits_int (wrap32 n) := by
  unfold fits_int wrap32
  omega

/-- The scoring block touches neither the board, the active piece nor the two flags. -/
theorem soft_drop_score_frame (junk c : Int) (s : State) :
    (soft_drop_score junk c s).board = s.board ∧ (soft_drop_score junk c s).cur = s.cur ∧
    (soft_drop_score junk c s).game_over = s.game_over ∧
    (soft_drop_score junk c s).paused = s.paused := by
  unfold soft_drop_score
  by_cases hc : c ≠ 0
  · rw [if_pos hc]
    dsimp only
    split <;> exact ⟨rfl, rfl, rfl, rfl⟩
  · rw [if_neg hc]
    exact ⟨rfl, rfl, rfl, rfl⟩

theorem soft_drop_score_zero (junk : Int) (s : State) : soft_drop_score junk 0 s = s := by
  unfold soft_drop_score
  rw [if_neg (fun h => h rfl)]

/-- The counters after the scoring block for a count `c ≠ 0` whose table read yields
`pts`. -/
theorem soft_drop_score_spec (junk c pts : Int) (s : State) (hc : c ≠ 0)
    (hp : table_at c = some pts) :
    (soft_drop_score junk c s).lines_cleared = wrap32 (s.lines_cleared + c) ∧
    (soft_drop_score junk c s).score = wrap32 (s.score + wrap32 (pts * s.level)) ∧
    (Int.tdiv (wrap32 (s.lines_cleared + c)) LEVEL_UP_LINES + 1 > s.level →
      (soft_drop_score junk c s).level =
        Int.tdiv (wrap32 (s.lines_cleared + c)) LEVEL_UP_LINES + 1 ∧
      (soft_drop_score junk c s).tick_ms = max TICK_MS_MIN (wrap32 (TICK_MS_INITIAL -
        wrap32 ((Int.tdiv (wrap32 (s.lines_cleared + c)) LEVEL_UP_LINES + 1 - 1) * 45)))) ∧
    (¬ Int.tdiv (wrap32 (s.lines_cleared + c)) LEVEL_UP_LINES + 1 > s.level →
      (soft_drop_score junk c s).level = s.level ∧
      (soft_drop_score junk c s).tick_ms = s.tick_ms) := by
  unfold soft_drop_score
  rw [if_pos hc]
  simp only [hp]
  by_cases hl : Int.tdiv (wrap32 (s.lines_cleared + c)) LEVEL_UP_LINES + 1 > s.level
  · rw [if_pos hl]
    exact ⟨rfl, rfl, fun _ => ⟨rfl, rfl⟩, fun h => absurd hl h⟩
  · rw [if_neg hl]
    exact ⟨rfl, rfl, fun h => absurd h hl, fun _ => ⟨rfl, rfl⟩⟩

theorem soft_drop_land_of (fuel : Nat) (t junk : Int) (s : State) (b1 b2 : Board) (c : Int)
    (hlock : lock_piece s.board s.cur = some b1) (hclear : clear_lines fuel b1 = some (b2, c)) :
    soft_drop_land fuel t junk s =
      new_piece t (soft_drop_score junk c { s with board := b2 }) := by
  unfold soft_drop_land
  simp only [hlock, hclear]

theorem soft_drop_of_landing (fuel : Nat) (t junk : Int) (s : State)
    (hland : can_place s.board { s.cur with y := s.cur.y + 1 } = some false) :
    soft_drop fuel t junk s = soft_drop_land fuel t junk s := by
  unfold soft_drop
  simp only [hland]

/-- C6 (as stated, refuted): in the state `near_int_max` the O piece at `(3, 17)` cannot
descend, its landing completes row 19, `clear_lines` returns 1, and `soft_drop` leaves
`score = -2147483596`, which is not `score + table[1] * level = 2147483600 + 100 * 1`:
the sum does not fit in the 32-bit `int` that holds the score. -/
theorem C6_counterexample :
    can_place near_int_max.board { near_int_max.cur with y := near_int_max.cur.y + 1 } =
      some false ∧
    ((lock_piece near_int_max.board near_int_max.cur).bind (clear_lines 40)).map Prod.snd =
      some 1 ∧
    table_at 1 = some 100 ∧
    (soft_drop 40 1 0 near_int_max).map State.score = some (-2147483596) ∧
    (soft_drop 40 1 0 near_int_max).map State.score ≠
      some (near_int_max.score + 100 * near_int_max.level) := by
  decide

/-- C6 (amended): in a state whose active piece cannot descend (`can_place` fails at
`y+1`), when the lock succeeds and `clear_lines` returns `c`: for `c` in 1..4 `soft_drop`
sets lines_cleared to `lines_cleared + c` and score to `score + table[c] * L`, both
computed in 32-bit `int` arithmetic, `L` being the level held before the call; whenever
`lines_cleared + c`, `table[c] * L` and `score + table[c] * L` lie within the range of
`int`, these are the exact sums (so 100, 300, 500 and 800 times `L` are added for 1, 2, 3
and 4 rows).  For `c = 0` score, lines_cleared, level and tick_ms are unchanged. -/
theorem C6_soft_drop_scoring (fuel : Nat) (t junk : Int) (s : State) (b1 b2 : Board) (c : Int)
    (ht0 : 0 ≤ t) (ht1 : t < 7)
    (hland : can_place s.board { s.cur with y := s.cur.y + 1 } = some false)
    (hlock : lock_piece s.board s.cur = some b1)
    (hclear : clear_lines fuel b1 = some (b2, c)) :
    (1 ≤ c → c ≤ 4 → ∃ (s' : State) (pts : Int), soft_drop fuel t junk s = some s' ∧
      table_at c = some pts ∧
      s'.lines_cleared = wrap32 (s.lines_cleared + c) ∧
      s'.score = wrap32 (s.score + wrap32 (pts * s.level)) ∧
      (fits_int (s.lines_cleared + c) → s'.lines_cleared = s.lines_cleared + c) ∧
      (fits_int (pts * s.level) → fits_int (s.score + pts * s.level) →
        s'.score = s.score + pts * s.level ∧
        (c = 1 → s'.score = s.score + 100 * s.level) ∧
        (c = 2 → s'.score = s.score + 300 * s.level) ∧
        (c = 3 → s'.score = s.score + 500 * s.level) ∧
        (c = 4 → s'.score = s.score + 800 * s.level))) ∧
    (c = 0 → ∃ s' : State, soft_drop fuel t junk s = some s' ∧ s'.score = s.score ∧
      s'.lines_cleared = s.lines_cleared ∧ s'.level = s.level ∧ s'.tick_ms = s.tick_ms) := by
  rw [soft_drop_of_landing fuel t junk s hland,
    soft_drop_land_of fuel t junk s b1 b2 c hlock hclear]
  constructor
  · intro h1 h4
    obtain ⟨pts, hp, p1, p2, p3, p4⟩ := table_at_spec c h1 h4
    obtain ⟨hl, hs, _⟩ :=
      soft_drop_score_spec junk c pts { s with board := b2 } (by omega) hp
    obtain ⟨s', e', _, _, hs', hl', _⟩ :=
      new_piece_spec t (soft_drop_score junk c { s with board := b2 }) ht0 ht1
    have hsc : s'.score = wrap32 (s.score + wrap32 (pts * s.level)) := by rw [hs', hs]
    refine ⟨s', pts, e', hp, by rw [hl', hl], hsc, ?_, ?_⟩
    · intro hf
      rw [hl', hl]
      exact wrap32_of_fits _ hf
    · intro hf1 hf2
      have hsum : s'.score = s.score + pts * s.level := by
        rw [hsc, wrap32_of_fits _ hf1, wrap32_of_fits _ hf2]
      refine ⟨hsum, ?_, ?_, ?_, ?_⟩
      · intro hc; rw [hsum, p1 hc]
      · intro hc; rw [hsum, p2 hc]
      · intro hc; rw [hsum, p3 hc]
      · intro hc; rw [hsum, p4 hc]
  · intro h0
    subst h0
    rw [soft_drop_score_zero]
    obtain ⟨s', e', _, _, hs', hl', hv', htk', _⟩ := new_piece_spec t { s with board := b2 } ht0 ht1
    exact ⟨s', e', hs', hl', hv', htk'⟩

theorem C6_witness :
    ∃ s' : State, soft_drop 40 1 0
      { initial with
        board := List.replicate 19 (List.replicate 10 0) ++ [[1, 1, 1, 1, 0, 0, 1, 1, 1, 1]],
        cur := ⟨3, 17, 1, 0⟩ } = some s' ∧
      s'.lines_cleared = 0 + 1 ∧ s'.score = 0 + 100 * 1 := by
  obtain ⟨h, _⟩ := C6_soft_drop_scoring 40 1 0
    { initial with
      board := List.replicate 19 (List.replicate 10 0) ++ [[1, 1, 1, 1, 0, 0, 1, 1, 1, 1]],
      cur := ⟨3, 17, 1, 0⟩ }
    (List.replicate 18 (List.replicate 10 0) ++
      [[0, 0, 0, 0, 2, 2, 0, 0, 0, 0], [1, 1, 1, 1, 2, 2, 1, 1, 1, 1]])
    (List.replicate 19 (List.replicate 10 0) ++ [[0, 0, 0, 0, 2, 2, 0, 0, 0, 0]])
    1 (by decide) (by decide) (by decide) (by decide) (by decide)
  obtain ⟨s', pts, e, hp, _, _, hl, hs⟩ := h (by decide) (by decide)
  have hp1 : pts = 100 := by
    have h100 : table_at 1 = some 100 := rfl
    rw [h100] at hp
    exact (Option.some.inj hp).symm
  subst hp1
  exact ⟨s', e, hl (by decide), ((hs (by decide) (by decide)).2.1 rfl)⟩

/-! ### Hard drop -/

/-- Every mask of `TETRO` has an occupied cell. -/
theorem cell_exists (type rot : Int) (h : 0 ≤ type ∧ type < 7 ∧ 0 ≤ rot ∧ rot < 4) :
    ∃ r c : Int, 0 ≤ r ∧ r < 4 ∧ 0 ≤ c ∧ c < 4 ∧ cell type rot r c = some true := by
  have key : ∃ rc ∈ cell_positions, cell type rot rc.1 rc.2 = some true := by
    obtain ⟨h1, h2, h3, h4⟩ := h
    interval_cases type <;> interval_cases rot <;> decide
  obtain ⟨⟨r, c⟩, hm, hc⟩ := key
  obtain ⟨a1, a2, a3, a4⟩ := (mem_cell_positions r c).1 hm
  exact ⟨r, c, a1, a2, a3, a4, hc⟩

theorem can_place_true_lt (b : Board) (p : Piece) (hv : p.valid)
    (h : can_place b p = some true) : p.y < BOARD_H := by
  obtain ⟨r, c, a1, a2, a3, a4, hc⟩ := cell_exists p.type p.rot hv
  have := ((can_place_char b p hv).2.1.1 h) r c a1 a2 a3 a4 hc
  omega

/-- The descent loop stops at the first `ystar` whose successor is rejected, after exactly
`ystar - cur.y` iterations. -/
theorem descend_spec (b : Board) (n : Nat) : ∀ cur : Piece, cur.valid →
    (BOARD_H - cur.y).toNat ≤ n →
    ∃ ystar : Int, cur.y ≤ ystar ∧ (ystar = cur.y ∨ ystar < BOARD_H) ∧
      can_place b { cur with y := ystar + 1 } = some false ∧
      (∀ y : Int, cur.y < y → y ≤ ystar → can_place b { cur with y := y } = some true) ∧
      (∀ fuel : Nat, (ystar - cur.y).toNat ≤ fuel →
        descend fuel b cur = some { cur with y := ystar }) ∧
      (∀ fuel : Nat, fuel < (ystar - cur.y).toNat → descend fuel b cur = none) := by
  induction n with
  | zero =>
    intro cur hv hn
    obtain ⟨v, hc⟩ := (can_place_char b { cur with y := cur.y + 1 } hv).1
    cases v with
    | true =>
      have := can_place_true_lt b { cur with y := cur.y + 1 } hv hc
      simp only at this
      omega
    | false =>
      refine ⟨cur.y, le_refl _, Or.inl rfl, hc, fun y h1 h2 => by omega, ?_, ?_⟩
      · intro fuel _
        cases fuel <;> simp only [descend, hc]
      · intro fuel hf
        simp at hf
  | succ n ih =>
    intro cur hv hn
    obtain ⟨v, hc⟩ := (can_place_char b { cur with y := cur.y + 1 } hv).1
    cases v with
    | false =>
      refine ⟨cur.y, le_refl _, Or.inl rfl, hc, fun y h1 h2 => by omega, ?_, ?_⟩
      · intro fuel _
        cases fuel <;> simp only [descend, hc]
      · intro fuel hf
        simp at hf
    | true =>
      have hlt := can_place_true_lt b { cur with y := cur.y + 1 } hv hc
      simp only at hlt
      obtain ⟨ystar, h1, h2, h3, h4, h5, h6⟩ := ih { cur with y := cur.y + 1 } hv
        (by simp only; omega)
      simp only at h1 h2 h3 h4 h5 h6
      refine ⟨ystar, by omega, Or.inr (by omega), h3, ?_, ?_, ?_⟩
      · intro y hy1 hy2
        by_cases hy : y = cur.y + 1
        · rw [hy]; exact hc
        · exact h4 y (by omega) hy2
      · intro fuel hf
        cases fuel with
        | zero => omega
        | succ fuel =>
          simp only [descend, hc]
          exact h5 fuel (by omega)
      · intro fuel hf
        cases fuel with
        | zero => simp only [descend, hc]
        | succ fuel =>
          simp only [descend, hc]
          exact h6 fuel (by omega)

/-- With less fuel than `n` plus the number of full rows still to scan, the loop of
`clear_lines` has not finished. -/
theorem clear_loop_none (fuel : Nat) : ∀ (b : Board) (n : Nat) (cleared : Int),
    n ≤ b.length → fuel < n + (b.take n).countP full_row →
    clear_loop fuel b ((n : Int) - 1) cleared = none := by
  induction fuel with
  | zero =>
    intro b n cleared hn hf
    cases n with
    | zero => simp at hf
    | succ m =>
      have hy : ((m + 1 : Nat) : Int) - 1 = (m : Int) := by push_cast; ring
      rw [hy, clear_loop, if_pos (by omega)]
  | succ fuel ih =>
    intro b n cleared hn hf
    cases n with
    | zero => simp at hf
    | succ m =>
      have hm : m < b.length := by omega
      have hy : ((m + 1 : Nat) : Int) - 1 = (m : Int) := by push_cast; ring
      rw [hy, clear_loop, if_pos (by omega), row_full_eq, Int.toNat_ofNat,
        List.getD_eq_getElem _ _ hm]
      have htake : b.take (m + 1) = b.take m ++ [b[m]] := by
        rw [List.take_succ, List.getElem?_eq_getElem hm]; rfl
      by_cases hfull : full_row b[m] = true
      · rw [if_pos hfull, clear_row_eq m b hm]
        have hy2 : (m : Int) + 1 - 1 = ((m + 1 : Nat) : Int) - 1 := by push_cast; ring
        rw [hy2]
        have hcount : (b.take (m + 1)).countP full_row = (b.take m).countP full_row + 1 := by
          rw [htake, List.countP_append]; simp [hfull]
        have htk : (zero_row :: (b.take m ++ b.drop (m + 1))).take (m + 1) = zero_row :: b.take m := by
          rw [List.take_succ_cons, List.take_left']
          simp; omega
        apply ih _ (m + 1) _ (by simp; omega)
        rw [htk, List.countP_cons_of_neg _ _ (by simp [full_row_zero])]
        omega
      · rw [if_neg hfull]
        have hcount : (b.take (m + 1)).countP full_row = (b.take m).countP full_row := by
          rw [htake, List.countP_append]; simp [hfull]
        exact ih b m cleared (by omega) (by omega)

theorem clear_lines_none (b : Board) (hlen : b.length = BOARD_H.toNat) (fuel : Nat)
    (hfuel : fuel < BOARD_H.toNat + b.countP full_row) : clear_lines fuel b = none := by
  have h := clear_loop_none fuel b b.length 0 (le_refl _) (by
    rw [List.take_length, hlen]; exact hfuel)
  unfold clear_lines
  have hy : BOARD_H - 1 = ((b.length : Nat) : Int) - 1 := by rw [hlen]; rfl
  rw [hy, h]

theorem clear_lines_exact (b : Board) (hlen : b.length = BOARD_H.toNat) (fuel : Nat)
    (hfuel : BOARD_H.toNat + b.countP full_row ≤ fuel) :
    clear_lines fuel b =
      some (List.replicate (b.countP full_row) zero_row ++ b.filter (fun row => !full_row row),
            ((b.countP full_row : Nat) : Int)) := by
  have h := clear_loop_spec fuel b b.length 0 (le_refl _) (by
    rw [List.take_length, hlen]; exact hfuel)
  simp only [List.take_length, List.drop_length, List.append_nil, zero_add] at h
  unfold clear_lines
  have hy : BOARD_H - 1 = ((b.length : Nat) : Int) - 1 := by rw [hlen]; rfl
  rw [hy, h]

theorem row_full_congr (b b' : Board) (y : Int)
    (h : ∀ x : Int, 0 ≤ x → x < BOARD_W → board_at b' y x = board_at b y x) :
    row_full b' y = row_full b y := by
  unfold row_full
  have hW : BOARD_W.toNat = 10 := rfl
  have hW' : BOARD_W = 10 := rfl
  rw [Bool.eq_iff_iff, List.all_eq_true, List.all_eq_true]
  constructor
  · intro h1 x hx
    have hx' := hx
    rw [hW, List.mem_range] at hx'
    rw [← h (x : Int) (by omega) (by rw [hW']; omega)]
    exact h1 x hx
  · intro h1 x hx
    have hx' := hx
    rw [hW, List.mem_range] at hx'
    rw [h (x : Int) (by omega) (by rw [hW']; omega)]
    exact h1 x hx

/-- Locking a piece on a board without full rows leaves at most four full rows: only the
rows `y..y+3` are written. -/
theorem lock_full_rows_le (b b1 : Board) (p : Piece) (hwf : b.WF) (hv : p.valid)
    (hnf : ∀ y : Int, 0 ≤ y → y < BOARD_H → row_full b y = false)
    (hlock : lock_piece b p = some b1) : b1.countP full_row ≤ 4 := by
  obtain ⟨b', e, hwf', hb'⟩ := lock_piece_spec b p hwf hv
  rw [hlock] at e; cases e
  rw [← rows_count_eq b1 full_row, hwf'.1]
  have hH : BOARD_H.toNat = 20 := rfl
  have hH' : BOARD_H = 20 := rfl
  have hsub : (List.range BOARD_H.toNat).filter (fun y => full_row (b1.getD y [])) ⊆
      List.range' p.y.toNat 4 := by
    intro y hy
    obtain ⟨hy1, hy2⟩ := List.mem_filter.1 hy
    rw [hH, List.mem_range] at hy1
    rw [← row_full_nat] at hy2
    by_contra hout
    have hframe : row_full b1 (y : Int) = row_full b (y : Int) := by
      apply row_full_congr
      intro x hx0 hx1
      apply (hb' (y : Int) x (by omega) (by rw [hH']; omega) hx0 hx1).2
      rintro ⟨r, c, a1, a2, a3, a4, _, e1, _⟩
      apply hout
      rw [List.mem_range']
      refine ⟨(y - p.y.toNat), ?_, ?_⟩ <;> omega
    rw [hframe, hnf (y : Int) (by omega) (by rw [hH']; omega)] at hy2
    cases hy2
  have hnd : ((List.range BOARD_H.toNat).filter (fun y => full_row (b1.getD y []))).Nodup :=
    (List.nodup_range _).filter _
  have := (hnd.subperm hsub).length_le
  simpa using this

theorem soft_drop_land_some (fuel : Nat) (t junk : Int) (s : State) (b1 : Board)
    (ht0 : 0 ≤ t) (ht1 : t < 7)
    (hlock : lock_piece s.board s.cur = some b1) (hlen : b1.length = BOARD_H.toNat)
    (hfuel : BOARD_H.toNat + b1.countP full_row ≤ fuel) :
    ∃ s' : State, soft_drop_land fuel t junk s = some s' ∧
      s'.board = List.replicate (b1.countP full_row) zero_row ++
        b1.filter (fun row => !full_row row) ∧
      s'.cur = { x := 3, y := -2, type := t, rot := 0 } ∧ s'.paused = s.paused ∧
      (s.game_over = true → s'.game_over = true) := by
  rw [soft_drop_land_of fuel t junk s b1 _ _ hlock (clear_lines_exact b1 hlen fuel hfuel)]
  generalize List.replicate (b1.countP full_row) zero_row ++
    b1.filter (fun row => !full_row row) = b2
  obtain ⟨hb2, _, hg2, hp2⟩ :=
    soft_drop_score_frame junk ((b1.countP full_row : Nat) : Int) { s with board := b2 }
  obtain ⟨s', e, hc, hb, _, _, _, _, hp, _, _, hg⟩ := new_piece_spec t
    (soft_drop_score junk ((b1.countP full_row : Nat) : Int) { s with board := b2 }) ht0 ht1
  exact ⟨s', e, by rw [hb, hb2], hc, by rw [hp, hp2], fun h => hg (by rw [hg2]; exact h)⟩

theorem hard_drop_of_descend (fuel : Nat) (t junk : Int) (s : State) (p : Piece)
    (hd : descend fuel s.board s.cur = some p)
    (hland : can_place s.board { p with y := p.y + 1 } = some false) :
    hard_drop fuel t junk s = soft_drop_land fuel t junk { s with cur := p } := by
  unfold hard_drop
  simp only [hd]
  exact soft_drop_of_landing fuel t junk { s with cur := p } hland

/-- What `hard_drop` does on any board of the right shape with a piece of type in `0..6` and rot in `0..3`. -/
theorem hard_drop_spec (t junk : Int) (s : State) (hwf : s.board.WF) (hv : s.cur.valid)
    (ht0 : 0 ≤ t) (ht1 : t < 7) :
    ∃ (ystar : Int) (b1 b2 : Board) (c : Int),
      s.cur.y ≤ ystar ∧
      (∀ y : Int, s.cur.y < y → y ≤ ystar →
        can_place s.board { s.cur with y := y } = some true) ∧
      can_place s.board { s.cur with y := ystar + 1 } = some false ∧
      lock_piece s.board { s.cur with y := ystar } = some b1 ∧
      (∀ fuel : Nat, 2 * BOARD_H.toNat + (BOARD_H - s.cur.y).toNat ≤ fuel →
        descend fuel s.board s.cur = some { s.cur with y := ystar } ∧
        clear_lines fuel b1 = some (b2, c) ∧
        hard_drop fuel t junk s =
          soft_drop_land fuel t junk { s with cur := { s.cur with y := ystar } } ∧
        ∃ s' : State, hard_drop fuel t junk s = some s' ∧ s'.board = b2 ∧
          s'.cur = { x := 3, y := -2, type := t, rot := 0 }) ∧
      ((∀ y : Int, 0 ≤ y → y < BOARD_H → row_full s.board y = false) → c ≤ 4) := by
  obtain ⟨ystar, h1, h2, h3, h4, h5, h6⟩ :=
    descend_spec s.board (BOARD_H - s.cur.y).toNat s.cur hv (le_refl _)
  obtain ⟨b1, hlock, hwf1, _⟩ := lock_piece_spec s.board { s.cur with y := ystar } hwf hv
  have hk : b1.countP full_row ≤ BOARD_H.toNat := by
    rw [← hwf1.1]; exact List.countP_le_length _
  have hiter : (ystar - s.cur.y).toNat ≤ (BOARD_H - s.cur.y).toNat := by
    rcases h2 with h2 | h2 <;> omega
  refine ⟨ystar, b1, List.replicate (b1.countP full_row) zero_row ++
    b1.filter (fun row => !full_row row), ((b1.countP full_row : Nat) : Int),
    h1, h4, h3, hlock, ?_, ?_⟩
  · intro fuel hfuel
    have hd := h5 fuel (by omega)
    have hhd := hard_drop_of_descend fuel t junk s _ hd h3
    refine ⟨hd, clear_lines_exact b1 hwf1.1 fuel (by omega), hhd, ?_⟩
    obtain ⟨s', e, hb, hcur, _⟩ := soft_drop_land_some fuel t junk
      { s with cur := { s.cur with y := ystar } } b1 ht0 ht1 hlock hwf1.1 (by omega)
    exact ⟨s', by rw [hhd]; exact e, hb, hcur⟩
  · intro hnf
    have := lock_full_rows_le s.board b1 { s.cur with y := ystar } hwf hv hnf hlock
    omega

/-- C10: for every board and every active piece with type in 0..6 and rot in 0..3,
`hard_drop` terminates (it returns a state once it is allowed
`2 * BOARD_H + (BOARD_H - cur.y)` loop iterations): its descent loop stops at the first
`ystar ≥ cur.y` at which `can_place` fails for `ystar + 1`, every offset in
`(cur.y, ystar]` being legal; the one `soft_drop` that follows takes the landing branch,
so the piece is locked at `(x, ystar)`, `clear_lines` runs on the locked board, and the
state returned holds the cleared board and the freshly spawned piece `(3, -2, t, 0)` as
active piece, whatever the read of the reward table yields. -/
theorem C10_hard_drop_lands (t junk : Int) (s : State) (hwf : s.board.WF) (hv : s.cur.valid)
    (ht0 : 0 ≤ t) (ht1 : t < 7) :
    ∃ (ystar : Int) (b1 b2 : Board) (c : Int),
      s.cur.y ≤ ystar ∧
      (∀ y : Int, s.cur.y < y → y ≤ ystar →
        can_place s.board { s.cur with y := y } = some true) ∧
      can_place s.board { s.cur with y := ystar + 1 } = some false ∧
      lock_piece s.board { s.cur with y := ystar } = some b1 ∧
      (∀ fuel : Nat, 2 * BOARD_H.toNat + (BOARD_H - s.cur.y).toNat ≤ fuel →
        descend fuel s.board s.cur = some { s.cur with y := ystar } ∧
        clear_lines fuel b1 = some (b2, c) ∧
        hard_drop fuel t junk s =
          soft_drop_land fuel t junk { s with cur := { s.cur with y := ystar } } ∧
        ∃ s' : State, hard_drop fuel t junk s = some s' ∧ s'.board = b2 ∧
          s'.cur = { x := 3, y := -2, type := t, rot := 0 }) := by
  obtain ⟨ystar, b1, b2, c, h1, h2, h3, h4, h5, _⟩ := hard_drop_spec t junk s hwf hv ht0 ht1
  exact ⟨ystar, b1, b2, c, h1, h2, h3, h4, h5⟩

theorem initial_no_full_row (y : Int) (h0 : 0 ≤ y) (h1 : y < BOARD_H) :
    row_full initial.board y = false := by
  have hH : BOARD_H = 20 := rfl
  rw [hH] at h1
  interval_cases y <;> rfl

theorem C10_witness :
    ∃ s' : State, hard_drop 62 1 7 five_full_rows = some s' ∧
      s'.cur = { x := 3, y := -2, type := 1, rot := 0 } ∧
      descend 62 five_full_rows.board five_full_rows.cur = some five_full_rows.cur := by
  obtain ⟨ystar, b1, b2, c, _, _, _, _, h⟩ :=
    C10_hard_drop_lands 1 7 five_full_rows (by decide) (by decide) (by decide) (by decide)
  obtain ⟨_, _, _, s', e, _, hcur⟩ := h 62 (by decide)
  exact ⟨s', e, hcur, by decide⟩

/-! ### Reachable states -/

/-- What the landing branch of `soft_drop` has done when it returns a state from a state
that satisfies the board invariant: `clear_lines` has returned a count `c` in `0..4` and
a board `b2` of the right shape without full rows, and the state returned is the spawn
that follows the scoring block. -/
theorem soft_drop_land_cases (fuel : Nat) (t junk : Int) (s s' : State) (hi : Inv s)
    (h : soft_drop_land fuel t junk s = some s') :
    ∃ (b2 : Board) (c : Int), 0 ≤ c ∧ c ≤ 4 ∧ b2.WF ∧
      (∀ y : Int, 0 ≤ y → y < BOARD_H → row_full b2 y = false) ∧
      new_piece t (soft_drop_score junk c { s with board := b2 }) = some s' := by
  obtain ⟨hwf, hnf, hv⟩ := hi
  obtain ⟨b1, hlock, hwf1, _⟩ := lock_piece_spec s.board s.cur hwf hv
  have hk := lock_full_rows_le s.board b1 s.cur hwf hv hnf hlock
  by_cases hf : fuel < BOARD_H.toNat + b1.countP full_row
  · unfold soft_drop_land at h
    simp only [hlock, clear_lines_none b1 hwf1.1 fuel hf] at h
    cases h
  rw [soft_drop_land_of fuel t junk s b1 _ _ hlock
    (clear_lines_exact b1 hwf1.1 fuel (by omega))] at h
  exact ⟨_, _, by omega, by omega, cleared_wf b1 hwf1,
    fun y _ hy => cleared_not_full b1 hwf1 y hy, h⟩

/-- The landing branch of `soft_drop` keeps the board invariant. -/
theorem soft_drop_land_inv (fuel : Nat) (t junk : Int) (s s' : State) (hi : Inv s)
    (ht0 : 0 ≤ t) (ht1 : t < 7) (h : soft_drop_land fuel t junk s = some s') : Inv s' := by
  obtain ⟨b2, c, _, _, hwf2, hnf2, hnp⟩ := soft_drop_land_cases fuel t junk s s' hi h
  obtain ⟨hb, _, _, _⟩ := soft_drop_score_frame junk c { s with board := b2 }
  obtain ⟨s'', e, hc, hb', _⟩ := new_piece_spec t
    (soft_drop_score junk c { s with board := b2 }) ht0 ht1
  rw [hnp] at e
  cases e
  refine ⟨by rw [hb', hb]; exact hwf2, by rw [hb', hb]; exact hnf2, ?_⟩
  rw [hc]
  exact ⟨ht0, ht1, le_refl _, by show (0 : Int) < 4; decide⟩

theorem soft_drop_inv (fuel : Nat) (t junk : Int) (s s' : State) (hi : Inv s)
    (ht0 : 0 ≤ t) (ht1 : t < 7) (h : soft_drop fuel t junk s = some s') : Inv s' := by
  unfold soft_drop at h
  cases hc : can_place s.board { s.cur with y := s.cur.y + 1 } with
  | none => simp only [hc] at h; cases h
  | some v =>
    cases v with
    | true =>
      simp only [hc] at h
      cases h
      obtain ⟨hwf, hnf, hv⟩ := hi
      exact ⟨hwf, hnf, hv⟩
    | false =>
      simp only [hc] at h
      exact soft_drop_land_inv fuel t junk s s' hi ht0 ht1 h

theorem descend_some (fuel : Nat) (b : Board) (cur p : Piece) (hv : cur.valid)
    (h : descend fuel b cur = some p) :
    p.valid ∧ p.x = cur.x ∧ p.type = cur.type ∧ p.rot = cur.rot ∧ cur.y ≤ p.y ∧
      can_place b { p with y := p.y + 1 } = some false := by
  obtain ⟨ystar, h1, _, h3, _, h5, h6⟩ :=
    descend_spec b (BOARD_H - cur.y).toNat cur hv (le_refl _)
  by_cases hf : (ystar - cur.y).toNat ≤ fuel
  · rw [h5 fuel hf] at h
    cases h
    exact ⟨hv, rfl, rfl, rfl, h1, h3⟩
  · rw [h6 fuel (by omega)] at h
    cases h

theorem hard_drop_inv (fuel : Nat) (t junk : Int) (s s' : State) (hi : Inv s)
    (ht0 : 0 ≤ t) (ht1 : t < 7) (h : hard_drop fuel t junk s = some s') : Inv s' := by
  unfold hard_drop at h
  cases hd : descend fuel s.board s.cur with
  | none => simp only [hd] at h; cases h
  | some p =>
    simp only [hd] at h
    obtain ⟨hwf, hnf, hv⟩ := hi
    have hp := (descend_some fuel s.board s.cur p hv hd).1
    exact soft_drop_inv fuel t junk { s with cur := p } s' ⟨hwf, hnf, hp⟩ ht0 ht1 h

theorem try_move_inv (n : Piece) (s s' : State) (hi : Inv s) (hn : n.valid)
    (h : try_move n s = some s') : Inv s' := by
  unfold try_move at h
  obtain ⟨hwf, hnf, hv⟩ := hi
  cases hc : can_place s.board n with
  | none => simp only [hc] at h; cases h
  | some v =>
    cases v with
    | true => simp only [hc] at h; cases h; exact ⟨hwf, hnf, hn⟩
    | false => simp only [hc] at h; cases h; exact ⟨hwf, hnf, hv⟩

theorem rot_next_valid (r : Int) (h0 : 0 ≤ r) (h1 : r < 4) :
    0 ≤ Int.tmod (r + 1) 4 ∧ Int.tmod (r + 1) 4 < 4 := by
  interval_cases r <;> decide

/-- What a `soft_drop` that returns a state has done. -/
theorem soft_drop_cases (fuel : Nat) (t junk : Int) (s s' : State)
    (h : soft_drop fuel t junk s = some s') :
    (can_place s.board { s.cur with y := s.cur.y + 1 } = some true ∧
      s' = { s with cur := { s.cur with y := s.cur.y + 1 } }) ∨
    (can_place s.board { s.cur with y := s.cur.y + 1 } = some false ∧
      ∃ (b1 b2 : Board) (c : Int),
        lock_piece s.board s.cur = some b1 ∧ clear_lines fuel b1 = some (b2, c) ∧
        new_piece t (soft_drop_score junk c { s with board := b2 }) = some s') := by
  unfold soft_drop at h
  dsimp only at h
  split at h
  · cases h
  · rename_i hc
    cases h
    exact Or.inl ⟨hc, rfl⟩
  · rename_i hc
    refine Or.inr ⟨hc, ?_⟩
    unfold soft_drop_land at h
    split at h
    · cases h
    · rename_i b1 hb1
      split at h
      · cases h
      · rename_i b2 c hb2
        exact ⟨b1, b2, c, hb1, hb2, h⟩

/-- What `new_piece` leaves behind, whatever the shape id. -/
theorem new_piece_frame (t : Int) (s s' : State) (h : new_piece t s = some s') :
    s'.board = s.board ∧ s'.paused = s.paused ∧ s'.score = s.score ∧
      s'.lines_cleared = s.lines_cleared ∧ s'.level = s.level ∧ s'.tick_ms = s.tick_ms ∧
      s'.cur = { x := 3, y := -2, type := t, rot := 0 } ∧
      (s'.game_over = false → can_place s'.board s'.cur = some true ∧ s.game_over = false) := by
  have hx : Int.tdiv BOARD_W 2 - 2 = 3 := by decide
  unfold new_piece at h
  simp only [hx] at h
  split at h
  · cases h
  · cases h
    exact ⟨rfl, rfl, rfl, rfl, rfl, rfl, rfl, fun hg => by cases hg⟩
  · rename_i hc
    cases h
    exact ⟨rfl, rfl, rfl, rfl, rfl, rfl, rfl, fun hg => ⟨hc, hg⟩⟩

theorem try_move_cases (n : Piece) (s s' : State) (h : try_move n s = some s') :
    (can_place s.board n = some true ∧ s' = { s with cur := n }) ∨
      (can_place s.board n = some false ∧ s' = s) := by
  unfold try_move at h
  split at h
  · cases h
  · rename_i hc; cases h; exact Or.inl ⟨hc, rfl⟩
  · rename_i hc; cases h; exact Or.inr ⟨hc, rfl⟩

/-- What a key dispatch that returns a state has done. -/
theorem key_dispatch_cases (fuel : Nat) (t junk : Int) (k : Key) (s s' : State)
    (h : key_dispatch fuel t junk k s = some s') :
    s' = s ∨ s' = { s with paused := !s.paused } ∨
    (s.game_over = false ∧ s.paused = false ∧
      (try_move { s.cur with x := s.cur.x - 1 } s = some s' ∨
       try_move { s.cur with x := s.cur.x + 1 } s = some s' ∨
       try_move { s.cur with rot := Int.tmod (s.cur.rot + 1) 4 } s = some s' ∨
       soft_drop fuel t junk s = some s' ∨ hard_drop fuel t junk s = some s')) := by
  unfold key_dispatch at h
  by_cases hq : k = Key.quit
  · rw [if_pos hq] at h; cases h; exact Or.inl rfl
  rw [if_neg hq] at h
  cases hgo : s.game_over with
  | true => simp only [hgo] at h; cases h; exact Or.inl rfl
  | false =>
    simp only [hgo] at h
    cases hp : s.paused with
    | true =>
      cases k <;> simp [hp] at h <;> subst h
      · exact absurd rfl hq
      · right; left; simp [hp, hgo]
      all_goals exact Or.inl rfl
    | false =>
      cases k <;> simp [hp] at h
      · exact absurd rfl hq
      · subst h; right; left; simp [hp, hgo]
      · exact Or.inr (Or.inr ⟨rfl, rfl, Or.inl h⟩)
      · exact Or.inr (Or.inr ⟨rfl, rfl, Or.inr (Or.inl h)⟩)
      · exact Or.inr (Or.inr ⟨rfl, rfl, Or.inr (Or.inr (Or.inr (Or.inl h)))⟩)
      · exact Or.inr (Or.inr ⟨rfl, rfl, Or.inr (Or.inr (Or.inl h))⟩)
      · exact Or.inr (Or.inr ⟨rfl, rfl, Or.inr (Or.inr (Or.inr (Or.inr h)))⟩)
      · subst h; exact Or.inl rfl

theorem key_dispatch_inv (fuel : Nat) (t junk : Int) (k : Key) (s s' : State) (hi : Inv s)
    (ht0 : 0 ≤ t) (ht1 : t < 7) (h : key_dispatch fuel t junk k s = some s') : Inv s' := by
  have hv := hi.2.2
  rcases key_dispatch_cases fuel t junk k s s' h with rfl | rfl | ⟨_, _, h⟩
  · exact hi
  · exact hi
  · rcases h with h | h | h | h | h
    · exact try_move_inv { s.cur with x := s.cur.x - 1 } s s' hi hv h
    · exact try_move_inv { s.cur with x := s.cur.x + 1 } s s' hi hv h
    · exact try_move_inv { s.cur with rot := Int.tmod (s.cur.rot + 1) 4 } s s' hi
        ⟨hv.1, hv.2.1, rot_next_valid _ hv.2.2.1 hv.2.2.2⟩ h
    · exact soft_drop_inv fuel t junk s s' hi ht0 ht1 h
    · exact hard_drop_inv fuel t junk s s' hi ht0 ht1 h

/-- Every reachable state satisfies the board invariant. -/
theorem reachable_inv (s : State) (h : Reachable s) : Inv s := by
  induction h with
  | init t s ht0 ht1 hnp =>
    obtain ⟨s', e, hc, hb, _⟩ := new_piece_spec t initial ht0 ht1
    rw [hnp] at e; cases e
    refine ⟨by rw [hb]; decide, by rw [hb]; exact initial_no_full_row, ?_⟩
    rw [hc]; exact ⟨ht0, ht1, le_refl _, by show (0 : Int) < 4; decide⟩
  | tick fuel t junk s s' _ ht0 ht1 _ _ hsd ih =>
    exact soft_drop_inv fuel t junk s s' ih ht0 ht1 hsd
  | key fuel t junk k s s' _ ht0 ht1 hk ih =>
    exact key_dispatch_inv fuel t junk k s s' ih ht0 ht1 hk
  | too_small s _ ih => exact ih

/-- From a state that satisfies the board invariant `soft_drop` returns a state. -/
theorem soft_drop_defined (fuel : Nat) (t junk : Int) (s : State) (hi : Inv s)
    (ht0 : 0 ≤ t) (ht1 : t < 7) (hfuel : 2 * BOARD_H.toNat ≤ fuel) :
    ∃ s' : State, soft_drop fuel t junk s = some s' := by
  obtain ⟨hwf, hnf, hv⟩ := hi
  obtain ⟨v, hc⟩ := (can_place_char s.board { s.cur with y := s.cur.y + 1 } hv).1
  cases v with
  | true =>
    refine ⟨{ s with cur := { s.cur with y := s.cur.y + 1 } }, ?_⟩
    unfold soft_drop
    simp only [hc]
  | false =>
    rw [soft_drop_of_landing fuel t junk s hc]
    obtain ⟨b1, hlock, hwf1, _⟩ := lock_piece_spec s.board s.cur hwf hv
    have hk := lock_full_rows_le s.board b1 s.cur hwf hv hnf hlock
    have hH : BOARD_H.toNat = 20 := rfl
    obtain ⟨s', e, _⟩ := soft_drop_land_some fuel t junk s b1 ht0 ht1 hlock hwf1.1 (by omega)
    exact ⟨s', e⟩

/-- Induction over the reachable states, with the operations of the key dispatch taken
apart into their elementary steps. -/
theorem reachable_induction (P : State → Prop)
    (hinit : ∀ (t : Int) (s : State), 0 ≤ t → t < 7 → new_piece t initial = some s → P s)
    (hdrop : ∀ (fuel : Nat) (t junk : Int) (s s' : State), Inv s → P s → 0 ≤ t → t < 7 →
      s.game_over = false → soft_drop fuel t junk s = some s' → P s')
    (hdesc : ∀ (fuel : Nat) (s : State) (p : Piece), Inv s → P s → s.game_over = false →
      descend fuel s.board s.cur = some p → P { s with cur := p })
    (hmove : ∀ (n : Piece) (s : State), Inv s → P s → s.game_over = false → n.valid →
      can_place s.board n = some true → P { s with cur := n })
    (hpause : ∀ (s : State) (q : Bool), P s → P { s with paused := q }) :
    ∀ s : State, Reachable s → P s := by
  intro s h
  induction h with
  | init t s ht0 ht1 hnp => exact hinit t s ht0 ht1 hnp
  | tick fuel t junk s s' hr ht0 ht1 _ hgo hsd ih =>
    exact hdrop fuel t junk s s' (reachable_inv s hr) ih ht0 ht1 hgo hsd
  | too_small s _ ih => exact hpause s true ih
  | key fuel t junk k s s' hr ht0 ht1 hk ih =>
    have hi := reachable_inv s hr
    have hv := hi.2.2
    have hmv : ∀ n : Piece, n.valid → try_move n s = some s' → s.game_over = false → P s' := by
      intro n hn hm hgo
      rcases try_move_cases n s s' hm with ⟨hc, rfl⟩ | ⟨_, rfl⟩
      · exact hmove n s hi ih hgo hn hc
      · exact ih
    rcases key_dispatch_cases fuel t junk k s s' hk with rfl | rfl | ⟨hgo, _, h⟩
    · exact ih
    · exact hpause s _ ih
    · rcases h with h | h | h | h | h
      · exact hmv { s.cur with x := s.cur.x - 1 } hv h hgo
      · exact hmv { s.cur with x := s.cur.x + 1 } hv h hgo
      · exact hmv { s.cur with rot := Int.tmod (s.cur.rot + 1) 4 }
          ⟨hv.1, hv.2.1, rot_next_valid _ hv.2.2.1 hv.2.2.2⟩ h hgo
      · exact hdrop fuel t junk s s' hi ih ht0 ht1 hgo h
      · unfold hard_drop at h
        split at h
        · cases h
        · rename_i p hp
          obtain ⟨hwf, hnf, _⟩ := hi
          have hpv := (descend_some fuel s.board s.cur p hv hp).1
          exact hdrop fuel t junk { s with cur := p } s' ⟨hwf, hnf, hpv⟩
            (hdesc fuel s p ⟨hwf, hnf, hv⟩ ih hgo hp) ht0 ht1 hgo h

/-! ### Hard drop on the empty board -/

theorem board_at_initial (y x : Int) : board_at initial.board y x = 0 := by
  unfold board_at initial
  simp only [List.getD_eq_getElem?_getD, List.getElem?_replicate]
  split_ifs <;> simp

theorem mask_four_cells (type rot : Int) (h : 0 ≤ type ∧ type < 7 ∧ 0 ≤ rot ∧ rot < 4) :
    (cell_positions.filter (fun rc => cell type rot rc.1 rc.2 == some true)).length = 4 := by
  obtain ⟨h1, h2, h3, h4⟩ := h
  interval_cases type <;> interval_cases rot <;> decide

theorem piece_with_y_self (p : Piece) : ({ p with y := p.y } : Piece) = p := by
  cases p; rfl

/-- On the empty board a rejected position has an occupied cell below the grid or beside it. -/
theorem can_place_empty_false (p : Piece) (hv : p.valid)
    (h : can_place initial.board p = some false) :
    ∃ r c : Int, 0 ≤ r ∧ r < 4 ∧ 0 ≤ c ∧ c < 4 ∧ cell p.type p.rot r c = some true ∧
      (p.x + c < 0 ∨ BOARD_W ≤ p.x + c ∨ BOARD_H ≤ p.y + r) := by
  by_contra hno
  have : can_place initial.board p = some true := by
    apply (can_place_char initial.board p hv).2.1.2
    intro r c a1 a2 a3 a4 hc
    refine ⟨?_, ?_, ?_, Or.inr (board_at_initial _ _)⟩
    · by_contra hx; exact hno ⟨r, c, a1, a2, a3, a4, hc, Or.inl (by omega)⟩
    · by_contra hx; exact hno ⟨r, c, a1, a2, a3, a4, hc, Or.inr (Or.inl (by omega))⟩
    · by_contra hx; exact hno ⟨r, c, a1, a2, a3, a4, hc, Or.inr (Or.inr (by omega))⟩
  rw [this] at h
  cases h

theorem hard_drop_empty_spec (t junk : Int) (s : State) (hb : s.board = initial.board)
    (hv : s.cur.valid) (hleg : can_place s.board s.cur = some true)
    (ht0 : 0 ≤ t) (ht1 : t < 7) :
    ∃ (ystar : Int) (b1 : Board),
      s.cur.y ≤ ystar ∧
      (∃ r c : Int, 0 ≤ r ∧ r < 4 ∧ 0 ≤ c ∧ c < 4 ∧ cell s.cur.type s.cur.rot r c = some true ∧
        ystar + r = BOARD_H - 1) ∧
      (∀ r c : Int, 0 ≤ r → r < 4 → 0 ≤ c → c < 4 → cell s.cur.type s.cur.rot r c = some true →
        0 ≤ ystar + r ∧ ystar + r ≤ BOARD_H - 1 ∧ 0 ≤ s.cur.x + c ∧ s.cur.x + c < BOARD_W) ∧
      (cell_positions.filter
        (fun rc => cell s.cur.type s.cur.rot rc.1 rc.2 == some true)).length = 4 ∧
      b1.WF ∧
      (∀ gy gx : Int, 0 ≤ gy → gy < BOARD_H → 0 ≤ gx → gx < BOARD_W →
        ((∃ r c : Int, 0 ≤ r ∧ r < 4 ∧ 0 ≤ c ∧ c < 4 ∧
            cell s.cur.type s.cur.rot r c = some true ∧
            gy = ystar + r ∧ gx = s.cur.x + c) → board_at b1 gy gx = s.cur.type + 1) ∧
        ((¬ ∃ r c : Int, 0 ≤ r ∧ r < 4 ∧ 0 ≤ c ∧ c < 4 ∧
            cell s.cur.type s.cur.rot r c = some true ∧
            gy = ystar + r ∧ gx = s.cur.x + c) → board_at b1 gy gx = 0)) ∧
      ∀ fuel : Nat, 2 * BOARD_H.toNat + (BOARD_H - s.cur.y).toNat ≤ fuel →
        ∃ s' : State, hard_drop fuel t junk s = some s' ∧ s'.board = b1 ∧
          s'.cur = { x := 3, y := -2, type := t, rot := 0 } ∧
          s'.score = s.score ∧ s'.lines_cleared = s.lines_cleared ∧ s'.level = s.level ∧
          s'.tick_ms = s.tick_ms ∧ s'.game_over = s.game_over ∧ s'.paused = s.paused := by
  have hH : BOARD_H = 20 := rfl
  have hW : BOARD_W = 10 := rfl
  have hwf : s.board.WF := by rw [hb]; decide
  obtain ⟨ystar, h1, h2, h3, h4, h5, _⟩ :=
    descend_spec s.board (BOARD_H - s.cur.y).toNat s.cur hv (le_refl _)
  have hlegal : can_place s.board { s.cur with y := ystar } = some true := by
    by_cases he : ystar = s.cur.y
    · rw [he, piece_with_y_self]; exact hleg
    · exact h4 ystar (by omega) (le_refl _)
  have hin := (can_place_char s.board { s.cur with y := ystar } hv).2.1.1 hlegal
  simp only at hin
  have h3' : can_place initial.board { s.cur with y := ystar + 1 } = some false := by
    rw [← hb]; exact h3
  obtain ⟨r0, c0, b1', b2', b3', b4', hc0, hbad⟩ :=
    can_place_empty_false { s.cur with y := ystar + 1 } hv h3'
  simp only at hc0 hbad
  have hin0 := hin r0 c0 b1' b2' b3' b4' hc0
  have hbot : ystar + r0 = BOARD_H - 1 := by
    rcases hbad with hbad | hbad | hbad <;> omega
  obtain ⟨b1, hlock, hwf1, hcells⟩ := lock_piece_spec s.board { s.cur with y := ystar } hwf hv
  simp only at hcells
  have hcells0 : ∀ gy gx : Int, 0 ≤ gy → gy < BOARD_H → 0 ≤ gx → gx < BOARD_W →
      (¬ ∃ r c : Int, 0 ≤ r ∧ r < 4 ∧ 0 ≤ c ∧ c < 4 ∧
        cell s.cur.type s.cur.rot r c = some true ∧
        gy = ystar + r ∧ gx = s.cur.x + c) → board_at b1 gy gx = 0 := by
    intro gy gx g1 g2 g3 g4 hno
    rw [(hcells gy gx g1 g2 g3 g4).2 hno, hb]
    exact board_at_initial _ _
  have hnf : ∀ y : Int, 0 ≤ y → y < BOARD_H → row_full b1 y = false := by
    intro y hy0 hy1
    by_cases hx : 1 ≤ s.cur.x
    · apply row_full_false_of_zero b1 y 0 (le_refl _) (by decide)
      apply hcells0 y 0 hy0 hy1 (le_refl _) (by decide)
      rintro ⟨r, c, _, _, a3, _, _, _, e⟩
      omega
    · apply row_full_false_of_zero b1 y 9 (by decide) (by decide)
      apply hcells0 y 9 hy0 hy1 (by decide) (by decide)
      rintro ⟨r, c, _, _, _, a4, _, _, e⟩
      omega
  refine ⟨ystar, b1, h1, ⟨r0, c0, b1', b2', b3', b4', hc0, hbot⟩, ?_,
    mask_four_cells _ _ hv, hwf1, ?_, ?_⟩
  · intro r c a1 a2 a3 a4 hc
    have := hin r c a1 a2 a3 a4 hc
    refine ⟨by omega, by omega, this.1, this.2.1⟩
  · intro gy gx g1 g2 g3 g4
    exact ⟨(hcells gy gx g1 g2 g3 g4).1, hcells0 gy gx g1 g2 g3 g4⟩
  · intro fuel hfuel
    have hHn : BOARD_H.toNat = 20 := rfl
    have hiter : (ystar - s.cur.y).toNat ≤ fuel := by
      rcases h2 with h2 | h2 <;> omega
    have hd := h5 fuel hiter
    rw [hard_drop_of_descend fuel t junk s _ hd h3,
      soft_drop_land_of fuel t junk { s with cur := { s.cur with y := ystar } } b1 b1 0 hlock
        (clear_lines_unchanged b1 hwf1 hnf fuel (by omega))]
    rw [soft_drop_score_zero]
    obtain ⟨s', e, q1, q2, q3, q4, q5, q6, q7, _, q9, _⟩ := new_piece_spec t
      { ({ s with cur := { s.cur with y := ystar } } : State) with board := b1 } ht0 ht1
    have hspawn : can_place b1 { x := 3, y := -2, type := t, rot := 0 } = some true := by
      apply (can_place_char b1 { x := 3, y := -2, type := t, rot := 0 }
        ⟨ht0, ht1, le_refl _, by show (0 : Int) < 4; decide⟩).2.1.2
      intro r c a1 a2 a3 a4 _
      simp only
      refine ⟨by omega, by omega, by omega, ?_⟩
      by_cases hr : -2 + r < 0
      · exact Or.inl hr
      · right
        apply hcells0 (-2 + r) (3 + c) (by omega) (by omega) (by omega) (by omega)
        rintro ⟨r', c', a1', a2', _, _, _, e1, _⟩
        omega
    exact ⟨s', e, q2, q1, q3, q4, q5, q6, q9 hspawn, q7⟩

/-- C11: on the all-empty board, for every active piece with type in 0..6 and rot in 0..3
whose position `can_place` accepts, `hard_drop` returns a state whose board holds
`type+1` in the grid cells under the piece's occupied mask cells at `(x, ystar)` and 0
everywhere else, where the lowest occupied mask row sits on grid row `BOARD_H - 1`, all
occupied cells (there are four) fall inside the grid and x is the original x; score,
lines_cleared, level and tick_ms are unchanged, the active piece is the freshly spawned
one at `x = 3, y = -2, rot 0`, and game_over keeps its value. -/
theorem C11_hard_drop_on_empty_board (t junk : Int) (s : State) (hb : s.board = initial.board)
    (hv : s.cur.valid) (hleg : can_place s.board s.cur = some true)
    (ht0 : 0 ≤ t) (ht1 : t < 7) :
    ∃ (ystar : Int) (b1 : Board),
      s.cur.y ≤ ystar ∧
      (∃ r c : Int, 0 ≤ r ∧ r < 4 ∧ 0 ≤ c ∧ c < 4 ∧ cell s.cur.type s.cur.rot r c = some true ∧
        ystar + r = BOARD_H - 1) ∧
      (∀ r c : Int, 0 ≤ r → r < 4 → 0 ≤ c → c < 4 → cell s.cur.type s.cur.rot r c = some true →
        0 ≤ ystar + r ∧ ystar + r ≤ BOARD_H - 1 ∧ 0 ≤ s.cur.x + c ∧ s.cur.x + c < BOARD_W) ∧
      (cell_positions.filter
        (fun rc => cell s.cur.type s.cur.rot rc.1 rc.2 == some true)).length = 4 ∧
      b1.WF ∧
      (∀ gy gx : Int, 0 ≤ gy → gy < BOARD_H → 0 ≤ gx → gx < BOARD_W →
        ((∃ r c : Int, 0 ≤ r ∧ r < 4 ∧ 0 ≤ c ∧ c < 4 ∧
            cell s.cur.type s.cur.rot r c = some true ∧
            gy = ystar + r ∧ gx = s.cur.x + c) → board_at b1 gy gx = s.cur.type + 1) ∧
        ((¬ ∃ r c : Int, 0 ≤ r ∧ r < 4 ∧ 0 ≤ c ∧ c < 4 ∧
            cell s.cur.type s.cur.rot r c = some true ∧
            gy = ystar + r ∧ gx = s.cur.x + c) → board_at b1 gy gx = 0)) ∧
      ∀ fuel : Nat, 2 * BOARD_H.toNat + (BOARD_H - s.cur.y).toNat ≤ fuel →
        ∃ s' : State, hard_drop fuel t junk s = some s' ∧ s'.board = b1 ∧
          s'.cur = { x := 3, y := -2, type := t, rot := 0 } ∧
          s'.score = s.score ∧ s'.lines_cleared = s.lines_cleared ∧ s'.level = s.level ∧
          s'.tick_ms = s.tick_ms ∧ s'.game_over = s.game_over ∧ s'.paused = s.paused :=
  hard_drop_empty_spec t junk s hb hv hleg ht0 ht1

theorem C11_witness :
    ∃ s' : State, hard_drop 62 1 0 { initial with cur := ⟨3, -2, 1, 0⟩ } = some s' ∧
      s'.cur = { x := 3, y := -2, type := 1, rot := 0 } ∧ s'.score = 0 ∧
      s'.game_over = false := by
  obtain ⟨ystar, b1, _, _, _, _, _, _, h⟩ := C11_hard_drop_on_empty_board 1 0
    { initial with cur := ⟨3, -2, 1, 0⟩ } rfl (by decide) (by decide) (by decide) (by decide)
  obtain ⟨s', e, _, hc, hs, _, _, _, hg, _⟩ := h 62 (by decide)
  exact ⟨s', e, hc, hs, hg⟩


/-! ### Game over -/

theorem new_piece_game_over (t : Int) (s s' : State) (h : new_piece t s = some s')
    (hgo : s.game_over = true) : s'.game_over = true := by
  unfold new_piece at h
  dsimp only at h
  split at h
  · cases h
  · cases h; rfl
  · cases h; exact hgo

theorem soft_drop_land_game_over (fuel : Nat) (t junk : Int) (s s' : State)
    (h : soft_drop_land fuel t junk s = some s') (hgo : s.game_over = true) :
    s'.game_over = true := by
  unfold soft_drop_land at h
  split at h
  · cases h
  · split at h
    · cases h
    · rename_i b2 c _
      exact new_piece_game_over t _ s' h
        (by rw [(soft_drop_score_frame junk c { s with board := b2 }).2.2.1]; exact hgo)

theorem soft_drop_game_over (fuel : Nat) (t junk : Int) (s s' : State)
    (h : soft_drop fuel t junk s = some s') (hgo : s.game_over = true) :
    s'.game_over = true := by
  unfold soft_drop at h
  dsimp only at h
  split at h
  · cases h
  · cases h; exact hgo
  · exact soft_drop_land_game_over fuel t junk s s' h hgo

theorem hard_drop_game_over (fuel : Nat) (t junk : Int) (s s' : State)
    (h : hard_drop fuel t junk s = some s') (hgo : s.game_over = true) :
    s'.game_over = true := by
  unfold hard_drop at h
  split at h
  · cases h
  · exact soft_drop_game_over fuel t junk _ s' h hgo

theorem key_dispatch_over (fuel : Nat) (t junk : Int) (k : Key) (s : State)
    (hgo : s.game_over = true) : key_dispatch fuel t junk k s = some s := by
  unfold key_dispatch
  simp [hgo]

theorem gravity_phase_over (cfuel fuel : Nat) (ts js : Nat → Int) (dt fall_accum : Int)
    (s : State) (h : s.game_over = true ∨ s.paused = true) :
    gravity_phase cfuel fuel ts js dt fall_accum s = some (s, fall_accum) := by
  unfold gravity_phase
  rcases h with h | h <;> simp [h]

theorem gravity_loop_game_over (cfuel : Nat) (ts js : Nat → Int) (fuel : Nat) :
    ∀ (i : Nat) (fall_accum : Int) (s : State) (r : State × Int),
      gravity_loop cfuel ts js fuel i fall_accum s = some r → s.game_over = true →
      r.1.game_over = true := by
  induction fuel with
  | zero =>
    intro i fa s r h hgo
    unfold gravity_loop at h
    split at h
    · cases h
    · cases h; exact hgo
  | succ fuel ih =>
    intro i fa s r h hgo
    unfold gravity_loop at h
    split at h
    · split at h
      · cases h
      · rename_i s1 hs1
        have h1 := soft_drop_game_over cfuel (ts i) (js i) s s1 hs1 hgo
        by_cases hg1 : s1.game_over = true
        · rw [if_pos hg1] at h; cases h; exact h1
        · rw [if_neg hg1] at h; exact ih _ _ s1 r h h1
    · cases h; exact hgo

/-- C12: game-over is one-way and freezes play.  In a state with game_over true,
`new_piece`, `soft_drop`, `hard_drop` and the gravity loop return only states with
game_over true; the gravity phase returns the state and the accumulator untouched, and the
dispatch of every key, the pause key included, returns the state untouched, so the board,
the active piece, score, lines_cleared, level, tick_ms and paused are unchanged. -/
theorem C12_game_over_is_final (cfuel fuel : Nat) (t junk : Int) (ts js : Nat → Int)
    (dt fall_accum : Int) (s : State) (hgo : s.game_over = true) :
    (∀ s' : State, new_piece t s = some s' → s'.game_over = true) ∧
    (∀ s' : State, soft_drop fuel t junk s = some s' → s'.game_over = true) ∧
    (∀ s' : State, hard_drop fuel t junk s = some s' → s'.game_over = true) ∧
    (∀ (i : Nat) (r : State × Int),
      gravity_loop cfuel ts js fuel i fall_accum s = some r → r.1.game_over = true) ∧
    gravity_phase cfuel fuel ts js dt fall_accum s = some (s, fall_accum) ∧
    (∀ k : Key, key_dispatch fuel t junk k s = some s) :=
  ⟨fun s' h => new_piece_game_over t s s' h hgo,
   fun s' h => soft_drop_game_over fuel t junk s s' h hgo,
   fun s' h => hard_drop_game_over fuel t junk s s' h hgo,
   fun i r h => gravity_loop_game_over cfuel ts js fuel i fall_accum s r h hgo,
   gravity_phase_over cfuel fuel ts js dt fall_accum s (Or.inl hgo),
   fun k => key_dispatch_over fuel t junk k s hgo⟩

theorem C12_witness :
    key_dispatch 40 0 0 Key.pause { initial with game_over := true } =
        some { initial with game_over := true } ∧
    gravity_phase 40 40 (fun _ => 0) (fun _ => 0) 1000 0 { initial with game_over := true } =
        some ({ initial with game_over := true }, 0) :=
  ⟨(C12_game_over_is_final 40 40 0 0 (fun _ => 0) (fun _ => 0) 1000 0
      { initial with game_over := true } rfl).2.2.2.2.2 Key.pause,
   (C12_game_over_is_final 40 40 0 0 (fun _ => 0) (fun _ => 0) 1000 0
      { initial with game_over := true } rfl).2.2.2.2.1⟩

/-! ### The mask lookup -/

theorem shift_and_one (m n : Nat) : ((m >>> n) &&& 1 != 0) = m.testBit n := by
  unfold Nat.testBit
  rw [Nat.land_comm]

/-- The remainder of C of a negative number by 4 is minus the remainder of its absolute
value. -/
theorem tmod_of_neg (rot : Int) (h : rot < 0) : Int.tmod rot 4 = -((-rot) % 4) := by
  obtain ⟨a, rfl⟩ : ∃ a : Int, rot = -a := ⟨-rot, by ring⟩
  rw [Int.tmod_def, Int.neg_tdiv, Int.tdiv_eq_ediv (by omega) (by decide)]
  omega

theorem tmod_neg_of_neg (rot : Int) (h : rot < 0) (h4 : rot % 4 ≠ 0) : Int.tmod rot 4 < 0 := by
  rw [tmod_of_neg rot h]
  omega

/-- The value of `rot % 4` in C is the mathematical `rot mod 4` for every `rot ≥ 0` and
for every multiple of 4. -/
theorem tmod_eq_emod_of (rot : Int) (h : 0 ≤ rot ∨ rot % 4 = 0) : Int.tmod rot 4 = rot % 4 := by
  by_cases h0 : 0 ≤ rot
  · exact Int.tmod_eq_emod h0 (by decide)
  · rw [tmod_of_neg rot (by omega)]
    omega

theorem cell_of_rot (type rot r c : Int) (ht0 : 0 ≤ type) (ht1 : type < 7)
    (hrot : 0 ≤ rot ∨ rot % 4 = 0) :
    cell type rot r c = some (Nat.testBit
      ((TETRO.getD type.toNat []).getD (rot % 4).toNat 0) (15 - (4 * r + c)).toNat) := by
  have hm : TETRO_at type (Int.tmod rot 4) =
      some ((TETRO.getD type.toNat []).getD (rot % 4).toNat 0) := by
    rw [tmod_eq_emod_of rot hrot]
    have h0 : 0 ≤ rot % 4 := Int.emod_nonneg _ (by decide)
    have h1 : rot % 4 < 4 := Int.emod_lt_of_pos _ (by decide)
    generalize rot % 4 = k at h0 h1
    interval_cases type <;> interval_cases k <;> rfl
  unfold cell
  rw [hm]
  simp only [shift_and_one]
  rw [mul_comm r 4]

theorem cell_of_neg_rot (type rot r c : Int) (hrot : rot < 0) (h4 : rot % 4 ≠ 0) :
    cell type rot r c = none := by
  have h := tmod_neg_of_neg rot hrot h4
  unfold cell TETRO_at
  rw [if_neg (by omega)]

/-- C13 (as stated, refuted): for `rot = -1` C's remainder `rot % 4` is `-1`, so the read
`TETRO[0][-1]` is outside the table and `cell(0, -1, 0, 0)` is not defined. -/
theorem C13_counterexample :
    Int.tmod (-1) 4 = -1 ∧ TETRO_at 0 (Int.tmod (-1) 4) = none ∧ cell 0 (-1) 0 0 = none := by
  decide

/-- C13 (amended): for every shape id in 0..6, every rotation index `rot` that is not
negative (values of 4 and more included) or is a multiple of 4, and every `r`, `c` in
0..3, `cell(type, rot, r, c)` is defined and equals bit `15 - (4*r + c)` of the mask
`TETRO[type][rot mod 4]`; for a negative `rot` that is not a multiple of 4 the remainder
`rot % 4` is negative and the table read is out of bounds. -/
theorem C13_cell_within_bounds (type rot r c : Int) (ht0 : 0 ≤ type) (ht1 : type < 7)
    (_hr0 : 0 ≤ r) (_hr1 : r < 4) (_hc0 : 0 ≤ c) (_hc1 : c < 4) :
    (0 ≤ rot ∨ rot % 4 = 0 → cell type rot r c = some (Nat.testBit
      ((TETRO.getD type.toNat []).getD (rot % 4).toNat 0) (15 - (4 * r + c)).toNat)) ∧
    (rot < 0 → rot % 4 ≠ 0 → cell type rot r c = none) :=
  ⟨fun h => cell_of_rot type rot r c ht0 ht1 h,
   fun h h4 => cell_of_neg_rot type rot r c h h4⟩

theorem C13_witness :
    cell 0 (-4) 1 0 = some (Nat.testBit
      ((TETRO.getD (0 : Int).toNat []).getD ((-4 : Int) % 4).toNat 0)
      (15 - (4 * 1 + 0) : Int).toNat) ∧
    cell 0 5 0 2 = some (Nat.testBit
      ((TETRO.getD (0 : Int).toNat []).getD ((5 : Int) % 4).toNat 0)
      (15 - (4 * 0 + 2) : Int).toNat) :=
  ⟨(C13_cell_within_bounds 0 (-4) 1 0 (by decide) (by decide) (by decide) (by decide)
    (by decide) (by decide)).1 (Or.inr (by decide)),
   (C13_cell_within_bounds 0 5 0 2 (by decide) (by decide) (by decide) (by decide)
    (by decide) (by decide)).1 (Or.inl (by decide))⟩

/-! ### Fuel monotonicity and the stacking scenario -/

theorem clear_loop_mono (fuel : Nat) : ∀ (b : Board) (y cleared : Int) (r : Board × Int),
    clear_loop fuel b y cleared = some r → clear_loop (fuel + 1) b y cleared = some r := by
  induction fuel with
  | zero =>
    intro b y cleared r h
    unfold clear_loop at h ⊢
    split at h
    · cases h
    · rename_i hy; rw [if_neg hy]; exact h
  | succ fuel ih =>
    intro b y cleared r h
    rw [clear_loop] at h ⊢
    split at h
    · rename_i hy
      rw [if_pos hy]
      split at h
      · rename_i hf; rw [if_pos hf]; exact ih _ _ _ r h
      · rename_i hf; rw [if_neg hf]; exact ih _ _ _ r h
    · rename_i hy; rw [if_neg hy]; exact h

theorem clear_lines_mono (fuel fuel' : Nat) (b : Board) (r : Board × Int) (hle : fuel ≤ fuel')
    (h : clear_lines fuel b = some r) : clear_lines fuel' b = some r := by
  induction hle with
  | refl => exact h
  | step _ ih => exact clear_loop_mono _ b _ _ r ih

theorem descend_mono (fuel : Nat) : ∀ (b : Board) (cur p : Piece),
    descend fuel b cur = some p → descend (fuel + 1) b cur = some p := by
  induction fuel with
  | zero =>
    intro b cur p
    unfold descend
    cases can_place b { x := cur.x, y := cur.y + 1, type := cur.type, rot := cur.rot } with
    | none => intro h; cases h
    | some v =>
      cases v with
      | true => intro h; cases h
      | false => intro h; exact h
  | succ fuel ih =>
    intro b cur p
    rw [descend, descend]
    cases can_place b { x := cur.x, y := cur.y + 1, type := cur.type, rot := cur.rot } with
    | none => intro h; cases h
    | some v =>
      cases v with
      | true => intro h; exact ih _ _ p h
      | false => intro h; exact h

theorem descend_mono_le (fuel fuel' : Nat) (b : Board) (cur p : Piece) (hle : fuel ≤ fuel')
    (h : descend fuel b cur = some p) : descend fuel' b cur = some p := by
  induction hle with
  | refl => exact h
  | step _ ih => exact descend_mono _ b cur p ih

theorem soft_drop_mono (fuel fuel' : Nat) (t junk : Int) (s s' : State) (hle : fuel ≤ fuel')
    (h : soft_drop fuel t junk s = some s') : soft_drop fuel' t junk s = some s' := by
  rcases soft_drop_cases fuel t junk s s' h with ⟨hc, rfl⟩ | ⟨hc, b1, b2, c, h1, h2, h3⟩
  · unfold soft_drop
    simp only [hc]
  · rw [soft_drop_of_landing fuel' t junk s hc,
      soft_drop_land_of fuel' t junk s b1 b2 c h1 (clear_lines_mono fuel fuel' b1 _ hle h2)]
    exact h3

theorem hard_drop_mono (fuel fuel' : Nat) (t junk : Int) (s s' : State) (hle : fuel ≤ fuel')
    (h : hard_drop fuel t junk s = some s') : hard_drop fuel' t junk s = some s' := by
  unfold hard_drop at h ⊢
  split at h
  · cases h
  · rename_i p hp
    simp only [descend_mono_le fuel fuel' s.board s.cur p hle hp]
    exact soft_drop_mono fuel fuel' t junk _ s' hle h

/-- For a count inside the reward table the scoring block does not depend on `junk`. -/
theorem soft_drop_score_junk (junk c : Int) (s : State) (h0 : 0 ≤ c) (h4 : c ≤ 4) :
    soft_drop_score junk c s = soft_drop_score 0 c s := by
  have hp : ∃ pts, table_at c = some pts := by
    interval_cases c <;> exact ⟨_, rfl⟩
  obtain ⟨pts, hp⟩ := hp
  unfold soft_drop_score
  simp only [hp]

/-- From a state that satisfies the board invariant `soft_drop` never reads outside the
reward table: its result does not depend on `junk`. -/
theorem soft_drop_junk (fuel : Nat) (t junk : Int) (s : State) (hi : Inv s) :
    soft_drop fuel t junk s = soft_drop fuel t 0 s := by
  obtain ⟨hwf, hnf, hv⟩ := hi
  unfold soft_drop
  dsimp only
  split
  · rfl
  · rfl
  · obtain ⟨b1, hlock, hwf1, _⟩ := lock_piece_spec s.board s.cur hwf hv
    have hk := lock_full_rows_le s.board b1 s.cur hwf hv hnf hlock
    unfold soft_drop_land
    simp only [hlock]
    by_cases hf : fuel < BOARD_H.toNat + b1.countP full_row
    · simp only [clear_lines_none b1 hwf1.1 fuel hf]
    · simp only [clear_lines_exact b1 hwf1.1 fuel (by omega)]
      rw [soft_drop_score_junk junk _ _ (by omega) (by omega)]

theorem hard_drop_junk (fuel : Nat) (t junk : Int) (s : State) (hi : Inv s) :
    hard_drop fuel t junk s = hard_drop fuel t 0 s := by
  unfold hard_drop
  cases hd : descend fuel s.board s.cur with
  | none => rfl
  | some p =>
    obtain ⟨hwf, hnf, hv⟩ := hi
    exact soft_drop_junk fuel t junk { s with cur := p }
      ⟨hwf, hnf, (descend_some fuel s.board s.cur p hv hd).1⟩

/-- The board invariant from checks that can be evaluated. -/
theorem inv_of_rows (s : State) (hwf : s.board.WF)
    (hrows : ∀ y ∈ List.range 20, row_full s.board (y : Int) = false) (hv : s.cur.valid) :
    Inv s := by
  refine ⟨hwf, ?_, hv⟩
  intro y h0 h1
  have hH : BOARD_H = 20 := rfl
  have := hrows y.toNat (by rw [List.mem_range]; omega)
  rwa [Int.toNat_of_nonneg h0] at this

set_option maxRecDepth 100000 in
theorem o_stack_inv (k : Nat) (hk : k ≤ 4) : Inv (o_stack k) := by
  interval_cases k <;> exact inv_of_rows _ (by decide) (by decide) (by decide)

set_option maxRecDepth 100000 in
theorem o_stack_step (junk : Int) (k : Nat) (hk : k ≤ 4) :
    hard_drop 62 1 junk (o_stack k) = some (o_stack (k + 1)) := by
  rw [hard_drop_junk 62 1 junk _ (o_stack_inv k hk)]
  interval_cases k <;> decide

set_option maxRecDepth 100000 in
theorem o_stack_five_cells (y x : Int) (hy0 : 0 ≤ y) (hy1 : y < BOARD_H) (hx0 : 0 ≤ x)
    (hx1 : x < BOARD_W) :
    board_at (o_stack 5).board y x = if 10 ≤ y ∧ (x = 4 ∨ x = 5) then 2 else 0 := by
  have hH : BOARD_H = 20 := rfl
  have hW : BOARD_W = 10 := rfl
  rw [hH] at hy1
  rw [hW] at hx1
  interval_cases y <;> interval_cases x <;> rfl

/-- C17: scenario.  Starting from the empty grid with an O piece at the spawn position
`(3, -2)`, five consecutive `hard_drop` calls, each respawn producing an O piece again,
go through the states with 1, 2, 3, 4 and 5 stacked O pieces; in each of them
lines_cleared and score are 0 and game_over is false, and the final board holds 2 in
columns 4 and 5 of rows 10..19 and 0 everywhere else. -/
theorem C17_five_O_pieces_stack (fuel : Nat) (junk : Int) (hfuel : 62 ≤ fuel) :
    o_stack 0 = { initial with cur := ⟨3, -2, 1, 0⟩ } ∧
    (∀ k : Nat, k ≤ 4 → hard_drop fuel 1 junk (o_stack k) = some (o_stack (k + 1))) ∧
    (((((hard_drop fuel 1 junk (o_stack 0)).bind (hard_drop fuel 1 junk)).bind
      (hard_drop fuel 1 junk)).bind (hard_drop fuel 1 junk)).bind (hard_drop fuel 1 junk)) =
        some (o_stack 5) ∧
    (∀ k : Nat, (o_stack k).lines_cleared = 0 ∧ (o_stack k).score = 0 ∧
      (o_stack k).game_over = false ∧ (o_stack k).cur = ⟨3, -2, 1, 0⟩) ∧
    (∀ y x : Int, 0 ≤ y → y < BOARD_H → 0 ≤ x → x < BOARD_W →
      board_at (o_stack 5).board y x = if 10 ≤ y ∧ (x = 4 ∨ x = 5) then 2 else 0) := by
  have hs : ∀ k : Nat, k ≤ 4 → hard_drop fuel 1 junk (o_stack k) = some (o_stack (k + 1)) :=
    fun k hk => hard_drop_mono 62 fuel 1 junk _ _ hfuel (o_stack_step junk k hk)
  have h0 : hard_drop fuel 1 junk (o_stack 0) = some (o_stack 1) := hs 0 (by decide)
  have h1 : hard_drop fuel 1 junk (o_stack 1) = some (o_stack 2) := hs 1 (by decide)
  have h2 : hard_drop fuel 1 junk (o_stack 2) = some (o_stack 3) := hs 2 (by decide)
  have h3 : hard_drop fuel 1 junk (o_stack 3) = some (o_stack 4) := hs 3 (by decide)
  have h4 : hard_drop fuel 1 junk (o_stack 4) = some (o_stack 5) := hs 4 (by decide)
  refine ⟨by decide, hs, ?_, fun k => ⟨rfl, rfl, rfl, rfl⟩, o_stack_five_cells⟩
  rw [h0, Option.some_bind, h1, Option.some_bind, h2, Option.some_bind, h3, Option.some_bind, h4]

theorem C17_witness :
    (((((hard_drop 62 1 0 (o_stack 0)).bind (hard_drop 62 1 0)).bind
      (hard_drop 62 1 0)).bind (hard_drop 62 1 0)).bind (hard_drop 62 1 0)) =
        some (o_stack 5) :=
  (C17_five_O_pieces_stack 62 0 (le_refl _)).2.2.1

/-! ### Ghost projection -/

/-- The ghost loop of `draw_board` and the descent loop of `hard_drop` compute the same piece. -/
theorem ghost_loop_eq_descend (fuel : Nat) : ∀ (b : Board) (g : Piece),
    ghost_loop fuel b g = descend fuel b g := by
  induction fuel with
  | zero => intro b g; rfl
  | succ fuel ih =>
    intro b g
    unfold ghost_loop descend
    cases can_place b { x := g.x, y := g.y + 1, type := g.type, rot := g.rot } with
    | none => rfl
    | some v =>
      cases v with
      | false => rfl
      | true => exact ih b _

theorem ghost_spec (t junk : Int) (s : State) (hwf : s.board.WF) (hv : s.cur.valid) :
    ∃ (ystar : Int) (b1 : Board),
      s.cur.y ≤ ystar ∧
      can_place s.board { s.cur with y := ystar + 1 } = some false ∧
      (∀ y : Int, s.cur.y < y → y ≤ ystar →
        can_place s.board { s.cur with y := y } = some true) ∧
      lock_piece s.board { s.cur with y := ystar } = some b1 ∧
      (∀ fuel : Nat, (BOARD_H - s.cur.y).toNat ≤ fuel →
        ghost fuel s = some (s, { s.cur with y := ystar }) ∧
        descend fuel s.board s.cur = some { s.cur with y := ystar } ∧
        hard_drop fuel t junk s =
          soft_drop_land fuel t junk { s with cur := { s.cur with y := ystar } }) ∧
      (∀ (fuel : Nat) (s' : State) (g : Piece), ghost fuel s = some (s', g) →
        s' = s ∧ g = { s.cur with y := ystar }) := by
  obtain ⟨ystar, h1, h2, h3, h4, h5, h6⟩ :=
    descend_spec s.board (BOARD_H - s.cur.y).toNat s.cur hv (le_refl _)
  obtain ⟨b1, hlock, _, _⟩ := lock_piece_spec s.board { s.cur with y := ystar } hwf hv
  refine ⟨ystar, b1, h1, h3, h4, hlock, ?_, ?_⟩
  · intro fuel hfuel
    have hiter : (ystar - s.cur.y).toNat ≤ fuel := by
      rcases h2 with h2 | h2 <;> omega
    have hd := h5 fuel hiter
    refine ⟨?_, hd, hard_drop_of_descend fuel t junk s _ hd h3⟩
    unfold ghost
    rw [ghost_loop_eq_descend, hd]
  · intro fuel s' g hg
    unfold ghost at hg
    rw [ghost_loop_eq_descend] at hg
    by_cases hf : (ystar - s.cur.y).toNat ≤ fuel
    · rw [h5 fuel hf] at hg
      cases hg
      exact ⟨rfl, rfl⟩
    · rw [h6 fuel (by omega)] at hg
      cases hg

/-- C16: for every board and every active piece with type in 0..6 and rot in 0..3, the
ghost projection of `draw_board` returns the globals unchanged (the active piece
included) together with the piece `g = (x, ystar)`, and `ystar` is the row at which the
descent of `hard_drop` stops: `hard_drop` in the same state is the landing branch of
`soft_drop` run with `g` as active piece, which starts by locking `g`. -/
theorem C16_ghost_is_hard_drop_position (t junk : Int) (s : State) (hwf : s.board.WF)
    (hv : s.cur.valid) :
    ∃ (ystar : Int) (b1 : Board),
      s.cur.y ≤ ystar ∧
      can_place s.board { s.cur with y := ystar + 1 } = some false ∧
      (∀ y : Int, s.cur.y < y → y ≤ ystar →
        can_place s.board { s.cur with y := y } = some true) ∧
      lock_piece s.board { s.cur with y := ystar } = some b1 ∧
      (∀ fuel : Nat, (BOARD_H - s.cur.y).toNat ≤ fuel →
        ghost fuel s = some (s, { s.cur with y := ystar }) ∧
        descend fuel s.board s.cur = some { s.cur with y := ystar } ∧
        hard_drop fuel t junk s =
          soft_drop_land fuel t junk { s with cur := { s.cur with y := ystar } }) ∧
      (∀ (fuel : Nat) (s' : State) (g : Piece), ghost fuel s = some (s', g) →
        s' = s ∧ g = { s.cur with y := ystar }) :=
  ghost_spec t junk s hwf hv

theorem C16_witness :
    ∃ ystar : Int, ghost 22 { initial with cur := ⟨3, -2, 1, 0⟩ } =
        some ({ initial with cur := ⟨3, -2, 1, 0⟩ }, ⟨3, ystar, 1, 0⟩) ∧
      hard_drop 22 1 0 { initial with cur := ⟨3, -2, 1, 0⟩ } =
        soft_drop_land 22 1 0 { initial with cur := ⟨3, ystar, 1, 0⟩ } := by
  obtain ⟨ystar, b1, _, _, _, _, h, _⟩ := C16_ghost_is_hard_drop_position 1 0
    { initial with cur := ⟨3, -2, 1, 0⟩ } (by decide) (by decide)
  obtain ⟨h1, _, h3⟩ := h 22 (by decide)
  exact ⟨ystar, h1, h3⟩


/-! ### A round of play that clears two rows -/

theorem while_holds (Q : Int → Prop) (s : State) (h : ReachableWhile Q s) :
    Q s.lines_cleared := by
  induction h with
  | init t s _ _ _ hq => exact hq
  | tick fuel t junk s s' _ _ _ _ _ _ hq _ => exact hq
  | key fuel t junk k s s' _ _ _ _ hq _ => exact hq
  | too_small s _ ih => exact ih

theorem while_reachable (Q : Int → Prop) (s : State) (h : ReachableWhile Q s) :
    Reachable s := by
  induction h with
  | init t s ht0 ht1 hnp _ => exact Reachable.init t s ht0 ht1 hnp
  | tick fuel t junk s s' _ ht0 ht1 hp hg hsd _ ih =>
    exact Reachable.tick fuel t junk s s' ih ht0 ht1 hp hg hsd
  | key fuel t junk k s s' _ ht0 ht1 hk _ ih =>
    exact Reachable.key fuel t junk k s s' ih ht0 ht1 hk
  | too_small s _ ih => exact Reachable.too_small s ih

theorem reachable_while (s : State) (h : Reachable s) : ReachableWhile (fun _ => True) s := by
  induction h with
  | init t s ht0 ht1 hnp => exact ReachableWhile.init t s ht0 ht1 hnp trivial
  | tick fuel t junk s s' _ ht0 ht1 hp hg hsd ih =>
    exact ReachableWhile.tick fuel t junk s s' ih ht0 ht1 hp hg hsd trivial
  | key fuel t junk k s s' _ ht0 ht1 hk ih =>
    exact ReachableWhile.key fuel t junk k s s' ih ht0 ht1 hk trivial
  | too_small s _ ih => exact ReachableWhile.too_small s ih

theorem while_mono (Q Q' : Int → Prop) (hq : ∀ n : Int, Q n → Q' n) (s : State)
    (h : ReachableWhile Q s) : ReachableWhile Q' s := by
  induction h with
  | init t s ht0 ht1 hnp hQ => exact ReachableWhile.init t s ht0 ht1 hnp (hq _ hQ)
  | tick fuel t junk s s' _ ht0 ht1 hp hg hsd hQ ih =>
    exact ReachableWhile.tick fuel t junk s s' ih ht0 ht1 hp hg hsd (hq _ hQ)
  | key fuel t junk k s s' _ ht0 ht1 hk hQ ih =>
    exact ReachableWhile.key fuel t junk k s s' ih ht0 ht1 hk (hq _ hQ)
  | too_small s _ ih => exact ReachableWhile.too_small s ih

theorem below_reachable (B : Int) (s : State) (h : ReachableBelow B s) : Reachable s :=
  while_reachable _ s h

theorem below_mono (B B' : Int) (hB : B ≤ B') (s : State) (h : ReachableBelow B s) :
    ReachableBelow B' s :=
  while_mono _ _ (fun _ hn => ⟨hn.1, le_trans hn.2 hB⟩) s h

theorem stage_self (s : State) (b : Board) (p : Piece) (hb : s.board = b) (hc : s.cur = p) :
    stage s b p = s := by
  cases s
  simp only at hb hc
  subst hb hc
  rfl

theorem soft_drop_score_stage (junk c : Int) (s : State) (b : Board) (p : Piece) :
    soft_drop_score junk c (stage s b p) = stage (soft_drop_score junk c s) b p := by
  unfold soft_drop_score stage
  by_cases hc : c ≠ 0
  · rw [if_pos hc, if_pos hc]
    dsimp only
    split <;> rfl
  · rw [if_neg hc, if_neg hc]

/-- A left or right key moves the active piece of a running game to a position that
`can_place` accepts. -/
theorem stage_move (Q : Int → Prop) (s : State) (b : Board) (p p' : Piece) (k : Key)
    (hp : s.paused = false) (hg : s.game_over = false)
    (hk : (k = Key.left ∧ p' = { p with x := p.x - 1 }) ∨
      (k = Key.right ∧ p' = { p with x := p.x + 1 }))
    (hc : can_place b p' = some true) (h : ReachableWhile Q (stage s b p)) :
    ReachableWhile Q (stage s b p') := by
  refine ReachableWhile.key 0 0 0 k _ _ h (le_refl _) (by decide) ?_ (while_holds Q (stage s b p) h)
  rcases hk with ⟨rfl, rfl⟩ | ⟨rfl, rfl⟩
  · simp only [key_dispatch, stage, hp, hg, try_move] at hc ⊢
    simp [hc]
  · simp only [key_dispatch, stage, hp, hg, try_move] at hc ⊢
    simp [hc]

/-- A gravity tick moves the active piece of a running game one row down when `can_place`
accepts that position. -/
theorem stage_fall (Q : Int → Prop) (s : State) (b : Board) (p : Piece)
    (hp : s.paused = false) (hg : s.game_over = false)
    (hc : can_place b { x := p.x, y := p.y + 1, type := p.type, rot := p.rot } = some true)
    (h : ReachableWhile Q (stage s b p)) :
    ReachableWhile Q (stage s b { p with y := p.y + 1 }) := by
  refine ReachableWhile.tick 0 0 0 _ _ h (le_refl _) (by decide) hp hg ?_ (while_holds Q (stage s b p) h)
  unfold soft_drop
  simp only [stage, hc]

/-- Gravity ticks take the active piece of a running game to the position at which the
descent loop stops. -/
theorem stage_descend (Q : Int → Prop) (s : State) (b : Board)
    (hp : s.paused = false) (hg : s.game_over = false) (fuel : Nat) :
    ∀ p q : Piece, descend fuel b p = some q → ReachableWhile Q (stage s b p) →
      ReachableWhile Q (stage s b q) := by
  induction fuel with
  | zero =>
    intro p q hd h
    unfold descend at hd
    split at hd
    · cases hd
    · cases hd
    · cases hd; exact h
  | succ fuel ih =>
    intro p q hd h
    unfold descend at hd
    split at hd
    · cases hd
    · rename_i hc
      exact ih _ q hd (stage_fall Q s b p hp hg hc h)
    · cases hd; exact h

/-- The landing branch of `soft_drop` on a staged state, from the results of its parts. -/
theorem soft_drop_land_stage (fuel : Nat) (t junk : Int) (s : State) (b b1 b2 : Board)
    (p : Piece) (c : Int) (hl : lock_piece b p = some b1)
    (hc : clear_lines fuel b1 = some (b2, c))
    (hs : can_place b2 { x := 3, y := -2, type := t, rot := 0 } = some true) :
    soft_drop_land fuel t junk (stage s b p) =
      some (stage (soft_drop_score junk c s) b2 { x := 3, y := -2, type := t, rot := 0 }) := by
  have hx : Int.tdiv BOARD_W 2 - 2 = 3 := by decide
  have e : ({ stage s b p with board := b2 } : State) = stage s b2 p := rfl
  unfold soft_drop_land
  simp only [stage] at hl ⊢
  simp only [hl, hc]
  have e2 := soft_drop_score_stage junk c s b2 p
  simp only [stage] at e2
  rw [e2]
  unfold new_piece
  simp only [hx, hs]

theorem soft_drop_stage (fuel : Nat) (t junk : Int) (s : State) (b b1 b2 : Board)
    (p : Piece) (c : Int)
    (hland : can_place b { x := p.x, y := p.y + 1, type := p.type, rot := p.rot } = some false)
    (hl : lock_piece b p = some b1) (hc : clear_lines fuel b1 = some (b2, c))
    (hs : can_place b2 { x := 3, y := -2, type := t, rot := 0 } = some true) :
    soft_drop fuel t junk (stage s b p) =
      some (stage (soft_drop_score junk c s) b2 { x := 3, y := -2, type := t, rot := 0 }) := by
  rw [soft_drop_of_landing fuel t junk (stage s b p) hland]
  exact soft_drop_land_stage fuel t junk s b b1 b2 p c hl hc hs

theorem hard_drop_stage (fuel : Nat) (t junk : Int) (s : State) (b b1 b2 : Board)
    (p q : Piece) (c : Int) (hd : descend fuel b p = some q)
    (hland : can_place b { x := q.x, y := q.y + 1, type := q.type, rot := q.rot } = some false)
    (hl : lock_piece b q = some b1) (hc : clear_lines fuel b1 = some (b2, c))
    (hs : can_place b2 { x := 3, y := -2, type := t, rot := 0 } = some true) :
    hard_drop fuel t junk (stage s b p) =
      some (stage (soft_drop_score junk c s) b2 { x := 3, y := -2, type := t, rot := 0 }) := by
  have e : ({ stage s b p with cur := q } : State) = stage s b q := rfl
  unfold hard_drop
  have hd' : descend fuel (stage s b p).board (stage s b p).cur = some q := hd
  simp only [hd', e]
  exact soft_drop_stage fuel t junk s b b1 b2 q c hland hl hc hs

/-- The space bar in a running game: the piece is dropped and locked, and when no row is
full the counters are unchanged. -/
theorem stage_drop (Q : Int → Prop) (s : State) (b b1 : Board) (p q : Piece)
    (hp : s.paused = false) (hg : s.game_over = false)
    (hd : descend 62 b p = some q)
    (hland : can_place b { x := q.x, y := q.y + 1, type := q.type, rot := q.rot } = some false)
    (hl : lock_piece b q = some b1) (hc : clear_lines 62 b1 = some (b1, 0))
    (hs : can_place b1 { x := 3, y := -2, type := 1, rot := 0 } = some true)
    (h : ReachableWhile Q (stage s b p)) :
    ReachableWhile Q (stage s b1 { x := 3, y := -2, type := 1, rot := 0 }) := by
  have e := hard_drop_stage 62 1 0 s b b1 b1 p q 0 hd hland hl hc hs
  rw [soft_drop_score_zero] at e
  refine ReachableWhile.key 62 1 0 Key.space _ _ h (by decide) (by decide) ?_
    (while_holds Q (stage s b p) h)
  rw [← e]
  simp [key_dispatch, stage, hp, hg]

set_option maxRecDepth 100000 in
/-- One round up to its last landing: from the empty grid with an O piece at the spawn
position, key presses and gravity ticks lay four O pieces on the floor and take the fifth
to `(7, 17)`; the counters are those of `s` throughout. -/
theorem o_round_path (Q : Int → Prop) (s : State) (hp : s.paused = false)
    (hg : s.game_over = false)
    (h : ReachableWhile Q (stage s (o_fill 0) { x := 3, y := -2, type := 1, rot := 0 })) :
    ReachableWhile Q (stage s (o_fill 4) { x := 7, y := 17, type := 1, rot := 0 }) := by
  have a1 := stage_move Q s (o_fill 0) ⟨3, -2, 1, 0⟩ ⟨2, -2, 1, 0⟩ Key.left hp hg
    (Or.inl ⟨rfl, by decide⟩) (by decide) h
  have a2 := stage_move Q s (o_fill 0) ⟨2, -2, 1, 0⟩ ⟨1, -2, 1, 0⟩ Key.left hp hg
    (Or.inl ⟨rfl, by decide⟩) (by decide) a1
  have a3 := stage_move Q s (o_fill 0) ⟨1, -2, 1, 0⟩ ⟨0, -2, 1, 0⟩ Key.left hp hg
    (Or.inl ⟨rfl, by decide⟩) (by decide) a2
  have a4 := stage_move Q s (o_fill 0) ⟨0, -2, 1, 0⟩ ⟨-1, -2, 1, 0⟩ Key.left hp hg
    (Or.inl ⟨rfl, by decide⟩) (by decide) a3
  have a5 := stage_drop Q s (o_fill 0) (o_fill 1) ⟨-1, -2, 1, 0⟩ ⟨-1, 17, 1, 0⟩ hp hg
    (by decide) (by decide) (by decide) (by decide) (by decide) a4
  have b1 := stage_move Q s (o_fill 1) ⟨3, -2, 1, 0⟩ ⟨2, -2, 1, 0⟩ Key.left hp hg
    (Or.inl ⟨rfl, by decide⟩) (by decide) a5
  have b2 := stage_move Q s (o_fill 1) ⟨2, -2, 1, 0⟩ ⟨1, -2, 1, 0⟩ Key.left hp hg
    (Or.inl ⟨rfl, by decide⟩) (by decide) b1
  have b3 := stage_drop Q s (o_fill 1) (o_fill 2) ⟨1, -2, 1, 0⟩ ⟨1, 17, 1, 0⟩ hp hg
    (by decide) (by decide) (by decide) (by decide) (by decide) b2
  have c1 := stage_drop Q s (o_fill 2) (o_fill 3) ⟨3, -2, 1, 0⟩ ⟨3, 17, 1, 0⟩ hp hg
    (by decide) (by decide) (by decide) (by decide) (by decide) b3
  have d1 := stage_move Q s (o_fill 3) ⟨3, -2, 1, 0⟩ ⟨4, -2, 1, 0⟩ Key.right hp hg
    (Or.inr ⟨rfl, by decide⟩) (by decide) c1
  have d2 := stage_move Q s (o_fill 3) ⟨4, -2, 1, 0⟩ ⟨5, -2, 1, 0⟩ Key.right hp hg
    (Or.inr ⟨rfl, by decide⟩) (by decide) d1
  have d3 := stage_drop Q s (o_fill 3) (o_fill 4) ⟨5, -2, 1, 0⟩ ⟨5, 17, 1, 0⟩ hp hg
    (by decide) (by decide) (by decide) (by decide) (by decide) d2
  have e1 := stage_move Q s (o_fill 4) ⟨3, -2, 1, 0⟩ ⟨4, -2, 1, 0⟩ Key.right hp hg
    (Or.inr ⟨rfl, by decide⟩) (by decide) d3
  have e2 := stage_move Q s (o_fill 4) ⟨4, -2, 1, 0⟩ ⟨5, -2, 1, 0⟩ Key.right hp hg
    (Or.inr ⟨rfl, by decide⟩) (by decide) e1
  have e3 := stage_move Q s (o_fill 4) ⟨5, -2, 1, 0⟩ ⟨6, -2, 1, 0⟩ Key.right hp hg
    (Or.inr ⟨rfl, by decide⟩) (by decide) e2
  have e4 := stage_move Q s (o_fill 4) ⟨6, -2, 1, 0⟩ ⟨7, -2, 1, 0⟩ Key.right hp hg
    (Or.inr ⟨rfl, by decide⟩) (by decide) e3
  exact stage_descend Q s (o_fill 4) hp hg 62 ⟨7, -2, 1, 0⟩ ⟨7, 17, 1, 0⟩ (by decide) e4

set_option maxRecDepth 100000 in
/-- The last landing of a round: the fifth O piece cannot descend from `(7, 17)`, its lock
completes rows 18 and 19, `clear_lines` returns 2, and `soft_drop` returns the empty grid
with a new O piece and the counters after the scoring block. -/
theorem o_round_land (fuel : Nat) (junk : Int) (s : State) (hfuel : 40 ≤ fuel) :
    can_place (o_fill 4) { x := 7, y := 17 + 1, type := 1, rot := 0 } = some false ∧
    lock_piece (o_fill 4) { x := 7, y := 17, type := 1, rot := 0 } = some (o_fill 5) ∧
    clear_lines fuel (o_fill 5) = some (o_fill 0, 2) ∧
    soft_drop fuel 1 junk (stage s (o_fill 4) { x := 7, y := 17, type := 1, rot := 0 }) =
      some (stage (soft_drop_score 0 2 s) (o_fill 0) { x := 3, y := -2, type := 1, rot := 0 }) := by
  have hcl : clear_lines fuel (o_fill 5) = some (o_fill 0, 2) :=
    clear_lines_mono 40 fuel _ _ hfuel (by decide)
  refine ⟨by decide, by decide, hcl, ?_⟩
  rw [soft_drop_stage fuel 1 junk s (o_fill 4) (o_fill 5) (o_fill 0) ⟨7, 17, 1, 0⟩ 2
    (by decide) (by decide) hcl (by decide),
    soft_drop_score_junk junk 2 s (by decide) (by decide)]

/-- The board, the active piece and the flags at the start of every round. -/
theorem o_round_frame (k : Nat) :
    (o_round k).board = o_fill 0 ∧ (o_round k).cur = { x := 3, y := -2, type := 1, rot := 0 } ∧
    (o_round k).paused = false ∧ (o_round k).game_over = false := by
  induction k with
  | zero => exact ⟨by decide, rfl, rfl, rfl⟩
  | succ k ih =>
    obtain ⟨h1, h2, h3, h4⟩ := soft_drop_score_frame 0 2 (o_round k)
    obtain ⟨i1, i2, i3, i4⟩ := ih
    exact ⟨h1.trans i1, h2.trans i2, h4.trans i3, h3.trans i4⟩

theorem o_round_stage (k : Nat) :
    stage (o_round k) (o_fill 0) { x := 3, y := -2, type := 1, rot := 0 } = o_round k :=
  stage_self _ _ _ (o_round_frame k).1 (o_round_frame k).2.1

theorem o_last_lines (k : Nat) : (o_last k).lines_cleared = (o_round k).lines_cleared := rfl

/-- The start of round `k` and the state before its last landing are reached by play,
with `Q` on the way whenever `Q` holds of `lines_cleared` at the start of the rounds up
to `k`. -/
theorem o_round_while (Q : Int → Prop) (k : Nat)
    (hQ : ∀ j : Nat, j ≤ k → Q (o_round j).lines_cleared) :
    ReachableWhile Q (o_round k) ∧ ReachableWhile Q (o_last k) := by
  induction k with
  | zero =>
    have h0 : ReachableWhile Q (o_round 0) :=
      ReachableWhile.init 1 _ (by decide) (by decide) (by decide) (hQ 0 (le_refl _))
    refine ⟨h0, ?_⟩
    have h1 := h0
    rw [← o_round_stage 0] at h1
    exact o_round_path Q (o_round 0) rfl rfl h1
  | succ k ih =>
    obtain ⟨_, hl⟩ := ih (fun j hj => hQ j (Nat.le_succ_of_le hj))
    have hland := (o_round_land 40 0 (o_round k) (le_refl _)).2.2.2
    have hs : ReachableWhile Q (o_round (k + 1)) := by
      have e : stage (soft_drop_score 0 2 (o_round k)) (o_fill 0)
          { x := 3, y := -2, type := 1, rot := 0 } = o_round (k + 1) := o_round_stage (k + 1)
      rw [e] at hland
      exact ReachableWhile.tick 40 1 0 (o_last k) _ hl (by decide) (by decide)
        (o_round_frame k).2.2.1 (o_round_frame k).2.2.2 hland (hQ (k + 1) (le_refl _))
    refine ⟨hs, ?_⟩
    have h1 := hs
    rw [← o_round_stage (k + 1)] at h1
    exact o_round_path Q (o_round (k + 1)) (o_round_frame (k + 1)).2.2.1
      (o_round_frame (k + 1)).2.2.2 h1

theorem o_round_reachable (k : Nat) : Reachable (o_round k) ∧ Reachable (o_last k) :=
  ⟨while_reachable _ _ (o_round_while (fun _ => True) k (fun _ _ => trivial)).1,
   while_reachable _ _ (o_round_while (fun _ => True) k (fun _ _ => trivial)).2⟩

/-! ### Cell values -/

theorem initial_cells_in_range : cells_in_range initial.board := by
  intro y x _ _ _ _
  rw [board_at_initial]
  exact ⟨le_refl _, by decide⟩

theorem lock_cells_in_range (b b1 : Board) (p : Piece) (hwf : b.WF) (hv : p.valid)
    (hc : cells_in_range b) (hlock : lock_piece b p = some b1) : cells_in_range b1 := by
  obtain ⟨b', e, _, hb'⟩ := lock_piece_spec b p hwf hv
  rw [hlock] at e; cases e
  intro y x h1 h2 h3 h4
  by_cases ht : ∃ r c : Int, 0 ≤ r ∧ r < 4 ∧ 0 ≤ c ∧ c < 4 ∧ cell p.type p.rot r c = some true ∧
      y = p.y + r ∧ x = p.x + c
  · rw [(hb' y x h1 h2 h3 h4).1 ht]
    obtain ⟨a1, a2, _⟩ := hv
    omega
  · rw [(hb' y x h1 h2 h3 h4).2 ht]
    exact hc y x h1 h2 h3 h4

theorem zero_row_getD (n : Nat) : zero_row.getD n 0 = 0 := by
  unfold zero_row
  simp only [List.getD_eq_getElem?_getD, List.getElem?_replicate]
  split_ifs <;> rfl

theorem cleared_cells_in_range (b : Board) (hwf : b.WF) (hc : cells_in_range b) :
    cells_in_range (List.replicate (b.countP full_row) zero_row ++
      b.filter (fun row => !full_row row)) := by
  have hw := cleared_wf b hwf
  have hH : BOARD_H = 20 := rfl
  have hHn : BOARD_H.toNat = 20 := rfl
  intro y x h1 h2 h3 h4
  unfold board_at
  have hlt : y.toNat < (List.replicate (b.countP full_row) zero_row ++
      b.filter (fun row => !full_row row)).length := by
    rw [hw.1, hHn]; omega
  rw [List.getD_eq_getElem _ _ hlt]
  have hmem := List.getElem_mem hlt
  rcases List.mem_append.1 hmem with h | h
  · rw [List.eq_of_mem_replicate h, zero_row_getD]
    exact ⟨le_refl _, by decide⟩
  · obtain ⟨i, hi, e⟩ := List.getElem_of_mem (List.mem_of_mem_filter h)
    rw [← e]
    have := hc (i : Int) x (by omega) (by rw [hwf.1, hHn] at hi; omega) h3 h4
    unfold board_at at this
    rw [Int.toNat_ofNat, List.getD_eq_getElem _ _ hi] at this
    exact this

theorem clear_lines_cells_in_range (fuel : Nat) (b b' : Board) (c : Int) (hwf : b.WF)
    (hc : cells_in_range b) (h : clear_lines fuel b = some (b', c)) : cells_in_range b' := by
  by_cases hf : fuel < BOARD_H.toNat + b.countP full_row
  · rw [clear_lines_none b hwf.1 fuel hf] at h; cases h
  · rw [clear_lines_exact b hwf.1 fuel (by omega)] at h
    cases h
    exact cleared_cells_in_range b hwf hc

theorem soft_drop_cells_in_range (fuel : Nat) (t junk : Int) (s s' : State) (hi : Inv s)
    (hc : cells_in_range s.board) (h : soft_drop fuel t junk s = some s') :
    cells_in_range s'.board := by
  rcases soft_drop_cases fuel t junk s s' h with ⟨_, rfl⟩ | ⟨_, b1, b2, c, h1, h2, h3⟩
  · exact hc
  · obtain ⟨b1', e, hwf1, _⟩ := lock_piece_spec s.board s.cur hi.1 hi.2.2
    rw [h1] at e; cases e
    rw [(new_piece_frame t _ s' h3).1, (soft_drop_score_frame junk c _).1]
    exact clear_lines_cells_in_range fuel b1 b2 c hwf1
      (lock_cells_in_range s.board b1 s.cur hi.1 hi.2.2 hc h1) h2

theorem reachable_cells_in_range (s : State) (h : Reachable s) : cells_in_range s.board := by
  refine reachable_induction (fun s => cells_in_range s.board) ?_ ?_ ?_ ?_ ?_ s h
  · intro t s _ _ hnp
    show cells_in_range s.board
    rw [(new_piece_frame t initial s hnp).1]
    exact initial_cells_in_range
  · intro fuel t junk s s' hi hc _ _ _ hsd
    exact soft_drop_cells_in_range fuel t junk s s' hi hc hsd
  · intro _ s p _ hc _ _; exact hc
  · intro n s _ hc _ _ _; exact hc
  · intro s q hc; exact hc

/-- C14: every grid cell holds a value in `[0, 7]` in every reachable state.  The
zero-filled initial board satisfies it; `lock_piece`, for a piece with type in 0..6, and
`clear_lines` each preserve it; `new_piece`, the commit-if-legal moves and the scoring
block return the board they were given. -/
theorem C14_cells_stay_in_range :
    cells_in_range initial.board ∧
    (∀ (b b1 : Board) (p : Piece), b.WF → p.valid → cells_in_range b →
      lock_piece b p = some b1 → cells_in_range b1) ∧
    (∀ (fuel : Nat) (b b' : Board) (c : Int), b.WF → cells_in_range b →
      clear_lines fuel b = some (b', c) → cells_in_range b') ∧
    (∀ (t : Int) (s s' : State), new_piece t s = some s' → s'.board = s.board) ∧
    (∀ (n : Piece) (s s' : State), try_move n s = some s' → s'.board = s.board) ∧
    (∀ (junk c : Int) (s : State), (soft_drop_score junk c s).board = s.board) ∧
    (∀ s : State, Reachable s → cells_in_range s.board) := by
  refine ⟨initial_cells_in_range, ?_, ?_, ?_, ?_, ?_, reachable_cells_in_range⟩
  · intro b b1 p hwf hv hc hl
    exact lock_cells_in_range b b1 p hwf hv hc hl
  · intro fuel b b' c hwf hc h
    exact clear_lines_cells_in_range fuel b b' c hwf hc h
  · intro t s s' h
    exact (new_piece_frame t s s' h).1
  · intro n s s' h
    rcases try_move_cases n s s' h with ⟨_, rfl⟩ | ⟨_, rfl⟩ <;> rfl
  · intro junk c s
    exact (soft_drop_score_frame junk c s).1

set_option maxRecDepth 100000 in
theorem C14_witness :
    board_at (o_last 0).board 19 0 = 2 ∧
    (0 ≤ board_at (o_last 0).board 19 0 ∧ board_at (o_last 0).board 19 0 ≤ 7) ∧
    lock_piece (o_last 0).board (o_last 0).cur = some (o_fill 5) ∧
    (0 ≤ board_at (o_fill 5) 19 9 ∧ board_at (o_fill 5) 19 9 ≤ 7) ∧
    clear_lines 40 (o_fill 5) = some (o_fill 0, 2) ∧
    (0 ≤ board_at (o_fill 0) 19 9 ∧ board_at (o_fill 0) 19 9 ≤ 7) := by
  have h1 : cells_in_range (o_last 0).board :=
    C14_cells_stay_in_range.2.2.2.2.2.2 (o_last 0) (o_round_reachable 0).2
  have h2 : cells_in_range (o_fill 5) :=
    C14_cells_stay_in_range.2.1 (o_last 0).board (o_fill 5) (o_last 0).cur (by decide)
      (by decide) h1 (by decide)
  have h3 : cells_in_range (o_fill 0) :=
    C14_cells_stay_in_range.2.2.1 40 (o_fill 5) (o_fill 0) 2 (by decide) h2 (by decide)
  exact ⟨by decide, h1 19 0 (by decide) (by decide) (by decide) (by decide), by decide,
    h2 19 9 (by decide) (by decide) (by decide) (by decide), by decide,
    h3 19 9 (by decide) (by decide) (by decide) (by decide)⟩

/-! ### Legality of the active piece -/

theorem descend_legal (fuel : Nat) (b : Board) (cur p : Piece) (hv : cur.valid)
    (hleg : can_place b cur = some true) (h : descend fuel b cur = some p) :
    can_place b p = some true := by
  obtain ⟨ystar, _, _, _, h4, h5, h6⟩ :=
    descend_spec b (BOARD_H - cur.y).toNat cur hv (le_refl _)
  by_cases hf : (ystar - cur.y).toNat ≤ fuel
  · rw [h5 fuel hf] at h
    cases h
    by_cases he : ystar = cur.y
    · rw [he, piece_with_y_self]; exact hleg
    · exact h4 ystar (by omega) (le_refl _)
  · rw [h6 fuel (by omega)] at h
    cases h

theorem soft_drop_paused (fuel : Nat) (t junk : Int) (s s' : State)
    (h : soft_drop fuel t junk s = some s') : s'.paused = s.paused := by
  rcases soft_drop_cases fuel t junk s s' h with ⟨_, rfl⟩ | ⟨_, b1, b2, c, _, _, h3⟩
  · rfl
  · rw [(new_piece_frame t _ s' h3).2.1, (soft_drop_score_frame junk c _).2.2.2]

theorem reachable_legal (s : State) (h : Reachable s) :
    s.game_over = false → can_place s.board s.cur = some true := by
  refine reachable_induction
    (fun s => s.game_over = false → can_place s.board s.cur = some true) ?_ ?_ ?_ ?_ ?_ s h
  · intro t s _ _ hnp hgo
    exact ((new_piece_frame t initial s hnp).2.2.2.2.2.2.2 hgo).1
  · intro fuel t junk s s' _ _ _ _ _ hsd hgo
    rcases soft_drop_cases fuel t junk s s' hsd with ⟨hc, rfl⟩ | ⟨_, b1, b2, c, _, _, h3⟩
    · exact hc
    · exact ((new_piece_frame t _ s' h3).2.2.2.2.2.2.2 hgo).1
  · intro fuel s p hi hp hgo hd _
    exact descend_legal fuel s.board s.cur p hi.2.2 (hp hgo) hd
  · intro n s _ _ _ _ hc _
    exact hc
  · intro s q hp hgo
    exact hp hgo

theorem gravity_loop_reachable (cfuel : Nat) (ts js : Nat → Int)
    (hts : ∀ i : Nat, 0 ≤ ts i ∧ ts i < 7) (fuel : Nat) :
    ∀ (i : Nat) (fall_accum : Int) (s : State) (r : State × Int), Reachable s →
      s.paused = false → s.game_over = false →
      gravity_loop cfuel ts js fuel i fall_accum s = some r → Reachable r.1 := by
  induction fuel with
  | zero =>
    intro i fa s r hr _ _ h
    unfold gravity_loop at h
    split at h
    · cases h
    · cases h; exact hr
  | succ fuel ih =>
    intro i fa s r hr hp hgo h
    unfold gravity_loop at h
    split at h
    · split at h
      · cases h
      · rename_i s1 hs1
        have hr1 : Reachable s1 :=
          Reachable.tick cfuel (ts i) (js i) s s1 hr (hts i).1 (hts i).2 hp hgo hs1
        by_cases hg1 : s1.game_over = true
        · rw [if_pos hg1] at h; cases h; exact hr1
        · rw [if_neg hg1] at h
          exact ih _ _ s1 r hr1 (by rw [soft_drop_paused cfuel (ts i) (js i) s s1 hs1]; exact hp)
            (by simpa using hg1) h
    · cases h; exact hr

theorem gravity_phase_reachable (cfuel fuel : Nat) (ts js : Nat → Int)
    (hts : ∀ i : Nat, 0 ≤ ts i ∧ ts i < 7) (dt fall_accum : Int) (s : State)
    (r : State × Int) (hr : Reachable s)
    (h : gravity_phase cfuel fuel ts js dt fall_accum s = some r) : Reachable r.1 := by
  unfold gravity_phase at h
  split at h
  · rename_i hc
    simp only [Bool.and_eq_true, Bool.not_eq_true'] at hc
    exact gravity_loop_reachable cfuel ts js hts fuel 0 _ s r hr hc.1 hc.2 h
  · cases h; exact hr

/-- C18: in every reachable state `cur.type` is in 0..6 and `cur.rot` in 0..3, and if
game_over is false then `can_place(cur)` holds: every occupied cell of the active piece
lies within the left, right and bottom edges of the grid and, when it is inside the grid,
on an empty cell.  The states a gravity phase returns are reachable as well. -/
theorem C18_active_piece_stays_legal (s : State) (hr : Reachable s) :
    (0 ≤ s.cur.type ∧ s.cur.type < 7 ∧ 0 ≤ s.cur.rot ∧ s.cur.rot < 4) ∧
    (s.game_over = false →
      can_place s.board s.cur = some true ∧
      ∀ r c : Int, 0 ≤ r → r < 4 → 0 ≤ c → c < 4 →
        cell s.cur.type s.cur.rot r c = some true →
        0 ≤ s.cur.x + c ∧ s.cur.x + c < BOARD_W ∧ s.cur.y + r < BOARD_H ∧
          (s.cur.y + r < 0 ∨ board_at s.board (s.cur.y + r) (s.cur.x + c) = 0)) ∧
    (∀ (cfuel fuel : Nat) (ts js : Nat → Int) (dt fall_accum : Int) (r : State × Int),
      (∀ i : Nat, 0 ≤ ts i ∧ ts i < 7) →
      gravity_phase cfuel fuel ts js dt fall_accum s = some r → Reachable r.1) := by
  have hv := (reachable_inv s hr).2.2
  refine ⟨hv, ?_, ?_⟩
  · intro hgo
    have hc := reachable_legal s hr hgo
    exact ⟨hc, (can_place_char s.board s.cur hv).2.1.1 hc⟩
  · intro cfuel fuel ts js dt fa r hts h
    exact gravity_phase_reachable cfuel fuel ts js hts dt fa s r hr h

set_option maxRecDepth 100000 in
theorem C18_witness :
    (o_last 0).game_over = false ∧ board_at (o_last 0).board 18 7 = 2 ∧
    (o_last 0).cur = ⟨7, 17, 1, 0⟩ ∧
    can_place (o_last 0).board (o_last 0).cur = some true ∧
    (0 ≤ (o_last 0).cur.x + 1 ∧ (o_last 0).cur.x + 1 < BOARD_W ∧
      (o_last 0).cur.y + 2 < BOARD_H ∧
      ((o_last 0).cur.y + 2 < 0 ∨
        board_at (o_last 0).board ((o_last 0).cur.y + 2) ((o_last 0).cur.x + 1) = 0)) :=
  ⟨rfl, by decide, rfl,
   ((C18_active_piece_stays_legal (o_last 0) (o_round_reachable 0).2).2.1 rfl).1,
   ((C18_active_piece_stays_legal (o_last 0) (o_round_reachable 0).2).2.1 rfl).2 2 1
     (by decide) (by decide) (by decide) (by decide) (by decide)⟩

/-! ### Reward lookup and termination of the scan -/

theorem table_at_defined (c : Int) (h0 : 0 ≤ c) (h4 : c ≤ 4) : ∃ pts, table_at c = some pts := by
  interval_cases c <;> exact ⟨_, rfl⟩

theorem landing_count_le (s : State) (hi : Inv s) :
    ∃ b1 : Board, lock_piece s.board s.cur = some b1 ∧
      (∀ (fuel : Nat) (b2 : Board) (c : Int), clear_lines fuel b1 = some (b2, c) →
        0 ≤ c ∧ c ≤ 4 ∧ ∃ pts, table_at c = some pts) ∧
      (∀ fuel : Nat, 2 * BOARD_H.toNat ≤ fuel → ∃ (b2 : Board) (c : Int),
        clear_lines fuel b1 = some (b2, c)) := by
  obtain ⟨hwf, hnf, hv⟩ := hi
  obtain ⟨b1, hlock, hwf1, _⟩ := lock_piece_spec s.board s.cur hwf hv
  have hk := lock_full_rows_le s.board b1 s.cur hwf hv hnf hlock
  have hHn : BOARD_H.toNat = 20 := rfl
  refine ⟨b1, hlock, ?_, ?_⟩
  · intro fuel b2 c h
    by_cases hf : fuel < BOARD_H.toNat + b1.countP full_row
    · rw [clear_lines_none b1 hwf1.1 fuel hf] at h; cases h
    · rw [clear_lines_exact b1 hwf1.1 fuel (by omega)] at h
      cases h
      exact ⟨by omega, by omega, table_at_defined _ (by omega) (by omega)⟩
  · intro fuel hfuel
    exact ⟨_, _, clear_lines_exact b1 hwf1.1 fuel (by omega)⟩

/-- C19: in every reachable state the board has no full row, every mask of `TETRO` has
exactly four occupied cells, and the count `c` that `clear_lines` returns after the
active piece is locked satisfies `0 ≤ c ≤ 4`, so the read `table[c]` is inside the
five-element reward table; `lock_piece`, `clear_lines` and `soft_drop` all return, and
what `soft_drop` returns does not depend on the value that a read outside the table would
yield. -/
theorem C19_reward_lookup_in_bounds (s : State) (hr : Reachable s) :
    (∀ y : Int, 0 ≤ y → y < BOARD_H → row_full s.board y = false) ∧
    (∀ type rot : Int, 0 ≤ type → type < 7 → 0 ≤ rot → rot < 4 →
      (cell_positions.filter (fun rc => cell type rot rc.1 rc.2 == some true)).length = 4) ∧
    (∃ b1 : Board, lock_piece s.board s.cur = some b1 ∧
      (∀ (fuel : Nat) (b2 : Board) (c : Int), clear_lines fuel b1 = some (b2, c) →
        0 ≤ c ∧ c ≤ 4 ∧ ∃ pts, table_at c = some pts) ∧
      (∀ fuel : Nat, 2 * BOARD_H.toNat ≤ fuel → ∃ (b2 : Board) (c : Int),
        clear_lines fuel b1 = some (b2, c))) ∧
    (∀ (fuel : Nat) (t junk : Int), 0 ≤ t → t < 7 → 2 * BOARD_H.toNat ≤ fuel →
      ∃ s' : State, soft_drop fuel t junk s = some s') ∧
    (∀ (fuel : Nat) (t junk junk' : Int),
      soft_drop fuel t junk s = soft_drop fuel t junk' s) := by
  have hi := reachable_inv s hr
  refine ⟨hi.2.1, ?_, landing_count_le s hi, ?_, ?_⟩
  · intro type rot h1 h2 h3 h4
    exact mask_four_cells type rot ⟨h1, h2, h3, h4⟩
  · intro fuel t junk ht0 ht1 hfuel
    exact soft_drop_defined fuel t junk s hi ht0 ht1 hfuel
  · intro fuel t junk junk'
    rw [soft_drop_junk fuel t junk s hi, soft_drop_junk fuel t junk' s hi]

set_option maxRecDepth 100000 in
theorem C19_witness :
    row_full (o_last 0).board 19 = false ∧
    lock_piece (o_last 0).board (o_last 0).cur = some (o_fill 5) ∧
    clear_lines 40 (o_fill 5) = some (o_fill 0, 2) ∧
    ((0 : Int) ≤ 2 ∧ (2 : Int) ≤ 4 ∧ ∃ pts, table_at 2 = some pts) ∧
    (∃ s' : State, soft_drop 40 1 0 (o_last 0) = some s') ∧
    soft_drop 40 1 99 (o_last 0) = soft_drop 40 1 0 (o_last 0) := by
  obtain ⟨h1, _, ⟨b1, hl, hc, _⟩, h4, h5⟩ :=
    C19_reward_lookup_in_bounds (o_last 0) (o_round_reachable 0).2
  have hl' : lock_piece (o_last 0).board (o_last 0).cur = some (o_fill 5) := by decide
  have e : b1 = o_fill 5 := by
    rw [hl'] at hl
    exact (Option.some.inj hl).symm
  subst e
  exact ⟨h1 19 (by decide) (by decide), hl', by decide, hc 40 (o_fill 0) 2 (by decide),
    h4 40 1 0 (by decide) (by decide) (by decide), h5 40 1 99 0⟩

theorem clear_row_length (m : Nat) (b : Board) (h : m < b.length) :
    (clear_row b (m : Int)).length = b.length := by
  rw [clear_row_eq m b h]
  simp only [List.length_cons, List.length_append, List.length_take, List.length_drop]
  omega

theorem clear_loop_reads_fst (fuel : Nat) : ∀ (b : Board) (y cleared : Int) (reads : List Int),
    (clear_loop_reads fuel b y cleared reads).map (fun r => (r.1, r.2.1)) =
      clear_loop fuel b y cleared := by
  induction fuel with
  | zero =>
    intro b y cleared reads
    unfold clear_loop_reads clear_loop
    split <;> rfl
  | succ fuel ih =>
    intro b y cleared reads
    rw [clear_loop_reads, clear_loop]
    split
    · split
      · exact ih _ _ _ _
      · exact ih _ _ _ _
    · rfl

theorem clear_loop_reads_spec (fuel : Nat) :
    ∀ (b : Board) (n : Nat) (cleared : Int) (reads : List Int) (r : Board × Int × List Int),
      n ≤ b.length → clear_loop_reads fuel b ((n : Int) - 1) cleared reads = some r →
      ∃ tr : List Int, r.2.2 = reads ++ tr ∧ (∀ y ∈ tr, 0 ≤ y ∧ y < (n : Int)) ∧
        (tr.length : Int) = (n : Int) + (r.2.1 - cleared) := by
  induction fuel with
  | zero =>
    intro b n cleared reads r hn h
    unfold clear_loop_reads at h
    split at h
    · cases h
    · rename_i hy
      cases h
      exact ⟨[], by simp, by simp, by simp; omega⟩
  | succ fuel ih =>
    intro b n cleared reads r hn h
    rw [clear_loop_reads] at h
    split at h
    · rename_i hy
      obtain ⟨m, rfl⟩ : ∃ m : Nat, n = m + 1 := ⟨n - 1, by omega⟩
      have hy1 : ((m + 1 : Nat) : Int) - 1 = (m : Int) := by push_cast; ring
      rw [hy1] at h
      split at h
      · have hy2 : (m : Int) + 1 - 1 = ((m + 1 : Nat) : Int) - 1 := by push_cast; ring
        rw [hy2] at h
        obtain ⟨tr, e1, e2, e3⟩ := ih (clear_row b (m : Int)) (m + 1) _ _ r
          (by rw [clear_row_length m b (by omega)]; exact hn) h
        refine ⟨(m : Int) :: tr, by rw [e1]; simp, ?_, ?_⟩
        · intro y hy'
          rcases List.mem_cons.1 hy' with rfl | hy'
          · constructor <;> push_cast <;> omega
          · exact e2 y hy'
        · simp only [List.length_cons]
          push_cast at e3 ⊢
          omega
      · have hy2 : (m : Int) - 1 = ((m : Nat) : Int) - 1 := rfl
        obtain ⟨tr, e1, e2, e3⟩ := ih b m _ _ r (by omega) h
        refine ⟨(m : Int) :: tr, by rw [e1]; simp, ?_, ?_⟩
        · intro y hy'
          rcases List.mem_cons.1 hy' with rfl | hy'
          · constructor <;> push_cast <;> omega
          · have := e2 y hy'
            constructor <;> push_cast <;> omega
        · simp only [List.length_cons]
          push_cast at e3 ⊢
          omega
    · rename_i hy
      cases h
      exact ⟨[], by simp, by simp, by simp; omega⟩

theorem clear_lines_reads (b : Board) (hwf : b.WF) :
    b.countP full_row ≤ BOARD_H.toNat ∧
    (∀ fuel : Nat, BOARD_H.toNat + b.countP full_row ≤ fuel →
      ∃ (b' : Board) (reads : List Int),
        clear_loop_reads fuel b (BOARD_H - 1) 0 [] =
          some (b', ((b.countP full_row : Nat) : Int), reads) ∧
        clear_lines fuel b = some (b', ((b.countP full_row : Nat) : Int)) ∧
        reads.length = BOARD_H.toNat + b.countP full_row ∧
        reads.length ≤ 2 * BOARD_H.toNat ∧
        ∀ y ∈ reads, 0 ≤ y ∧ y ≤ BOARD_H - 1) ∧
    (∀ fuel : Nat, fuel < BOARD_H.toNat + b.countP full_row →
      clear_lines fuel b = none ∧ clear_loop_reads fuel b (BOARD_H - 1) 0 [] = none) := by
  have hk : b.countP full_row ≤ BOARD_H.toNat := by
    rw [← hwf.1]; exact List.countP_le_length _
  have hH : BOARD_H = 20 := rfl
  have hHn : BOARD_H.toNat = 20 := rfl
  have hy : BOARD_H - 1 = ((b.length : Nat) : Int) - 1 := by rw [hwf.1]; rfl
  refine ⟨hk, ?_, ?_⟩
  · intro fuel hfuel
    have hcl := clear_lines_exact b hwf.1 fuel hfuel
    have hfst := clear_loop_reads_fst fuel b (BOARD_H - 1) 0 []
    have hcl' : clear_loop fuel b (BOARD_H - 1) 0 = _ := hcl
    rw [hcl'] at hfst
    cases hr : clear_loop_reads fuel b (BOARD_H - 1) 0 [] with
    | none => rw [hr] at hfst; cases hfst
    | some r =>
      rw [hr] at hfst
      simp only [Option.map_some', Option.some.injEq, Prod.mk.injEq] at hfst
      obtain ⟨b', c, reads⟩ := r
      simp only at hfst
      obtain ⟨rfl, rfl⟩ := hfst
      rw [hy] at hr
      obtain ⟨tr, e1, e2, e3⟩ := clear_loop_reads_spec fuel b b.length 0 [] _ (le_refl _) hr
      simp only [List.nil_append] at e1
      subst e1
      simp only [sub_zero] at e3
      rw [hwf.1, hHn] at e2 e3
      have hlen : reads.length = BOARD_H.toNat + b.countP full_row := by
        rw [hHn]; push_cast at e3; omega
      refine ⟨_, reads, rfl, hcl, hlen, by omega, ?_⟩
      intro y hy'
      have := e2 y hy'
      rw [hH]
      push_cast at this
      omega
  · intro fuel hfuel
    have hcl := clear_lines_none b hwf.1 fuel hfuel
    refine ⟨hcl, ?_⟩
    have hfst := clear_loop_reads_fst fuel b (BOARD_H - 1) 0 []
    have hcl' : clear_loop fuel b (BOARD_H - 1) 0 = none := hcl
    rw [hcl'] at hfst
    cases hr : clear_loop_reads fuel b (BOARD_H - 1) 0 [] with
    | none => rfl
    | some r => rw [hr] at hfst; cases hfst

/-- C20: for every board the scan loop of `clear_lines` terminates although its body
increments `y` after a clear: with `k` the number of full rows of the input board
(`k ≤ BOARD_H`), `BOARD_H + k` iterations are enough and no fewer are; the loop reads
exactly `BOARD_H + k ≤ 2 * BOARD_H` rows, and each row index it reads lies in
`0..BOARD_H-1`. -/
theorem C20_clear_lines_scan_terminates (b : Board) (hwf : b.WF) :
    ((List.range BOARD_H.toNat).filter (fun y : Nat => row_full b (y : Int))).length ≤
      BOARD_H.toNat ∧
    (∀ fuel : Nat, BOARD_H.toNat +
        ((List.range BOARD_H.toNat).filter (fun y : Nat => row_full b (y : Int))).length ≤ fuel →
      ∃ (b' : Board) (c : Int) (reads : List Int),
        clear_loop_reads fuel b (BOARD_H - 1) 0 [] = some (b', c, reads) ∧
        clear_lines fuel b = some (b', c) ∧
        reads.length = BOARD_H.toNat +
          ((List.range BOARD_H.toNat).filter (fun y : Nat => row_full b (y : Int))).length ∧
        reads.length ≤ 2 * BOARD_H.toNat ∧
        ∀ y ∈ reads, 0 ≤ y ∧ y ≤ BOARD_H - 1) ∧
    (∀ fuel : Nat, fuel < BOARD_H.toNat +
        ((List.range BOARD_H.toNat).filter (fun y : Nat => row_full b (y : Int))).length →
      clear_lines fuel b = none ∧ clear_loop_reads fuel b (BOARD_H - 1) 0 [] = none) := by
  have e1 : (fun y : Nat => row_full b (y : Int)) = fun y => full_row (b.getD y []) := by
    funext y; exact row_full_nat b y
  have hk : ((List.range BOARD_H.toNat).filter (fun y : Nat => row_full b (y : Int))).length
      = b.countP full_row := by
    rw [e1, ← hwf.1]; exact rows_count_eq b full_row
  rw [hk]
  obtain ⟨h1, h2, h3⟩ := clear_lines_reads b hwf
  refine ⟨h1, ?_, h3⟩
  intro fuel hfuel
  obtain ⟨b', reads, a1, a2, a3, a4, a5⟩ := h2 fuel hfuel
  exact ⟨b', _, reads, a1, a2, a3, a4, a5⟩

theorem C20_witness :
    ∃ (b' : Board) (c : Int) (reads : List Int),
      clear_loop_reads 21 (List.replicate 19 (List.replicate 10 0) ++ [List.replicate 10 1])
        (BOARD_H - 1) 0 [] = some (b', c, reads) ∧
      reads.length ≤ 2 * BOARD_H.toNat ∧ ∀ y ∈ reads, 0 ≤ y ∧ y ≤ BOARD_H - 1 := by
  obtain ⟨_, h, _⟩ := C20_clear_lines_scan_terminates
    (List.replicate 19 (List.replicate 10 0) ++ [List.replicate 10 1]) (by decide)
  obtain ⟨b', c, reads, a1, _, _, a4, a5⟩ := h 21 (by decide)
  exact ⟨b', c, reads, a1, a4, a5⟩


/-! ### Level and fall interval -/

/-- The quotient by 10 of C (truncation toward zero) in terms of the floor quotient. -/
theorem tdiv_ten (x : Int) :
    (0 ≤ x → Int.tdiv x 10 = x / 10) ∧ (x < 0 → Int.tdiv x 10 = -((-x) / 10)) := by
  constructor
  · intro h
    exact Int.tdiv_eq_ediv h (by decide)
  · intro h
    obtain ⟨a, rfl⟩ : ∃ a : Int, x = -a := ⟨-x, by ring⟩
    rw [Int.neg_tdiv, Int.tdiv_eq_ediv (by omega) (by decide), neg_neg]

/-- Wrapping the subtrahend first does not change a wrapped difference. -/
theorem wrap32_sub_wrap32 (a x : Int) : wrap32 (a - wrap32 x) = wrap32 (a - x) := by
  unfold wrap32
  have h := Int.emod_add_ediv (x + 2147483648) 4294967296
  have e : a - ((x + 2147483648) % 4294967296 - 2147483648) + 2147483648 =
      a - x + 2147483648 + 4294967296 * ((x + 2147483648) / 4294967296) := by omega
  rw [e, Int.add_mul_emod_self_left]

/-- Arithmetic of the counter update of `soft_drop` for a count `c` in `0..4`. -/
theorem level_step (lines c level tick lines' level' tick' : Int)
    (hc0 : 0 ≤ c) (hc4 : c ≤ 4) (hl' : lines' = wrap32 (lines + c))
    (hup : Int.tdiv lines' LEVEL_UP_LINES + 1 > level →
      level' = Int.tdiv lines' LEVEL_UP_LINES + 1 ∧
      tick' = max TICK_MS_MIN (wrap32 (TICK_MS_INITIAL -
        wrap32 ((Int.tdiv lines' LEVEL_UP_LINES + 1 - 1) * 45))))
    (hkeep : ¬ Int.tdiv lines' LEVEL_UP_LINES + 1 > level → level' = level ∧ tick' = tick) :
    CounterStep lines level tick lines' level' tick' := by
  unfold CounterStep
  intro hfit
  have hL : LEVEL_UP_LINES = 10 := rfl
  have hT : TICK_MS_MIN = 80 := rfl
  have hI : TICK_MS_INITIAL = 550 := rfl
  have hq : (0 ≤ lines ∧ Int.tdiv lines 10 = lines / 10) ∨
      (lines < 0 ∧ Int.tdiv lines 10 = -((-lines) / 10)) := by
    rcases le_or_lt 0 lines with h | h
    · exact Or.inl ⟨h, (tdiv_ten lines).1 h⟩
    · exact Or.inr ⟨h, (tdiv_ten lines).2 h⟩
  have hq' : (0 ≤ lines' ∧ Int.tdiv lines' 10 = lines' / 10) ∨
      (lines' < 0 ∧ Int.tdiv lines' 10 = -((-lines') / 10)) := by
    rcases le_or_lt 0 lines' with h | h
    · exact Or.inl ⟨h, (tdiv_ten lines').1 h⟩
    · exact Or.inr ⟨h, (tdiv_ten lines').2 h⟩
  rw [hL] at hup hkeep ⊢
  rw [hT, hI] at hup ⊢
  rw [hT] at *
  unfold fits_int at hfit ⊢
  generalize Int.tdiv lines 10 = q at *
  generalize Int.tdiv lines' 10 = q' at *
  unfold wrap32 at hl'
  unfold max at hup ⊢
  refine ⟨?_, ?_, ?_⟩
  · intro w1 w2 w3
    by_cases hgt : q' + 1 > level
    · obtain ⟨a1, a2⟩ := hup hgt
      refine ⟨by omega, by omega, by omega, ?_, by omega, by omega, ?_⟩
      · rw [a2]; split_ifs <;> omega
      · intro h; omega
    · obtain ⟨a1, a2⟩ := hkeep hgt
      exact ⟨by omega, by omega, by omega, by omega, by omega, by omega, fun _ => ⟨a1, a2⟩⟩
  · intro h0 hlev
    by_cases hgt : q' + 1 > level
    · obtain ⟨a1, a2⟩ := hup hgt
      exact ⟨fun _ => by omega, fun _ => ⟨by omega, by omega, a1⟩⟩
    · obtain ⟨a1, a2⟩ := hkeep hgt
      exact ⟨fun _ => by omega, fun _ => ⟨by omega, by omega, by omega⟩⟩
  · intro h0 hlev htick h0' hB
    by_cases hgt : q' + 1 > level
    · obtain ⟨a1, a2⟩ := hup hgt
      have hW : wrap32 (550 - wrap32 ((q' + 1 - 1) * 45)) = 550 - (q' + 1 - 1) * 45 := by
        rw [wrap32_sub_wrap32]
        exact wrap32_of_fits _ ⟨by omega, by omega⟩
      rw [hW] at a2
      constructor
      · rw [a2, a1]
      · intro _
        rw [a2, htick]; split_ifs <;> omega
    · obtain ⟨a1, a2⟩ := hkeep hgt
      constructor
      · rw [a2, a1]; exact htick
      · intro h; omega


theorem counter_step_refl (lines level tick : Int) :
    CounterStep lines level tick lines level tick := by
  unfold CounterStep
  intro hfit
  refine ⟨?_, ?_, ?_⟩
  · intro w1 w2 w3
    exact ⟨hfit, w1, w2, w3, le_refl _, by omega, fun _ => ⟨rfl, rfl⟩⟩
  · intro h0 hlev
    exact ⟨fun h => absurd h (lt_irrefl _), fun _ => ⟨le_refl _, by omega, hlev⟩⟩
  · intro h0 hlev htick _ _
    exact ⟨htick, fun h => absurd h (lt_irrefl _)⟩

/-- The scoring block, run with a count in `0..4`, is a counter step. -/
theorem soft_drop_score_step (junk c : Int) (s : State) (hc0 : 0 ≤ c) (hc4 : c ≤ 4) :
    CounterStep s.lines_cleared s.level s.tick_ms (soft_drop_score junk c s).lines_cleared
      (soft_drop_score junk c s).level (soft_drop_score junk c s).tick_ms := by
  by_cases hc : c = 0
  · subst hc
    rw [soft_drop_score_zero]
    exact counter_step_refl _ _ _
  · obtain ⟨pts, hp, _⟩ := table_at_spec c (by omega) hc4
    obtain ⟨hl, _, hup, hkeep⟩ := soft_drop_score_spec junk c pts s hc hp
    rw [← hl] at hup hkeep
    exact level_step _ c _ _ _ _ _ hc0 hc4 hl hup hkeep

/-- From a state that satisfies the board invariant every `soft_drop` is a counter step. -/
theorem soft_drop_step (fuel : Nat) (t junk : Int) (s s' : State) (hi : Inv s)
    (h : soft_drop fuel t junk s = some s') :
    CounterStep s.lines_cleared s.level s.tick_ms s'.lines_cleared s'.level s'.tick_ms := by
  rcases soft_drop_cases fuel t junk s s' h with ⟨_, rfl⟩ | ⟨hland, _⟩
  · exact counter_step_refl _ _ _
  · rw [soft_drop_of_landing fuel t junk s hland] at h
    obtain ⟨b2, c, hc0, hc4, _, _, hnp⟩ := soft_drop_land_cases fuel t junk s s' hi h
    obtain ⟨_, _, _, hl, hlev, htk, _⟩ := new_piece_frame t _ s' hnp
    rw [hl, hlev, htk]
    exact soft_drop_score_step junk c { s with board := b2 } hc0 hc4

theorem hard_drop_step (fuel : Nat) (t junk : Int) (s s' : State) (hi : Inv s)
    (h : hard_drop fuel t junk s = some s') :
    CounterStep s.lines_cleared s.level s.tick_ms s'.lines_cleared s'.level s'.tick_ms := by
  unfold hard_drop at h
  split at h
  · cases h
  · rename_i p hp
    obtain ⟨hwf, hnf, hv⟩ := hi
    exact soft_drop_step fuel t junk { s with cur := p } s'
      ⟨hwf, hnf, (descend_some fuel s.board s.cur p hv hp).1⟩ h

theorem key_dispatch_step (fuel : Nat) (t junk : Int) (k : Key) (s s' : State) (hi : Inv s)
    (h : key_dispatch fuel t junk k s = some s') :
    CounterStep s.lines_cleared s.level s.tick_ms s'.lines_cleared s'.level s'.tick_ms := by
  have hmv : ∀ n : Piece, try_move n s = some s' →
      CounterStep s.lines_cleared s.level s.tick_ms s'.lines_cleared s'.level s'.tick_ms := by
    intro n hm
    rcases try_move_cases n s s' hm with ⟨_, rfl⟩ | ⟨_, rfl⟩ <;> exact counter_step_refl _ _ _
  rcases key_dispatch_cases fuel t junk k s s' h with rfl | rfl | ⟨_, _, h⟩
  · exact counter_step_refl _ _ _
  · exact counter_step_refl _ _ _
  · rcases h with h | h | h | h | h
    · exact hmv _ h
    · exact hmv _ h
    · exact hmv _ h
    · exact soft_drop_step fuel t junk s s' hi h
    · exact hard_drop_step fuel t junk s s' hi h

/-- A counter step keeps what holds of the counters in every reachable state. -/
theorem counter_step_fit (s s' : State) (hf : CountersFit s)
    (h : CounterStep s.lines_cleared s.level s.tick_ms s'.lines_cleared s'.level s'.tick_ms) :
    CountersFit s' ∧ s.level ≤ s'.level ∧ s'.level ≤ s.level + 1 ∧
    (Int.tdiv s'.lines_cleared LEVEL_UP_LINES = Int.tdiv s.lines_cleared LEVEL_UP_LINES →
      s'.level = s.level ∧ s'.tick_ms = s.tick_ms) := by
  obtain ⟨f1, f2, f3, f4⟩ := hf
  obtain ⟨a1, a2, a3, a4, a5, a6, a7⟩ := (h f1).1 f2 f3 f4
  exact ⟨⟨a1, a2, a3, a4⟩, a5, a6, a7⟩

theorem new_piece_initial_counters (t : Int) (s : State) (h : new_piece t initial = some s) :
    s.lines_cleared = 0 ∧ s.level = 1 ∧ s.tick_ms = 550 := by
  obtain ⟨_, _, _, hl, hlev, htk, _⟩ := new_piece_frame t initial s h
  exact ⟨hl, hlev, htk⟩

/-- In every reachable state `lines_cleared` is a 32-bit value, `level` is at least 1 and
at least `lines_cleared / 10 + 1`, and `tick_ms` is at least 80. -/
theorem reachable_fit (s : State) (h : Reachable s) : CountersFit s := by
  induction h with
  | init t s _ _ hnp =>
    obtain ⟨hl, hlev, htk⟩ := new_piece_initial_counters t s hnp
    unfold CountersFit
    rw [hl, hlev, htk]
    decide
  | tick fuel t junk s s' hr _ _ _ _ hsd ih =>
    exact (counter_step_fit s s' ih
      (soft_drop_step fuel t junk s s' (reachable_inv s hr) hsd)).1
  | key fuel t junk k s s' hr _ _ hk ih =>
    exact (counter_step_fit s s' ih
      (key_dispatch_step fuel t junk k s s' (reachable_inv s hr) hk)).1
  | too_small s _ ih => exact ih

/-- As long as `lines_cleared` has stayed within `[0, B]`, `level` is
`lines_cleared / 10 + 1`. -/
theorem below_level (B : Int) (s : State) (h : ReachableBelow B s) :
    LevelOk s ∧ s.lines_cleared ≤ B := by
  unfold ReachableBelow at h
  induction h with
  | init t s _ _ hnp hq =>
    obtain ⟨hl, hlev, _⟩ := new_piece_initial_counters t s hnp
    refine ⟨⟨hq.1, ?_⟩, hq.2⟩
    rw [hl, hlev]
    decide
  | tick fuel t junk s s' hw _ _ _ _ hsd hq ih =>
    have hr := while_reachable _ s hw
    have hst := soft_drop_step fuel t junk s s' (reachable_inv s hr) hsd
    exact ⟨⟨hq.1, (((hst (reachable_fit s hr).1).2.1 ih.1.1 ih.1.2).2 hq.1).2.2⟩, hq.2⟩
  | key fuel t junk k s s' hw _ _ hk hq ih =>
    have hr := while_reachable _ s hw
    have hst := key_dispatch_step fuel t junk k s s' (reachable_inv s hr) hk
    exact ⟨⟨hq.1, (((hst (reachable_fit s hr).1).2.1 ih.1.1 ih.1.2).2 hq.1).2.2⟩, hq.2⟩
  | too_small s _ ih => exact ih

/-- As long as `lines_cleared` has stayed within `[0, 477218719]`, `tick_ms` is
`max(80, 550 - 45 * (level - 1))`. -/
theorem below_tick (B : Int) (hB : B ≤ 477218719) (s : State) (h : ReachableBelow B s) :
    TickOk s := by
  unfold ReachableBelow at h
  induction h with
  | init t s _ _ hnp hq =>
    obtain ⟨_, hlev, htk⟩ := new_piece_initial_counters t s hnp
    unfold TickOk
    rw [hlev, htk]
    decide
  | tick fuel t junk s s' hw _ _ _ _ hsd hq ih =>
    have hr := while_reachable _ s hw
    have hlv := (below_level B s hw).1
    have hst := soft_drop_step fuel t junk s s' (reachable_inv s hr) hsd
    exact ((hst (reachable_fit s hr).1).2.2 hlv.1 hlv.2 ih hq.1 (le_trans hq.2 hB)).1
  | key fuel t junk k s s' hw _ _ hk hq ih =>
    have hr := while_reachable _ s hw
    have hlv := (below_level B s hw).1
    have hst := key_dispatch_step fuel t junk k s s' (reachable_inv s hr) hk
    exact ((hst (reachable_fit s hr).1).2.2 hlv.1 hlv.2 ih hq.1 (le_trans hq.2 hB)).1
  | too_small s _ ih => exact ih

theorem max_min_fits (x : Int) (h : fits_int x) : fits_int (max TICK_MS_MIN x) := by
  have hT : TICK_MS_MIN = 80 := rfl
  rw [hT]
  unfold max fits_int at *
  split_ifs <;> constructor <;> omega

/-- The scoring block leaves 32-bit values in the four counters. -/
theorem soft_drop_score_fits (junk c : Int) (s : State)
    (h : fits_int s.score ∧ fits_int s.lines_cleared ∧ fits_int s.level ∧ fits_int s.tick_ms) :
    fits_int (soft_drop_score junk c s).score ∧
    fits_int (soft_drop_score junk c s).lines_cleared ∧
    fits_int (soft_drop_score junk c s).level ∧
    fits_int (soft_drop_score junk c s).tick_ms := by
  obtain ⟨h1, h2, h3, h4⟩ := h
  unfold soft_drop_score
  by_cases hc : c ≠ 0
  · rw [if_pos hc]
    dsimp only
    have hw := wrap32_fits (s.lines_cleared + c)
    have hL : LEVEL_UP_LINES = 10 := rfl
    have hlev : fits_int (Int.tdiv (wrap32 (s.lines_cleared + c)) LEVEL_UP_LINES + 1) := by
      rw [hL]
      generalize wrap32 (s.lines_cleared + c) = w at hw
      unfold fits_int at hw ⊢
      rcases le_or_lt 0 w with h | h
      · rw [(tdiv_ten w).1 h]; constructor <;> omega
      · rw [(tdiv_ten w).2 h]; constructor <;> omega
    split
    · exact ⟨wrap32_fits _, hw, hlev, max_min_fits _ (wrap32_fits _)⟩
    · exact ⟨wrap32_fits _, hw, h3, h4⟩
  · rw [if_neg hc]
    exact ⟨h1, h2, h3, h4⟩

/-- In every reachable state the four counters hold 32-bit values. -/
theorem reachable_fits (s : State) (h : Reachable s) :
    fits_int s.score ∧ fits_int s.lines_cleared ∧ fits_int s.level ∧ fits_int s.tick_ms := by
  refine reachable_induction (fun s => fits_int s.score ∧ fits_int s.lines_cleared ∧
    fits_int s.level ∧ fits_int s.tick_ms) ?_ ?_ ?_ ?_ ?_ s h
  · intro t s _ _ hnp
    obtain ⟨_, _, hs, hl, hlev, htk, _⟩ := new_piece_frame t initial s hnp
    show fits_int s.score ∧ fits_int s.lines_cleared ∧ fits_int s.level ∧ fits_int s.tick_ms
    rw [hs, hl, hlev, htk]
    decide
  · intro fuel t junk s s' _ hP _ _ _ hsd
    rcases soft_drop_cases fuel t junk s s' hsd with ⟨_, rfl⟩ | ⟨_, b1, b2, c, _, _, h3⟩
    · exact hP
    · obtain ⟨_, _, hs, hl, hlev, htk, _⟩ := new_piece_frame t _ s' h3
      show fits_int s'.score ∧ fits_int s'.lines_cleared ∧ fits_int s'.level ∧
        fits_int s'.tick_ms
      rw [hs, hl, hlev, htk]
      exact soft_drop_score_fits junk c { s with board := b2 } hP
  · intro _ s p _ hP _ _; exact hP
  · intro n s _ hP _ _ _; exact hP
  · intro s q hP; exact hP
theorem gravity_loop_level (cfuel : Nat) (ts js : Nat → Int)
    (hts : ∀ i : Nat, 0 ≤ ts i ∧ ts i < 7) (fuel : Nat) :
    ∀ (i : Nat) (fall_accum : Int) (s : State) (r : State × Int), Inv s → CountersFit s →
      gravity_loop cfuel ts js fuel i fall_accum s = some r →
      Inv r.1 ∧ CountersFit r.1 ∧ s.level ≤ r.1.level := by
  induction fuel with
  | zero =>
    intro i fa s r hi hf h
    unfold gravity_loop at h
    split at h
    · cases h
    · cases h; exact ⟨hi, hf, le_refl _⟩
  | succ fuel ih =>
    intro i fa s r hi hf h
    unfold gravity_loop at h
    split at h
    · split at h
      · cases h
      · rename_i s1 hs1
        have hi1 := soft_drop_inv cfuel (ts i) (js i) s s1 hi (hts i).1 (hts i).2 hs1
        have h1 := counter_step_fit s s1 hf (soft_drop_step cfuel (ts i) (js i) s s1 hi hs1)
        by_cases hg1 : s1.game_over = true
        · rw [if_pos hg1] at h; cases h; exact ⟨hi1, h1.1, h1.2.1⟩
        · rw [if_neg hg1] at h
          have h2 := ih _ _ s1 r hi1 h1.1 h
          exact ⟨h2.1, h2.2.1, le_trans h1.2.1 h2.2.2⟩
    · cases h; exact ⟨hi, hf, le_refl _⟩

theorem gravity_phase_level (cfuel fuel : Nat) (ts js : Nat → Int)
    (hts : ∀ i : Nat, 0 ≤ ts i ∧ ts i < 7) (dt fall_accum : Int) (s : State)
    (r : State × Int) (hi : Inv s) (hf : CountersFit s)
    (h : gravity_phase cfuel fuel ts js dt fall_accum s = some r) :
    s.level ≤ r.1.level := by
  unfold gravity_phase at h
  split at h
  · exact (gravity_loop_level cfuel ts js hts fuel 0 _ s r hi hf h).2.2
  · cases h; exact le_refl _

theorem wrap32_add_wrap32 (x y : Int) : wrap32 (wrap32 x + y) = wrap32 (x + y) := by
  unfold wrap32
  have h := Int.emod_add_ediv (x + 2147483648) 4294967296
  have e : (x + 2147483648) % 4294967296 - 2147483648 + y + 2147483648 =
      x + y + 2147483648 + 4294967296 * (-((x + 2147483648) / 4294967296)) := by omega
  rw [e, Int.add_mul_emod_self_left]

/-- The counters at the start of round `k + 1` from those at the start of round `k`. -/
theorem o_round_succ (k : Nat) :
    (o_round (k + 1)).lines_cleared = wrap32 ((o_round k).lines_cleared + 2) ∧
    (Int.tdiv (wrap32 ((o_round k).lines_cleared + 2)) LEVEL_UP_LINES + 1 > (o_round k).level →
      (o_round (k + 1)).level =
        Int.tdiv (wrap32 ((o_round k).lines_cleared + 2)) LEVEL_UP_LINES + 1 ∧
      (o_round (k + 1)).tick_ms = max TICK_MS_MIN (wrap32 (TICK_MS_INITIAL -
        wrap32 ((Int.tdiv (wrap32 ((o_round k).lines_cleared + 2)) LEVEL_UP_LINES + 1 - 1)
          * 45)))) ∧
    (¬ Int.tdiv (wrap32 ((o_round k).lines_cleared + 2)) LEVEL_UP_LINES + 1 >
        (o_round k).level →
      (o_round (k + 1)).level = (o_round k).level ∧
      (o_round (k + 1)).tick_ms = (o_round k).tick_ms) := by
  obtain ⟨h1, _, h3, h4⟩ := soft_drop_score_spec 0 2 300 (o_round k) (by decide) rfl
  exact ⟨h1, h3, h4⟩

/-- After `k` rounds `lines_cleared` is `2 * k` as a 32-bit value. -/
theorem o_round_lines (k : Nat) : (o_round k).lines_cleared = wrap32 (2 * (k : Int)) := by
  induction k with
  | zero => decide
  | succ k ih =>
    rw [(o_round_succ k).1, ih, wrap32_add_wrap32]
    have e : 2 * (k : Int) + 2 = 2 * ((k + 1 : Nat) : Int) := by push_cast; ring
    rw [e]

theorem o_round_lines_small (k : Nat) (h : 2 * (k : Int) ≤ 2147483647) :
    (o_round k).lines_cleared = 2 * (k : Int) := by
  rw [o_round_lines]
  exact wrap32_of_fits _ ⟨by omega, h⟩

/-- The rounds up to `k` are played with `lines_cleared` within `[0, B]` when `2 * k` is
at most `B`. -/
theorem o_round_below (B : Int) (k : Nat) (hk : 2 * (k : Int) ≤ B) (hB : B ≤ 2147483647) :
    ReachableBelow B (o_round k) ∧ ReachableBelow B (o_last k) := by
  apply o_round_while
  intro j hj
  have hj' : (j : Int) ≤ (k : Int) := by exact_mod_cast hj
  rw [o_round_lines_small j (by omega)]
  constructor <;> omega

/-- The counters at the start of round `k` while `2 * k` is at most `477218719`. -/
theorem o_round_counters (k : Nat) (hk : 2 * (k : Int) ≤ 477218719) :
    (o_round k).lines_cleared = 2 * (k : Int) ∧
    (o_round k).level = Int.tdiv (2 * (k : Int)) LEVEL_UP_LINES + 1 ∧
    (o_round k).tick_ms = max TICK_MS_MIN
      (TICK_MS_INITIAL - (Int.tdiv (2 * (k : Int)) LEVEL_UP_LINES + 1 - 1) * 45) := by
  have hb := (o_round_below 477218719 k hk (by decide)).1
  have hl := o_round_lines_small k (by omega)
  have hlev := (below_level _ _ hb).1.2
  have htk : TickOk (o_round k) := below_tick _ (le_refl _) _ hb
  unfold TickOk at htk
  rw [hl] at hlev
  rw [hlev] at htk
  exact ⟨hl, hlev, htk⟩

/-- From round `1073741823` on, when `lines_cleared` is `2147483646`, `level` stays at
`214748365`. -/
theorem o_round_level_stuck (k : Nat) (hk : 1073741823 ≤ k) :
    (o_round k).level = 214748365 := by
  induction k, hk using Nat.le_induction with
  | base =>
    have hb := (o_round_below 2147483647 1073741823 (by decide) (by decide)).1
    have hlev := (below_level _ _ hb).1.2
    rw [o_round_lines_small 1073741823 (by decide)] at hlev
    rw [hlev]
    decide
  | succ k _ ih =>
    obtain ⟨_, _, h3⟩ := o_round_succ k
    have hfit := wrap32_fits ((o_round k).lines_cleared + 2)
    have hnot : ¬ Int.tdiv (wrap32 ((o_round k).lines_cleared + 2)) LEVEL_UP_LINES + 1 >
        (o_round k).level := by
      rw [ih]
      have hL : LEVEL_UP_LINES = 10 := rfl
      rw [hL]
      unfold fits_int at hfit
      generalize wrap32 ((o_round k).lines_cleared + 2) = w at hfit
      rcases le_or_lt 0 w with h | h
      · rw [(tdiv_ten w).1 h]; omega
      · rw [(tdiv_ten w).2 h]; omega
    rw [(h3 hnot).1, ih]

theorem o_last_counters (k : Nat) :
    (o_last k).lines_cleared = (o_round k).lines_cleared ∧
    (o_last k).level = (o_round k).level ∧ (o_last k).tick_ms = (o_round k).tick_ms :=
  ⟨rfl, rfl, rfl⟩

/-- The last landing of round `k` is a landing `soft_drop` and starts round `k + 1`. -/
theorem o_last_lands (k fuel : Nat) (junk : Int) (hfuel : 40 ≤ fuel) :
    can_place (o_last k).board { (o_last k).cur with y := (o_last k).cur.y + 1 } = some false ∧
    soft_drop fuel 1 junk (o_last k) = some (o_round (k + 1)) := by
  obtain ⟨h1, _, _, h4⟩ := o_round_land fuel junk (o_round k) hfuel
  refine ⟨h1, ?_⟩
  have e : stage (soft_drop_score 0 2 (o_round k)) (o_fill 0)
      { x := 3, y := -2, type := 1, rot := 0 } = o_round (k + 1) := o_round_stage (k + 1)
  rw [e] at h4
  exact h4

/-- The round in which `550 - 45 * (level - 1)` first leaves the range of `int`: the
counters before and after the landing that takes `lines_cleared` from `477218718` to
`477218720`. -/
theorem o_round_tick_overflow (k : Nat) (hk : (k : Int) = 238609359) :
    (o_round k).lines_cleared = 477218718 ∧ (o_round k).level = 47721872 ∧
    (o_round k).tick_ms = 80 ∧ (o_round (k + 1)).lines_cleared = 477218720 ∧
    (o_round (k + 1)).level = 47721873 ∧ (o_round (k + 1)).tick_ms = 2147483606 := by
  obtain ⟨h1, h2, h3⟩ := o_round_counters k (by omega)
  rw [hk] at h1 h2 h3
  have e1 : (2 : Int) * 238609359 = 477218718 := by decide
  rw [e1] at h1 h2 h3
  have h2' : (o_round k).level = 47721872 := by rw [h2]; decide
  have h3' : (o_round k).tick_ms = 80 := by rw [h3]; decide
  obtain ⟨s1, s2, _⟩ := o_round_succ k
  rw [h1, h2'] at s2
  rw [h1] at s1
  obtain ⟨s3, s4⟩ := s2 (by decide)
  refine ⟨h1, h2', h3', ?_, ?_, ?_⟩
  · rw [s1]; decide
  · rw [s3]; decide
  · rw [s4]; decide

/-- The rounds around the overflow of `lines_cleared`: after round `1073741824`
`lines_cleared` is `-2147483648`, and `level` is `214748365` from then on, also when
`lines_cleared` goes from 8 to 10 in round `2147483652`. -/
theorem o_round_lines_overflow (k1 k2 : Nat) (hk1 : (k1 : Int) = 1073741824)
    (hk2 : (k2 : Int) = 2147483652) :
    (o_round k1).lines_cleared = -2147483648 ∧ (o_round k1).level = 214748365 ∧
    (o_round k2).lines_cleared = 8 ∧ (o_round k2).level = 214748365 ∧
    (o_round (k2 + 1)).lines_cleared = 10 ∧ (o_round (k2 + 1)).level = 214748365 := by
  refine ⟨?_, o_round_level_stuck k1 (by omega), ?_, o_round_level_stuck k2 (by omega), ?_,
    o_round_level_stuck (k2 + 1) (by omega)⟩
  · rw [o_round_lines, hk1]; decide
  · rw [o_round_lines, hk2]; decide
  · rw [o_round_lines]; push_cast; rw [hk2]; decide

/-- C7 (as stated, refuted): two landings of reachable states.  In round `238609359` the
landing takes `lines_cleared` from `477218718` to `477218720`, a multiple of 10 is
crossed and `level` goes from `47721872` to `47721873`, but `(level - 1) * 45` and the
difference from 550 no longer fit in a 32-bit `int`: `tick_ms` goes from 80 to
`2147483606`, not to `max(80, 80 - 45)`.  In round `2147483652`, after `lines_cleared`
has overflowed, the landing takes it from 8 to 10 and `level` stays `214748365`. -/
theorem C7_counterexample :
    (Reachable (o_last 238609359) ∧
      can_place (o_last 238609359).board
        { (o_last 238609359).cur with y := (o_last 238609359).cur.y + 1 } = some false ∧
      soft_drop 40 1 0 (o_last 238609359) = some (o_round 238609360) ∧
      (o_last 238609359).lines_cleared = 477218718 ∧
      (o_round 238609360).lines_cleared = 477218720 ∧
      Int.tdiv 477218718 LEVEL_UP_LINES < Int.tdiv 477218720 LEVEL_UP_LINES ∧
      (o_last 238609359).tick_ms = 80 ∧ (o_round 238609360).tick_ms = 2147483606 ∧
      (2147483606 : Int) ≠ max TICK_MS_MIN (80 - 45)) ∧
    (Reachable (o_last 2147483652) ∧
      can_place (o_last 2147483652).board
        { (o_last 2147483652).cur with y := (o_last 2147483652).cur.y + 1 } = some false ∧
      soft_drop 40 1 0 (o_last 2147483652) = some (o_round 2147483653) ∧
      (o_last 2147483652).lines_cleared = 8 ∧ (o_round 2147483653).lines_cleared = 10 ∧
      Int.tdiv 8 LEVEL_UP_LINES < Int.tdiv 10 LEVEL_UP_LINES ∧
      (o_last 2147483652).level = 214748365 ∧ (o_round 2147483653).level = 214748365 ∧
      (214748365 : Int) ≠ 214748365 + 1) := by
  obtain ⟨a1, _, a3, a4, _, a6⟩ := o_round_tick_overflow 238609359 (by decide)
  obtain ⟨_, _, b3, b4, b5, b6⟩ := o_round_lines_overflow 1073741824 2147483652
    (by decide) (by decide)
  exact ⟨⟨(o_round_reachable 238609359).2, (o_last_lands 238609359 40 0 (le_refl _)).1,
      (o_last_lands 238609359 40 0 (le_refl _)).2, (o_last_counters 238609359).1.trans a1, a4,
      by decide, (o_last_counters 238609359).2.2.trans a3, a6, by decide⟩,
    ⟨(o_round_reachable 2147483652).2, (o_last_lands 2147483652 40 0 (le_refl _)).1,
      (o_last_lands 2147483652 40 0 (le_refl _)).2, (o_last_counters 2147483652).1.trans b3,
      b5, by decide, (o_last_counters 2147483652).2.1.trans b4, b6, by decide⟩⟩

/-- C7 (amended): in every reachable state a `soft_drop` (in particular a landing one)
returns a state once `clear_lines` is allowed its iterations; in the state it returns
`level` has not decreased and has grown by at most 1, and when `lines_cleared / 10` is
unchanged (no multiple of `LEVEL_UP_LINES = 10` crossed) `level` and `tick_ms` are
unchanged.  As long as `lines_cleared` has not overflowed (it has stayed within
`[0, 2147483647]` since the start), a `soft_drop` that increases `lines_cleared / 10`
increases `level` by exactly 1.  As long as `lines_cleared` has stayed within
`[0, 477218719]`, the new value included (so that `550 - 45 * (level - 1)` has not
overflowed), such a `soft_drop` makes `tick_ms` `max(80, previous tick_ms - 45)`. -/
theorem C7_level_up_by_one (s : State) (hr : Reachable s) (fuel : Nat) (t junk : Int)
    (ht0 : 0 ≤ t) (ht1 : t < 7) :
    (2 * BOARD_H.toNat ≤ fuel → ∃ s' : State, soft_drop fuel t junk s = some s') ∧
    ∀ s' : State, soft_drop fuel t junk s = some s' →
      s'.level ≤ s.level + 1 ∧ s.level ≤ s'.level ∧
      (Int.tdiv s'.lines_cleared LEVEL_UP_LINES = Int.tdiv s.lines_cleared LEVEL_UP_LINES →
        s'.level = s.level ∧ s'.tick_ms = s.tick_ms) ∧
      (ReachableBelow 2147483647 s →
        Int.tdiv s.lines_cleared LEVEL_UP_LINES < Int.tdiv s'.lines_cleared LEVEL_UP_LINES →
        s'.level = s.level + 1) ∧
      (ReachableBelow 477218719 s → s'.lines_cleared ≤ 477218719 →
        Int.tdiv s.lines_cleared LEVEL_UP_LINES < Int.tdiv s'.lines_cleared LEVEL_UP_LINES →
        s'.tick_ms = max TICK_MS_MIN (s.tick_ms - 45)) := by
  have hi := reachable_inv s hr
  have hf := reachable_fit s hr
  refine ⟨soft_drop_defined fuel t junk s hi ht0 ht1, ?_⟩
  intro s' h
  have hst := soft_drop_step fuel t junk s s' hi h
  obtain ⟨_, p1, p2, p3⟩ := counter_step_fit s s' hf hst
  refine ⟨p2, p1, p3, ?_, ?_⟩
  · intro hb hcross
    have hlv := (below_level _ s hb).1
    exact ((hst hf.1).2.1 hlv.1 hlv.2).1 hcross
  · intro hb hle hcross
    have hlv := (below_level _ s hb).1
    have htk : TickOk s := below_tick _ (le_refl _) s hb
    have h0' : 0 ≤ s'.lines_cleared := by
      have hL : LEVEL_UP_LINES = 10 := rfl
      rw [hL, (tdiv_ten s.lines_cleared).1 hlv.1] at hcross
      by_contra hneg
      rw [(tdiv_ten s'.lines_cleared).2 (by omega)] at hcross
      have := hlv.1
      omega
    exact ((hst hf.1).2.2 hlv.1 hlv.2 htk h0' hle).2 hcross

theorem C7_witness :
    soft_drop 40 1 0 (o_last 4) = some (o_round 5) ∧
    (o_last 4).lines_cleared = 8 ∧ (o_round 5).lines_cleared = 10 ∧
    (o_round 5).level = (o_last 4).level + 1 ∧
    (o_round 5).tick_ms = max TICK_MS_MIN ((o_last 4).tick_ms - 45) ∧
    (o_round 5).level = 2 ∧ (o_round 5).tick_ms = 505 := by
  have hland := (o_last_lands 4 40 0 (le_refl _)).2
  have hb := (o_round_below 477218719 4 (by decide) (by decide)).2
  obtain ⟨_, _, _, h4, h5⟩ := (C7_level_up_by_one (o_last 4) (o_round_reachable 4).2 40 1 0
    (by decide) (by decide)).2 (o_round 5) hland
  exact ⟨hland, by decide, by decide,
    h4 (below_mono _ _ (by decide) _ hb) (by decide),
    h5 hb (by decide) (by decide), by decide, by decide⟩

/-- C15 (as stated, refuted): two reachable states.  At the start of round `238609360`
`lines_cleared` is `477218720` and `level` is `47721873`, but `tick_ms` is
`2147483606`: it is neither `max(80, 550 - 45 * (level - 1))` nor at most 550.  At the
start of round `1073741824` `lines_cleared` has overflowed to `-2147483648` while `level`
is `214748365`, which is not `lines_cleared / 10 + 1`. -/
theorem C15_counterexample :
    (Reachable (o_round 238609360) ∧ (o_round 238609360).lines_cleared = 477218720 ∧
      (o_round 238609360).level = 47721873 ∧ (o_round 238609360).tick_ms = 2147483606 ∧
      (2147483606 : Int) ≠ max TICK_MS_MIN (TICK_MS_INITIAL - 45 * (47721873 - 1)) ∧
      ¬ (2147483606 : Int) ≤ 550) ∧
    (Reachable (o_round 1073741824) ∧ (o_round 1073741824).lines_cleared = -2147483648 ∧
      (o_round 1073741824).level = 214748365 ∧
      (214748365 : Int) ≠ Int.tdiv (-2147483648) LEVEL_UP_LINES + 1 ∧
      (214748365 : Int) ≠ (-2147483648) / 10 + 1) := by
  obtain ⟨_, _, _, a4, a5, a6⟩ := o_round_tick_overflow 238609359 (by decide)
  obtain ⟨b1, b2, _⟩ := o_round_lines_overflow 1073741824 2147483652 (by decide) (by decide)
  exact ⟨⟨(o_round_reachable 238609360).1, a4, a5, a6, by decide, by decide⟩,
    ⟨(o_round_reachable 1073741824).1, b1, b2, by decide, by decide⟩⟩

/-- C15 (amended): in every reachable state `level ≥ 1` and `tick_ms ≥ 80`, and no
`soft_drop`, key dispatch or gravity phase started there returns a smaller level.  As long
as `lines_cleared` has not overflowed (it has stayed within `[0, 2147483647]` since the
start), `level == lines_cleared / 10 + 1` (C's integer division, which is the floor
here).  As long as `lines_cleared` has stayed within `[0, 477218719]` (so that
`550 - 45 * (level - 1)` has not overflowed), `tick_ms == max(80, 550 - 45 * (level - 1))`
and hence `80 ≤ tick_ms ≤ 550`. -/
theorem C15_level_and_tick_follow_lines (s : State) (hr : Reachable s) :
    1 ≤ s.level ∧ 80 ≤ s.tick_ms ∧
    (∀ (fuel : Nat) (t junk : Int) (s' : State), 0 ≤ t → t < 7 →
      soft_drop fuel t junk s = some s' → s.level ≤ s'.level) ∧
    (∀ (fuel : Nat) (t junk : Int) (k : Key) (s' : State), 0 ≤ t → t < 7 →
      key_dispatch fuel t junk k s = some s' → s.level ≤ s'.level) ∧
    (∀ (cfuel fuel : Nat) (ts js : Nat → Int) (dt fall_accum : Int) (r : State × Int),
      (∀ i : Nat, 0 ≤ ts i ∧ ts i < 7) →
      gravity_phase cfuel fuel ts js dt fall_accum s = some r → s.level ≤ r.1.level) ∧
    (ReachableBelow 2147483647 s →
      0 ≤ s.lines_cleared ∧ s.level = Int.tdiv s.lines_cleared LEVEL_UP_LINES + 1 ∧
      s.level = s.lines_cleared / 10 + 1) ∧
    (ReachableBelow 477218719 s →
      s.tick_ms = max TICK_MS_MIN (TICK_MS_INITIAL - 45 * (s.level - 1)) ∧
      s.tick_ms ≤ 550) := by
  have hi := reachable_inv s hr
  have hf := reachable_fit s hr
  refine ⟨hf.2.2.1, hf.2.2.2, ?_, ?_, ?_, ?_, ?_⟩
  · intro fuel t junk s' _ _ h
    exact (counter_step_fit s s' hf (soft_drop_step fuel t junk s s' hi h)).2.1
  · intro fuel t junk k s' _ _ h
    exact (counter_step_fit s s' hf (key_dispatch_step fuel t junk k s s' hi h)).2.1
  · intro cfuel fuel ts js dt fa r hts h
    exact gravity_phase_level cfuel fuel ts js hts dt fa s r hi hf h
  · intro hb
    obtain ⟨h0, hlev⟩ := (below_level _ s hb).1
    refine ⟨h0, hlev, ?_⟩
    have hL : LEVEL_UP_LINES = 10 := rfl
    rw [hlev, hL, (tdiv_ten s.lines_cleared).1 h0]
  · intro hb
    have htk : TickOk s := below_tick _ (le_refl _) s hb
    unfold TickOk at htk
    have hT : TICK_MS_MIN = 80 := rfl
    have hI : TICK_MS_INITIAL = 550 := rfl
    have h1 := hf.2.2.1
    constructor
    · rw [htk, mul_comm]
    · rw [htk, hT, hI]
      unfold max
      split_ifs <;> omega

theorem C15_witness :
    (1 : Int) ≤ (o_round 5).level ∧ (o_round 5).lines_cleared = 10 ∧
    (o_round 5).level = (o_round 5).lines_cleared / 10 + 1 ∧
    (o_round 5).tick_ms = max TICK_MS_MIN (TICK_MS_INITIAL - 45 * ((o_round 5).level - 1)) ∧
    (o_round 5).tick_ms ≤ 550 ∧ (o_round 5).level = 2 ∧ (o_round 5).tick_ms = 505 := by
  have hb := (o_round_below 477218719 5 (by decide) (by decide)).1
  obtain ⟨h1, _, _, _, _, h6, h7⟩ :=
    C15_level_and_tick_follow_lines (o_round 5) (o_round_reachable 5).1
  exact ⟨h1, by decide, (h6 (below_mono _ _ (by decide) _ hb)).2.2, (h7 hb).1, (h7 hb).2,
    by decide, by decide⟩

end Tetris
